import Mathlib

set_option maxHeartbeats 1000000
set_option maxRecDepth 100000
set_option linter.unusedVariables false

/-!
Shallow embedding of the BitMagic multi-way bit-vector aggregation engine
(`bmaggregator.h`, `template<typename BV> class bm::aggregator`).

Modelling conventions:
* A dense bit block (`bm::word_t` block of `bm::gap_max_bits` bits) is a
  `List Bool` of length `W` (bit index 0 first); the word structure of the
  C code is translated to bit positions (`blk[0] |= c` sets bit 0,
  `blk[bm::set_block_size-1] >> 31` reads bit `W-1`).
* A GAP (run-length compressed) block is modelled by its expanded bit
  contents; the GAP codec itself is an external kernel of the host library.
* A sub-directory slot is `Slot`: null (all zeros), the all-ones sentinel
  (`FULL_BLOCK_FAKE_ADDR`/`FULL_BLOCK_REAL_ADDR`), a GAP block, or a plain
  bit block.  `bm::set_array_size` is the parameter `SA`,
  `bm::gap_max_bits` is `W`, `bm::set_total_blocks` is `SA * SA`.
* The 64-bit block digest is modelled as a list of per-slice flags, one
  flag per `D`-bit slice of the block (`D` models the slice width
  `bm::set_block_digest_wave_size` in bits); `~0ull` is 64 set flags.
* External block kernels (`bm::bit_block_or`, `bm::bit_block_and`, ...)
  are not part of this repository's source; they are modelled from the
  spec's kernel contracts.  Digest-pruned kernels are modelled as acting
  on the whole block: on slices outside the digest the block is already
  all-zero, so pruning does not change contents.
-/

namespace bm

/-- Dense plain bit block, bit 0 first; width is the parameter `W`. -/
abbrev BitBlk := List Bool

/-- One sub-directory slot of a bit-vector: null (all zeros), the
uniform all-ones sentinel, a GAP block (modelled by its expanded bits),
or a plain bit block. -/
inductive Slot where
  | null : Slot
  | full : Slot
  | gap (g : List Bool) : Slot
  | plain (b : List Bool) : Slot
deriving DecidableEq

/-- A bit-vector: two-level block directory (top directory of optional
sub-directories of slots) plus the logical bit size. -/
structure BVec where
  top : List (Option (List Slot))
  sz : Nat
deriving DecidableEq

/-- blocks_manager::get_block_ptr(i, j): resolve the slot at block
coordinate (i, j); an absent top entry or slot is the null block. -/
def get_block_ptr (bv : BVec) (i j : Nat) : Slot :=
  match bv.top.getD i none with
  | none => Slot.null
  | some row => row.getD j Slot.null

/-- Content of one bit of a slot: null is all-zeros, the all-ones
sentinel is all-ones, GAP and plain blocks carry their bit lists. -/
def slotBit (s : Slot) (b : Nat) : Bool :=
  match s with
  | Slot.null => false
  | Slot.full => true
  | Slot.gap g => g.getD b false
  | Slot.plain p => p.getD b false

/-- Bit `n` of a bit-vector, reading through the two-level directory:
top index `n / (SA*W)`, sub index `(n / W) % SA`, bit `n % W`. -/
def bvBit (W SA : Nat) (bv : BVec) (n : Nat) : Bool :=
  slotBit (get_block_ptr bv (n / (SA * W)) ((n / W) % SA)) (n % W)

/-- A slot holds at least one set bit. -/
def slotAny : Slot → Bool
  | Slot.null => false
  | Slot.full => true
  | Slot.gap g => g.any id
  | Slot.plain p => p.any id

/-- bvector::any(): some bit of the vector is set. -/
def bvAny (t : BVec) : Bool :=
  t.top.any (fun r =>
    match r with
    | none => false
    | some row => row.any slotAny)

/-- Well-formedness of a source vector for block width `W` and
sub-directory size `SA`: every materialized GAP/plain block has exactly
`W` bits and the top directory does not exceed `SA` entries. -/
def bvWF (W SA : Nat) (bv : BVec) : Bool :=
  decide (bv.top.length ≤ SA) &&
  bv.top.all (fun r =>
    match r with
    | none => true
    | some row => row.all (fun s =>
        match s with
        | Slot.plain b => b.length == W
        | Slot.gap g => g.length == W
        | _ => true))

/-- Well-formedness of a whole source list. -/
def bvsWF (W SA : Nat) (srcs : List BVec) : Bool :=
  srcs.all (bvWF W SA)

-- ---------------------------------------------------------------------
-- External block kernels (modelled from the spec's kernel contracts)
-- ---------------------------------------------------------------------

/-- Modelled from the spec: external kernel `bm::bit_block_set` - fill a
plain block with 0 or all-ones. -/
def bit_block_set (W : Nat) (v : Bool) : BitBlk := List.replicate W v

/-- Pointwise AND of two equal-width blocks (external kernels
`bm::bit_block_and`, `bm::bit_block_and_2way`, `bm::gap_and_to_bitset`). -/
def bbAnd (a b : BitBlk) : BitBlk := List.zipWith and a b

/-- Pointwise OR of two equal-width blocks (external kernels
`bm::bit_block_or` and friends, `bm::gap_add_to_bitset`). -/
def bbOr (a b : BitBlk) : BitBlk := List.zipWith or a b

/-- Pointwise SUB (`dst &= ~src`) of two equal-width blocks (external
kernels `bm::bit_block_sub`, `bm::gap_sub_to_bitset`). -/
def bbSub (a b : BitBlk) : BitBlk := List.zipWith (fun x y => x && !y) a b

/-- An entry of the collected argument block list `v_arg_blk`:
`none` stands for `FULL_BLOCK_REAL_ADDR` (the shared canonical all-ones
block), `some b` for a pointer to an ordinary plain block.  Kernels that
read through the pointer see the all-ones contents for `FULL_REAL`. -/
def derefA (W : Nat) : Option BitBlk → BitBlk
  | none => List.replicate W true
  | some b => b

/-- Block digest, modelled as one flag per `D`-bit slice of the block
(the C code packs these flags in a 64-bit word). -/
abbrev Digest := List Bool

/-- Slice `d` of a block (bits `d*D ..< d*D+D`) holds a set bit. -/
def sliceAny (D : Nat) (b : BitBlk) (d : Nat) : Bool :=
  (List.range D).any (fun r => b.getD (d * D + r) false)

/-- Modelled from the spec: external kernel `bm::calc_block_digest0` -
one flag per `D`-bit slice, set iff the slice is non-empty. -/
def calc_block_digest0 (D : Nat) (b : BitBlk) : Digest :=
  (List.range ((b.length + D - 1) / D)).map (sliceAny D b)

/-- Pointwise AND of digests (masking one 64-bit digest with another). -/
def listAnd (a b : List Bool) : List Bool := List.zipWith and a b

/-- Modelled from the spec: external kernel `bm::update_block_digest0` -
recompute the digest of a block, only ever clearing digest bits. -/
def update_block_digest0 (D : Nat) (b : BitBlk) (dg : Digest) : Digest :=
  listAnd dg (calc_block_digest0 D b)

/-- Digest is non-zero. -/
def dgAny (dg : Digest) : Bool := dg.any id

/-- The all-ones 64-bit digest literal `~0ull`. -/
def fullDigest : Digest := List.replicate 64 true

/-- Modelled from the spec: external kernel `bm::bit_find_first` - index
of the first (lowest) set bit of a non-empty block. -/
def bit_find_first (b : BitBlk) : Nat := b.findIdx id

-- ---------------------------------------------------------------------
-- aggregator state and argument groups (aggregator::add / reset)
-- ---------------------------------------------------------------------

/-- aggregator<BV>::max_aggregator_cap. -/
def max_aggregator_cap : Nat := 256

/-- Error surfaced by `BM_ASSERT_THROW(..., BM_ERR_RANGE)`: capacity /
range violation. -/
inductive AggErr where
  | errRange : AggErr
deriving DecidableEq

/-- Configured argument groups of an aggregator (arena pointers
`arg_bv0` / `arg_bv1` together with the group sizes). -/
structure AggState where
  arg_bv0 : List BVec
  arg_bv1 : List BVec
deriving DecidableEq

/-- aggregator::add(bv, agr_group): attach a source vector to argument
group 0 or 1.  The capacity check (`BM_ASSERT_THROW(size < cap)`) runs
before the null check; a null pointer is then ignored and the current
group size returned; otherwise the vector is appended and the new size
returned. -/
def add (st : AggState) (bv : Option BVec) (agr_group : Nat) :
    Except AggErr (AggState × Nat) :=
  if ¬ (agr_group ≤ 1) then Except.error AggErr.errRange
  else if agr_group ≠ 0 then
    if ¬ (st.arg_bv1.length < max_aggregator_cap) then Except.error AggErr.errRange
    else
      match bv with
      | none => Except.ok (st, st.arg_bv1.length)
      | some v => Except.ok ({ st with arg_bv1 := st.arg_bv1 ++ [v] },
                             st.arg_bv1.length + 1)
  else
    if ¬ (st.arg_bv0.length < max_aggregator_cap) then Except.error AggErr.errRange
    else
      match bv with
      | none => Except.ok (st, st.arg_bv0.length)
      | some v => Except.ok ({ st with arg_bv0 := st.arg_bv0 ++ [v] },
                             st.arg_bv0.length + 1)

/-- aggregator::reset(): forget all attached vectors. -/
def reset (_st : AggState) : AggState := ⟨[], []⟩

-- ---------------------------------------------------------------------
-- Block sorters (sort_input_blocks_or / sort_input_blocks_and)
-- ---------------------------------------------------------------------

/-- Loop body of `sort_input_blocks_or`: scan the sources, skip null
blocks, bucket GAP and plain blocks; a uniform all-ones block aborts the
scan, zeroes both counts and returns `FULL_BLOCK_FAKE_ADDR` (the `Bool`
component). -/
def sortOrGo (i j : Nat) : List BVec → List (Option BitBlk) → List (List Bool) →
    Bool × List (Option BitBlk) × List (List Bool)
  | [], ps, gs => (false, ps, gs)
  | bv :: rest, ps, gs =>
    match get_block_ptr bv i j with
    | Slot.null => sortOrGo i j rest ps gs
    | Slot.gap g => sortOrGo i j rest ps (gs ++ [g])
    | Slot.full => (true, [], [])
    | Slot.plain b => sortOrGo i j rest (ps ++ [some b]) gs

/-- aggregator::sort_input_blocks_or. -/
def sort_input_blocks_or (srcs : List BVec) (i j : Nat) :
    Bool × List (Option BitBlk) × List (List Bool) :=
  sortOrGo i j srcs [] []

/-- Loop body of `sort_input_blocks_and`: a null source block aborts the
scan, zeroes both counts and returns the null pointer (`Bool` component
false); uniform all-ones blocks are canonicalized to
`FULL_BLOCK_REAL_ADDR` (`none`) in the plain list. -/
def sortAndGo (i j : Nat) : List BVec → List (Option BitBlk) → List (List Bool) →
    Bool × List (Option BitBlk) × List (List Bool)
  | [], ps, gs => (true, ps, gs)
  | bv :: rest, ps, gs =>
    match get_block_ptr bv i j with
    | Slot.null => (false, [], [])
    | Slot.gap g => sortAndGo i j rest ps (gs ++ [g])
    | Slot.full => sortAndGo i j rest (ps ++ [none]) gs
    | Slot.plain b => sortAndGo i j rest (ps ++ [some b]) gs

/-- aggregator::sort_input_blocks_and.  The `Bool` component is true for
`FULL_BLOCK_FAKE_ADDR` (keep working) and false for the null pointer
(golden all-zero block). -/
def sort_input_blocks_and (srcs : List BVec) (i j : Nat) :
    Bool × List (Option BitBlk) × List (List Bool) :=
  sortAndGo i j srcs [] []

-- ---------------------------------------------------------------------
-- Per-block OR reduction (process_bit_blocks_or / process_gap_blocks_or)
-- ---------------------------------------------------------------------

/-- Tail of the OR loop: single `bm::bit_block_or` folds, reporting the
all-ones early exit. -/
def procOr1 (W : Nat) (blk : BitBlk) : List (Option BitBlk) → Bool × BitBlk
  | [] => (false, blk)
  | a :: rest =>
    let r := bbOr blk (derefA W a)
    if r.all id then (true, r) else procOr1 W r rest

/-- Middle of the OR loop: `bm::bit_block_or_3way` (2 operands at a
time) while at least 2 blocks remain. -/
def procOr2 (W : Nat) (blk : BitBlk) : List (Option BitBlk) → Bool × BitBlk
  | a :: b :: rest =>
    let r := bbOr (bbOr blk (derefA W a)) (derefA W b)
    if r.all id then (true, r) else procOr2 W r rest
  | l => procOr1 W blk l

/-- Head of the OR loop: `bm::bit_block_or_5way` (4 operands at a time)
while at least 4 blocks remain; the unrolled loop bounds
`len - len % factor` of the source are exactly "while that many blocks
remain". -/
def procOr4 (W : Nat) (blk : BitBlk) : List (Option BitBlk) → Bool × BitBlk
  | a :: b :: c :: d :: rest =>
    let r := bbOr (bbOr (bbOr (bbOr blk (derefA W a)) (derefA W b)) (derefA W c))
                  (derefA W d)
    if r.all id then (true, r) else procOr4 W r rest
  | l => procOr2 W blk l

/-- aggregator::process_bit_blocks_or: copy the first plain block (or
zero the scratch), then OR-fold the rest; `Bool` reports the all-ones
(`FULL_BLOCK_FAKE_ADDR` committed) early exit. -/
def process_bit_blocks_or (W : Nat) (ps : List (Option BitBlk)) : Bool × BitBlk :=
  match ps with
  | [] => (false, bit_block_set W false)
  | p :: rest => procOr4 W (derefA W p) rest

/-- aggregator::process_gap_blocks_or: OR every GAP expansion into the
scratch block, then test for all-ones once. -/
def process_gap_blocks_or (blk : BitBlk) (gs : List (List Bool)) : Bool × BitBlk :=
  let r := gs.foldl bbOr blk
  (r.all id, r)

/-- aggregator::combine_or(i, j, ...) reduced to the slot committed at
(i, j): `FULL_BLOCK_FAKE_ADDR` for golden all-ones, a copied plain block
for ordinary results, or no write (null). -/
def combine_or_block (W : Nat) (srcs : List BVec) (i j : Nat) : Slot :=
  let s := sort_input_blocks_or srcs i j
  if s.1 then Slot.full
  else if s.2.1.length ≠ 0 ∨ s.2.2.length ≠ 0 then
    let r1 := process_bit_blocks_or W s.2.1
    if r1.1 then Slot.full
    else if s.2.2.length ≠ 0 then
      let r2 := process_gap_blocks_or r1.2 s.2.2
      if r2.1 then Slot.full else Slot.plain r2.2
    else Slot.plain r1.2
  else Slot.null

-- ---------------------------------------------------------------------
-- Per-block AND reduction (process_bit_blocks_and / process_gap_blocks_and)
-- ---------------------------------------------------------------------

/-- Tail loop of `process_bit_blocks_and`: skip `FULL_BLOCK_REAL_ADDR`
entries, AND everything else into the scratch block with digest update
(`bm::bit_block_and`), aborting once the digest is all-zero. -/
def procAndLoop (D : Nat) : List (Option BitBlk) → BitBlk → Digest → BitBlk × Digest
  | [], blk, dg => (blk, dg)
  | none :: rest, blk, dg => procAndLoop D rest blk dg
  | some a :: rest, blk, dg =>
    let blk2 := bbAnd blk a
    let dg2 := update_block_digest0 D blk2 dg
    if dgAny dg2 then procAndLoop D rest blk2 dg2 else (blk2, dg2)

/-- aggregator::process_bit_blocks_and: 0 blocks - scratch all-ones and
digest `~0ull`; 1 block - copy and compute the digest; otherwise
initialize with `bm::bit_block_and_2way` and fold the rest. -/
def process_bit_blocks_and (W D : Nat) (ps : List (Option BitBlk)) : BitBlk × Digest :=
  match ps with
  | [] => (bit_block_set W true, fullDigest)
  | [p] =>
    let b := derefA W p
    (b, calc_block_digest0 D b)
  | p :: q :: rest =>
    let b0 := bbAnd (derefA W p) (derefA W q)
    let dg0 := listAnd fullDigest (calc_block_digest0 D b0)
    procAndLoop D rest b0 dg0

/-- aggregator::process_gap_blocks_and: AND every GAP expansion into the
scratch block with digest update, aborting once the digest is zero. -/
def process_gap_blocks_and (D : Nat) : List (List Bool) → BitBlk → Digest → BitBlk × Digest
  | [], blk, dg => (blk, dg)
  | g :: rest, blk, dg =>
    let blk2 := bbAnd blk g
    let dg2 := update_block_digest0 D blk2 dg
    if dgAny dg2 then process_gap_blocks_and D rest blk2 dg2 else (blk2, dg2)

/-- aggregator::combine_and(i, j, ...) reduced to the block committed at
(i, j) (`none`: nothing written, the target block stays all-zero). -/
def combine_and_block (W D : Nat) (srcs : List BVec) (i j : Nat) : Option BitBlk :=
  let s := sort_input_blocks_and srcs i j
  if ¬ s.1 then none
  else if s.2.1.length ≠ 0 ∨ s.2.2.length ≠ 0 then
    let r1 := process_bit_blocks_and W D s.2.1
    if ¬ dgAny r1.2 then none
    else
      let r2 := if s.2.2.length ≠ 0 then process_gap_blocks_and D s.2.2 r1.1 r1.2 else r1
      if dgAny r2.2 then some r2.1 else none
  else none

-- ---------------------------------------------------------------------
-- Per-block SUB phase (process_bit_blocks_sub / process_gap_blocks_sub)
-- ---------------------------------------------------------------------

/-- aggregator::process_bit_blocks_sub: a `FULL_BLOCK_REAL_ADDR` entry
zeroes the digest and stops; otherwise `bm::bit_block_sub` with digest
update, aborting on a zero digest. -/
def process_bit_blocks_sub (D : Nat) : List (Option BitBlk) → BitBlk → Digest → BitBlk × Digest
  | [], blk, dg => (blk, dg)
  | none :: _, blk, dg => (blk, dg.map (fun _ => false))
  | some a :: rest, blk, dg =>
    let blk2 := bbSub blk a
    let dg2 := update_block_digest0 D blk2 dg
    if dgAny dg2 then process_bit_blocks_sub D rest blk2 dg2 else (blk2, dg2)

/-- aggregator::process_gap_blocks_sub. -/
def process_gap_blocks_sub (D : Nat) : List (List Bool) → BitBlk → Digest → BitBlk × Digest
  | [], blk, dg => (blk, dg)
  | g :: rest, blk, dg =>
    let blk2 := bbSub blk g
    let dg2 := update_block_digest0 D blk2 dg
    if dgAny dg2 then process_gap_blocks_sub D rest blk2 dg2 else (blk2, dg2)

/-- The SUB half of aggregator::combine_and_sub(i, j, ...): run the OR
sorter over the subtraction group; `FULL_BLOCK_FAKE_ADDR` returns digest
0 ("everything subtracted"); otherwise SUB the plain blocks and GAP
expansions from the scratch block, aborting on a zero digest. -/
def cas_sub_part (W D : Nat) (g1 : List BVec) (i j : Nat) (blk : BitBlk)
    (dg : Digest) : Digest × BitBlk :=
  if g1.length ≠ 0 then
    let s2 := sort_input_blocks_or g1 i j
    if s2.1 then ([], blk)
    else if s2.2.1.length ≠ 0 ∨ s2.2.2.length ≠ 0 then
      let r3 := process_bit_blocks_sub D s2.2.1 blk dg
      if ¬ dgAny r3.2 then (r3.2, r3.1)
      else
        let r4 := if s2.2.2.length ≠ 0 then process_gap_blocks_sub D s2.2.2 r3.1 r3.2 else r3
        (r4.2, r4.1)
    else (dg, blk)
  else (dg, blk)

/-- aggregator::combine_and_sub(i, j, ...): the fused AND-SUB reduction
of one block, returning the final digest together with the scratch block
`tb1` (the caller commits `tb1` iff the digest is non-zero; on zero
digest `tb1` is not read). -/
def combine_and_sub_block (W D : Nat) (g0 g1 : List BVec) (i j : Nat) :
    Digest × BitBlk :=
  let s := sort_input_blocks_and g0 i j
  if ¬ s.1 then ([], bit_block_set W false)
  else if s.2.1.length ≠ 0 ∨ s.2.2.length ≠ 0 then
    let r1 := process_bit_blocks_and W D s.2.1
    if ¬ dgAny r1.2 then (r1.2, r1.1)
    else
      let r2 := if s.2.2.length ≠ 0 then process_gap_blocks_and D s.2.2 r1.1 r1.2 else r1
      if ¬ dgAny r2.2 then (r2.2, r2.1)
      else cas_sub_part W D g1 i j r2.1 r2.2
  else ([], bit_block_set W false)

-- ---------------------------------------------------------------------
-- Effective sub-block range (find_effective_sub_block_size)
-- ---------------------------------------------------------------------

/-- Descending scan of one sub-directory row from index `j` down while
`j > m`: the first non-null slot index, or `m` when none is found. -/
def scanDown (r : List Slot) (m : Nat) : Nat → Nat
  | 0 => m
  | j + 1 =>
    if j + 1 ≤ m then m
    else if r.getD (j + 1) Slot.null ≠ Slot.null then j + 1
    else scanDown r m j

/-- aggregator::find_effective_sub_block_size: fold the descending scans
over all sources starting from `max_size = 1`, then add one. -/
def find_effective_sub_block_size (SA : Nat) (srcs : List BVec) (i : Nat) : Nat :=
  (srcs.foldl (fun m bv =>
    match bv.top.getD i none with
    | none => m
    | some row => scanDown row m (SA - 1)) 1) + 1

-- ---------------------------------------------------------------------
-- Target plumbing (blocks manager writes, resize_target)
-- ---------------------------------------------------------------------

/-- bvector::clear(): drop all blocks, keeping the top directory size. -/
def clearBV (t : BVec) : BVec := ⟨t.top.map (fun _ => none), t.sz⟩

/-- blocks_manager::is_init(). -/
def is_init (t : BVec) : Bool := t.top.length ≠ 0

/-- blocks_manager::init_tree(): allocate the top directory. -/
def init_tree (SA : Nat) (t : BVec) : BVec := ⟨List.replicate SA none, t.sz⟩

/-- One pre-scan step of `resize_target`: grow the target's top
directory (`reserve_top_blocks`) and bit size (`resize`) to cover one
source. -/
def reserveStep (t : BVec) (bv : BVec) : BVec :=
  let t1 : BVec :=
    if bv.top.length > t.top.length then
      ⟨t.top ++ List.replicate (bv.top.length - t.top.length) none, t.sz⟩
    else t
  if bv.sz > t1.sz then ⟨t1.top, bv.sz⟩ else t1

/-- aggregator::resize_target: optionally init/clear the target, then
harmonize top-directory size and bit length with all sources; returns
the new target and the effective top block count. -/
def resize_target (SA : Nat) (t : BVec) (srcs : List BVec) (init_clear : Bool) :
    BVec × Nat :=
  let t0 := if init_clear then (if ¬ is_init t then init_tree SA t else clearBV t) else t
  let t1 := srcs.foldl reserveStep t0
  (t1, t1.top.length)

/-- Grow the top directory so index `i` exists
(`check_alloc_top_subblock` / `check_allocate_block` allocation). -/
def ensureTop (t : BVec) (i : Nat) : BVec :=
  if i < t.top.length then t
  else ⟨t.top ++ List.replicate (i + 1 - t.top.length) none, t.sz⟩

/-- Write slot (i, j) of the target (covers `set_block_ptr`,
`copy_bit_block`, `zero_block`); allocates the sub-directory row when
missing. -/
def setSlot (SA : Nat) (t : BVec) (i j : Nat) (s : Slot) : BVec :=
  let t1 := ensureTop t i
  let row :=
    match t1.top.getD i none with
    | none => List.replicate SA Slot.null
    | some r => r
  ⟨t1.top.set i (some (row.set j s)), t1.sz⟩

/-- Commit a per-block reduction result: null means no write occurred. -/
def writeSlot (SA : Nat) (t : BVec) (i j : Nat) (s : Slot) : BVec :=
  if s = Slot.null then t else setSlot SA t i j s

/-- The nested (i, j) driver loop shared by `combine_or` and
`combine_and`: for each top index `i < top` visit sub indices
`j < j_max(i)` with a do-while loop (so at least `j = 0`). -/
def gridFold (SA top : Nat) (jmax : Nat → Nat) (f : Nat → Nat → Slot) (t : BVec) : BVec :=
  (List.range top).foldl (fun tt i =>
    (List.range (max (jmax i) 1)).foldl (fun tt2 j => writeSlot SA tt2 i j (f i j)) tt) t

-- ---------------------------------------------------------------------
-- Top-level drivers: combine_or / combine_and / combine_and_sub /
-- find_first_and_sub
-- ---------------------------------------------------------------------

/-- aggregator::combine_or(bv_target, bv_src, src_size). -/
def combine_or (W SA : Nat) (t : BVec) (srcs : List BVec) : Except AggErr BVec :=
  if ¬ (srcs.length < max_aggregator_cap) then Except.error AggErr.errRange
  else if srcs.length = 0 then Except.ok (clearBV t)
  else
    let r := resize_target SA t srcs true
    Except.ok (gridFold SA r.2 (fun i => find_effective_sub_block_size SA srcs i)
      (fun i j => combine_or_block W srcs i j) r.1)

/-- aggregator::combine_and(bv_target, bv_src, src_size). -/
def combine_and (W SA D : Nat) (t : BVec) (srcs : List BVec) : Except AggErr BVec :=
  if ¬ (srcs.length < max_aggregator_cap) then Except.error AggErr.errRange
  else if srcs.length = 0 then Except.ok (clearBV t)
  else
    let r := resize_target SA t srcs true
    Except.ok (gridFold SA r.2 (fun i => find_effective_sub_block_size SA srcs i)
      (fun i j =>
        match combine_and_block W D srcs i j with
        | some b => Slot.plain b
        | none => Slot.null) r.1)

/-- Effective sub-block range of the AND-SUB drivers: maximum of the
effective ranges of the AND group and (when non-empty) the SUB group. -/
def casJmax (SA : Nat) (g0 g1 : List BVec) (i : Nat) : Nat :=
  let m := find_effective_sub_block_size SA g0 i
  if g1.length ≠ 0 then
    let m2 := find_effective_sub_block_size SA g1 i
    if m2 > m then m2 else m
  else m

/-- Inner (j) loop of `combine_and_sub`: commit `tb1` on non-zero
digest, early-return when `any` is set; the third component reports the
early return. -/
def casCols (W D SA : Nat) (g0 g1 : List BVec) (anyF : Bool) (i : Nat) :
    List Nat → BVec → Bool → BVec × Bool × Bool
  | [], t, found => (t, found, false)
  | j :: rest, t, found =>
    let r := combine_and_sub_block W D g0 g1 i j
    if dgAny r.1 then
      let t2 := setSlot SA t i j (Slot.plain r.2)
      if anyF then (t2, true, true)
      else casCols W D SA g0 g1 anyF i rest t2 true
    else casCols W D SA g0 g1 anyF i rest t found

/-- Outer (i) loop of `combine_and_sub`. -/
def casRows (W D SA : Nat) (g0 g1 : List BVec) (anyF : Bool) :
    List Nat → BVec → Bool → BVec × Bool
  | [], t, found => (t, found)
  | i :: rest, t, found =>
    let r := casCols W D SA g0 g1 anyF i
               (List.range (max (casJmax SA g0 g1 i) 1)) t found
    if r.2.2 then (r.1, r.2.1)
    else casRows W D SA g0 g1 anyF rest r.1 r.2.1

/-- aggregator::combine_and_sub(bv_target, bv_src_and, ..., bv_src_sub,
..., any): returns the new target and the "anything found" flag. -/
def combine_and_sub (W SA D : Nat) (t : BVec) (g0 g1 : List BVec) (anyF : Bool) :
    Except AggErr (BVec × Bool) :=
  if ¬ (g0.length < max_aggregator_cap) then Except.error AggErr.errRange
  else if ¬ (g1.length < max_aggregator_cap) then Except.error AggErr.errRange
  else if g0.length = 0 then Except.ok (clearBV t, false)
  else
    let r1 := resize_target SA t g0 true
    let r2 := resize_target SA r1.1 g1 false
    let top := max r1.2 r2.2
    Except.ok (casRows W D SA g0 g1 anyF (List.range top) r2.1 false)

/-- Inner (j) loop of `find_first_and_sub`: on the first non-zero digest
return the absolute index
`i * bm::set_array_size * bm::gap_max_bits + j * bm::gap_max_bits + bit`. -/
def ffCols (W D SA : Nat) (g0 g1 : List BVec) (i : Nat) : List Nat → Option Nat
  | [] => none
  | j :: rest =>
    let r := combine_and_sub_block W D g0 g1 i j
    if dgAny r.1 then some (i * SA * W + j * W + bit_find_first r.2)
    else ffCols W D SA g0 g1 i rest

/-- Outer (i) loop of `find_first_and_sub`. -/
def ffRows (W D SA : Nat) (g0 g1 : List BVec) : List Nat → Option Nat
  | [] => none
  | i :: rest =>
    match ffCols W D SA g0 g1 i (List.range (max (casJmax SA g0 g1 i) 1)) with
    | some idx => some idx
    | none => ffRows W D SA g0 g1 rest

/-- aggregator::find_first_and_sub(idx, ...): `some idx` models the
`true` return with the found index, `none` the `false` return.  The
local throwaway target of the source is the default-constructed vector,
used only through `resize_target` for the top block count. -/
def find_first_and_sub (W SA D : Nat) (g0 g1 : List BVec) :
    Except AggErr (Option Nat) :=
  if ¬ (g0.length < max_aggregator_cap) then Except.error AggErr.errRange
  else if ¬ (g1.length < max_aggregator_cap) then Except.error AggErr.errRange
  else if g0.length = 0 then Except.ok none
  else
    let t0 : BVec := ⟨[], 0⟩
    let r1 := resize_target SA t0 g0 true
    let r2 := resize_target SA r1.1 g1 false
    let top := max r1.2 r2.2
    Except.ok (ffRows W D SA g0 g1 (List.range top))

-- ---------------------------------------------------------------------
-- Horizontal reference reductions (combine_*_horizontal); the external
-- bvector-level bit_or / bit_and / operator-= are modelled from the
-- spec as pointwise boolean operations on bit contents.
-- ---------------------------------------------------------------------

/-- aggregator::combine_or_horizontal at bit `n`: assign the first
source, then `bit_or` each remaining source (an empty list clears the
target). -/
def combine_or_horizontal (W SA : Nat) (srcs : List BVec) (n : Nat) : Bool :=
  match srcs with
  | [] => false
  | bv :: rest => rest.foldl (fun acc v => acc || bvBit W SA v n) (bvBit W SA bv n)

/-- aggregator::combine_and_horizontal at bit `n`. -/
def combine_and_horizontal (W SA : Nat) (srcs : List BVec) (n : Nat) : Bool :=
  match srcs with
  | [] => false
  | bv :: rest => rest.foldl (fun acc v => acc && bvBit W SA v n) (bvBit W SA bv n)

/-- aggregator::combine_and_sub_horizontal at bit `n`: the horizontal
AND of group 0, then subtract each vector of group 1. -/
def combine_and_sub_horizontal (W SA : Nat) (g0 g1 : List BVec) (n : Nat) : Bool :=
  g1.foldl (fun acc v => acc && !(bvBit W SA v n)) (combine_and_horizontal W SA g0 n)

/-- AND of all bits at `n` over a source group (spec-side formula). -/
def andAllBits (W SA : Nat) (srcs : List BVec) (n : Nat) : Bool :=
  srcs.all (fun v => bvBit W SA v n)

/-- OR of all bits at `n` over a source group (spec-side formula). -/
def orAnyBits (W SA : Nat) (srcs : List BVec) (n : Nat) : Bool :=
  srcs.any (fun v => bvBit W SA v n)

-- ---------------------------------------------------------------------
-- Fused SHIFT-RIGHT + AND (combine_shift_right_and)
-- ---------------------------------------------------------------------

/-- Modelled from the spec: external kernel `bm::bit_block_shift_r1_unr`
- shift one block right (towards higher bit positions) by one with
incoming carry; returns (shifted block, accumulated "non-empty" flag,
outgoing carry = former top bit). -/
def shiftR1blk (W : Nat) (blk : BitBlk) (ci : Bool) : BitBlk × Bool × Bool :=
  let co := blk.getD (W - 1) false
  let blk2 := ci :: blk.take (W - 1)
  (blk2, blk2.any id, co)

/-- Modelled from the spec: external kernel
`bm::bit_block_shift_r1_and_unr` - fused shift-right-by-one (with
incoming carry) and AND with an argument block. -/
def shiftR1AndBlk (W : Nat) (blk arg : BitBlk) (ci : Bool) : BitBlk × Bool × Bool :=
  let co := blk.getD (W - 1) false
  let blk2 := bbAnd (ci :: blk.take (W - 1)) arg
  (blk2, blk2.any id, co)

/-- Inner source loop (`for k = 1 ..`) of the per-block
`combine_shift_right_and`: threads the scratch block, the accumulated
non-empty flag and the per-source carry-over array.  A null argument
block records the outgoing carry, zeroes the scratch and sets its bit 0
from the incoming carry (`acc = blk[0] |= carry_over` in the source). -/
def csraK (W : Nat) (i j : Nat) : List BVec → Nat → BitBlk → Bool → List Bool →
    BitBlk × Bool × List Bool
  | [], _, blk, acc, cs => (blk, acc, cs)
  | bv :: rest, k, blk, acc, cs =>
    let co := cs.getD k false
    if ¬ acc ∧ ¬ co then csraK W i j rest (k + 1) blk acc cs
    else
      match get_block_ptr bv i j with
      | Slot.gap g =>
        let s := shiftR1blk W blk co
        let blk2 := if s.2.1 then bbAnd s.1 g else s.1
        let acc2 := if s.2.1 then blk2.any id else s.2.1
        csraK W i j rest (k + 1) blk2 acc2 (cs.set k s.2.2)
      | Slot.full =>
        let s := shiftR1blk W blk co
        csraK W i j rest (k + 1) s.1 s.2.1 (cs.set k s.2.2)
      | Slot.plain p =>
        let s := shiftR1AndBlk W blk p co
        csraK W i j rest (k + 1) s.1 s.2.1 (cs.set k s.2.2)
      | Slot.null =>
        let co2 := blk.getD (W - 1) false
        let blk2 := (bit_block_set W false).set 0 co
        csraK W i j rest (k + 1) blk2 co (cs.set k co2)

/-- aggregator::combine_shift_right_and(i, j, bv_target, ...): the
scratch is initialized from the first source's block at (i, j) - a GAP
block is expanded via `bit_block_set(blk, 0)` followed by
`bm::gap_and_to_bitset` exactly as in the source, a plain block is
copied, absent blocks zero the scratch and clear the flag.  After the
source loop the scratch is committed when the flag is set (clearing the
top bit of the very last addressable block). -/
def csra_block (W SA : Nat) (srcs : List BVec) (i j : Nat) (t : BVec)
    (cs : List Bool) : BVec × List Bool × Bool :=
  match srcs with
  | [] => (t, cs, false)
  | bv0 :: rest =>
    let init : BitBlk × Bool :=
      match get_block_ptr bv0 i j with
      | Slot.gap g => (bbAnd (bit_block_set W false) g, true)
      | Slot.plain p => (p, true)
      | Slot.full => (List.replicate W true, true)
      | Slot.null => (bit_block_set W false, false)
    let cs0 := cs.set 0 false
    let r := csraK W i j rest 1 init.1 init.2 cs0
    if r.2.1 then
      let nblock := i * SA + j
      let blkF := if nblock = SA * SA - 1 then r.1.set (W - 1) false else r.1
      (setSlot SA t i j (Slot.plain blkF), r.2.2, true)
    else (t, r.2.2, false)

/-- Inner (j) loop of the `combine_shift_right_and` driver; third
component reports the `any` early return. -/
def csraJs (W SA : Nat) (srcs : List BVec) (anyF : Bool) (i : Nat) :
    List Nat → BVec → List Bool → BVec × List Bool × Bool
  | [], t, cs => (t, cs, false)
  | j :: rest, t, cs =>
    let r := csra_block W SA srcs i j t cs
    if r.2.2 ∧ anyF then (r.1, r.2.1, true)
    else csraJs W SA srcs anyF i rest r.1 r.2.1

/-- Outer (i) loop of the `combine_shift_right_and` driver: rows past
the effective top block count stop the sweep once no per-source carry
remains. -/
def csraIs (W SA : Nat) (srcs : List BVec) (anyF : Bool) (top : Nat) :
    List Nat → BVec → List Bool → BVec × Bool
  | [], t, _ => (t, false)
  | i :: rest, t, cs =>
    if i > top ∧ ¬ cs.any id then (t, false)
    else
      let r := csraJs W SA srcs anyF i (List.range SA) t cs
      if r.2.2 then (r.1, true)
      else csraIs W SA srcs anyF top rest r.1 r.2.1

/-- aggregator::combine_shift_right_and(bv_target, bv_src_and,
src_and_size, any).  (The guard in the source names `src_size`, the
parameter being `src_and_size`; the check is modelled on the actual
parameter.) -/
def combine_shift_right_and (W SA : Nat) (t : BVec) (srcs : List BVec)
    (anyF : Bool) : Except AggErr (BVec × Bool) :=
  if ¬ (srcs.length < max_aggregator_cap) then Except.error AggErr.errRange
  else if srcs.length = 0 then Except.ok (clearBV t, false)
  else
    let r := resize_target SA t srcs true
    let cs := List.replicate srcs.length false
    let res := csraIs W SA srcs anyF r.2 (List.range SA) r.1 cs
    if res.2 then Except.ok (res.1, true) else Except.ok (res.1, bvAny res.1)

-- ---------------------------------------------------------------------
-- Single-vector fused shift-right + AND (shift_right_and)
-- ---------------------------------------------------------------------

/-- bm::id_max: the highest addressable bit count. -/
def idMax (W SA : Nat) : Nat := SA * SA * W

/-- Bit 0 of an argument block pointer after `BLOCK_ADDR_SAN`
(`arg_blk[0] & 1`); for a GAP argument the properly tagged reads of the
source use `bm::gap_test(ptr, 0)`, modelled alike. -/
def argBit0 : Slot → Bool
  | Slot.null => false
  | Slot.full => true
  | Slot.gap g => g.getD 0 false
  | Slot.plain p => p.getD 0 false

/-- Bit of an optional (possibly freed) target block. -/
def optBit (p : Option BitBlk) (n : Nat) : Bool :=
  match p with
  | none => false
  | some b => b.getD n false

/-- The tight scan for the next materialized target block in row `i`
after column `j` (the "optimizational only" loop of the source). -/
def nextNonnull (SA : Nat) (t : BVec) (i j : Nat) : Option Nat :=
  ((List.range SA).drop (j + 1)).find? (fun jj => get_block_ptr t i jj ≠ Slot.null)

/-- One row (fixed `i`, all `j`) of `shift_right_and`: walks the target
blocks of the row, de-optimizing GAP and full blocks when needed, using
the fused kernel against the mask block, carving carried bits into
absent blocks, and clearing the spill-over bit of the very last
addressable block.  Returns (target, carry, any).  Recursion is fueled;
the fuel strictly dominates the number of loop iterations. -/
def sraRowGo (W SA : Nat) (mask : BVec) (i : Nat) :
    Nat → Nat → BVec → Bool → Bool → BVec × Bool × Bool
  | 0, _, t, carry, anyA => (t, carry, anyA)
  | fuel + 1, j, t, carry, anyA =>
    if j < SA then
      let nblock := i * SA + j
      let block := get_block_ptr t i j
      let arg := get_block_ptr mask i j
      if block = Slot.null then
        let carved : BVec × Bool :=
          if carry then
            (if arg ≠ Slot.null ∧ argBit0 arg then
              (setSlot SA t i j (Slot.plain ((bit_block_set W false).set 0 true)), true)
            else (t, false))
          else (t, false)
        match nextNonnull SA carved.1 i j with
        | none => (carved.1, false, anyA || carved.2)
        | some j2 => sraRowGo W SA mask i fuel j2 carved.1 false (anyA || carved.2)
      else
        let deopt : Option BitBlk :=
          match block with
          | Slot.gap g => some g
          | Slot.plain p => some p
          | Slot.full =>
            if carry ∧ arg = Slot.full then none
            else if arg = Slot.null then none
            else some (List.replicate W true)
          | Slot.null => none
        match deopt with
        | none =>
          if carry ∧ arg = Slot.full then
            sraRowGo W SA mask i fuel (j + 1) t carry anyA
          else
            sraRowGo W SA mask i fuel (j + 1) (setSlot SA t i j Slot.null) true anyA
        | some p =>
          let P : Option BitBlk × Bool × Bool :=
            match arg with
            | Slot.gap g =>
              let s := shiftR1blk W p carry
              if s.2.1 then
                let p2 := bbAnd s.1 g
                (some p2, p2.any id, s.2.2)
              else (some s.1, false, s.2.2)
            | Slot.full =>
              let s := shiftR1blk W p carry
              (some s.1, s.2.1, s.2.2)
            | Slot.plain q =>
              let s := shiftR1AndBlk W p q carry
              (some s.1, s.2.1, s.2.2)
            | Slot.null => (none, false, p.getD (W - 1) false)
          let any2 := anyA || P.2.1
          if nblock = SA * SA - 1 then
            let co2 := optBit P.1 (W - 1)
            let tF :=
              if ¬ P.2.1 then setSlot SA t i j Slot.null
              else
                match P.1 with
                | some b => setSlot SA t i j (Slot.plain (b.set (W - 1) false))
                | none => setSlot SA t i j Slot.null
            (tF, co2, any2)
          else
            let t3 :=
              match P.1 with
              | none => setSlot SA t i j Slot.null
              | some b =>
                if ¬ P.2.1 then setSlot SA t i j Slot.null
                else setSlot SA t i j (Slot.plain b)
            sraRowGo W SA mask i fuel (j + 1) t3 P.2.2 any2
    else (t, carry, anyA)

/-- Outer (i) loop of `shift_right_and`: a missing top row with a
pending carry carves `carry & arg[0]` into block (i, 0); rows at or past
the top block count stop the sweep when no carry remains. -/
def sraRows (W SA : Nat) (mask : BVec) (top : Nat) :
    List Nat → BVec → Bool → Bool → BVec × Bool
  | [], t, _, anyA => (t, anyA)
  | i :: rest, t, carry, anyA =>
    if i ≥ top ∧ ¬ carry then (t, anyA)
    else
      let rowMissing := if i ≥ top then true else (t.top.getD i none) = none
      if rowMissing then
        let r : BVec × Bool :=
          if carry then
            (if get_block_ptr mask i 0 ≠ Slot.null ∧ argBit0 (get_block_ptr mask i 0) then
              (setSlot SA t i 0 (Slot.plain ((bit_block_set W false).set 0 true)), true)
            else (t, false))
          else (t, false)
        sraRows W SA mask top rest r.1 false (anyA || r.2)
      else
        let r := sraRowGo W SA mask i (SA + 1) 0 t carry anyA
        sraRows W SA mask top rest r.1 r.2.1 r.2.2

/-- aggregator::shift_right_and(bv_target, bv_mask): shift the target
right by one bit (with inter-block carries) while ANDing with the mask;
returns the new target and the coerced `any` flag. -/
def shift_right_and (W SA : Nat) (t mask : BVec) : BVec × Bool :=
  if ¬ is_init mask then (clearBV t, false)
  else if ¬ is_init t then (t, false)
  else
    let t1 : BVec := ⟨t.top, if t.sz < idMax W SA then t.sz + 1 else t.sz⟩
    sraRows W SA mask t1.top.length (List.range SA) t1 false false

-- ---------------------------------------------------------------------
-- Specification-side predicates
-- ---------------------------------------------------------------------

/-- OR of the source bits at block coordinate (i, j), bit `b`. -/
def orBitsAt (srcs : List BVec) (i j b : Nat) : Bool :=
  srcs.any (fun bv => slotBit (get_block_ptr bv i j) b)

/-- AND of the source bits at block coordinate (i, j), bit `b`. -/
def andBitsAt (srcs : List BVec) (i j b : Nat) : Bool :=
  srcs.all (fun bv => slotBit (get_block_ptr bv i j) b)

/-- Some source has the uniform all-ones block at (i, j). -/
def anyFullAt (srcs : List BVec) (i j : Nat) : Bool :=
  srcs.any (fun bv => get_block_ptr bv i j = Slot.full)

/-- Some source has the null block at (i, j). -/
def anyNullAt (srcs : List BVec) (i j : Nat) : Bool :=
  srcs.any (fun bv => get_block_ptr bv i j = Slot.null)

/-- The plain-pointer bucket the OR sorter builds when it does not
short-circuit: every plain source block, in source order. -/
def orPlainSpec (srcs : List BVec) (i j : Nat) : List (Option BitBlk) :=
  srcs.filterMap (fun bv =>
    match get_block_ptr bv i j with
    | Slot.plain b => some (some b)
    | _ => none)

/-- The GAP bucket of either sorter: every GAP source block in order. -/
def gapSpec (srcs : List BVec) (i j : Nat) : List (List Bool) :=
  srcs.filterMap (fun bv =>
    match get_block_ptr bv i j with
    | Slot.gap g => some g
    | _ => none)

/-- The plain-pointer bucket the AND sorter builds when no source block
is null: plain blocks kept, uniform all-ones blocks canonicalized to
`FULL_BLOCK_REAL_ADDR` (`none`). -/
def andPlainSpec (srcs : List BVec) (i j : Nat) : List (Option BitBlk) :=
  srcs.filterMap (fun bv =>
    match get_block_ptr bv i j with
    | Slot.plain b => some (some b)
    | Slot.full => some none
    | _ => none)

/-- All source blocks of row `i` at columns `m ≤ j < SA` are null. -/
def nullFromCol (SA : Nat) (srcs : List BVec) (i m : Nat) : Bool :=
  srcs.all (fun bv => (List.range SA).all (fun j =>
    decide (j < m) || decide (get_block_ptr bv i j = Slot.null)))

-- ---------------------------------------------------------------------
-- Basic list lemmas
-- ---------------------------------------------------------------------

theorem getD_replicate {α : Type} (n i : Nat) (v d : α) :
    (List.replicate n v).getD i d = if i < n then v else d := by
  induction n generalizing i with
  | zero => simp [List.getD]
  | succ m ih =>
    cases i with
    | zero => simp [List.replicate]
    | succ k =>
      simp only [List.replicate, List.getD_cons_succ, ih]
      by_cases h : k < m
      · rw [if_pos h, if_pos (by omega)]
      · rw [if_neg h, if_neg (by omega)]

theorem getD_set {α : Type} (l : List α) (i j : Nat) (v d : α) :
    (l.set i v).getD j d = if i = j ∧ i < l.length then v else l.getD j d := by
  induction l generalizing i j with
  | nil => simp [List.getD]
  | cons a tl ih =>
    cases i with
    | zero =>
      cases j with
      | zero => simp
      | succ k => simp
    | succ m =>
      cases j with
      | zero => simp
      | succ k =>
        simp only [List.set, List.getD_cons_succ, ih, List.length_cons]
        by_cases h : m = k ∧ m < tl.length
        · rw [if_pos h, if_pos ⟨by omega, by omega⟩]
        · rw [if_neg h, if_neg (by omega)]

theorem getD_map_const_none {α β : Type} (l : List α) (i : Nat) :
    (l.map (fun _ => (none : Option β))).getD i none = none := by
  induction l generalizing i with
  | nil => simp [List.getD]
  | cons a tl ih =>
    cases i with
    | zero => simp
    | succ k => simp only [List.map_cons, List.getD_cons_succ]; exact ih k

theorem getD_zipWith_ff {f : Bool → Bool → Bool} (hf : f false false = false)
    (a b : List Bool) (h : a.length = b.length) (n : Nat) :
    (List.zipWith f a b).getD n false = f (a.getD n false) (b.getD n false) := by
  induction a generalizing b n with
  | nil =>
    cases b with
    | nil => simp [List.getD, hf]
    | cons y ys => simp at h
  | cons x xs ih =>
    cases b with
    | nil => simp at h
    | cons y ys =>
      cases n with
      | zero => simp
      | succ k =>
        simp only [List.zipWith, List.getD_cons_succ]
        exact ih ys (by simpa using h) k

theorem any_eq_exists_getD (l : List Bool) :
    l.any id = true ↔ ∃ i, i < l.length ∧ l.getD i false = true := by
  induction l with
  | nil => simp
  | cons a tl ih =>
    simp only [List.any_cons, Bool.or_eq_true, id, List.length_cons]
    constructor
    · rintro (ha | htl)
      · exact ⟨0, by omega, by simpa using ha⟩
      · obtain ⟨i, hi, hv⟩ := ih.mp htl
        exact ⟨i + 1, by omega, by simpa using hv⟩
    · rintro ⟨i, hi, hv⟩
      cases i with
      | zero => exact Or.inl (by simpa using hv)
      | succ k => exact Or.inr (ih.mpr ⟨k, by omega, by simpa using hv⟩)

theorem all_eq_forall_getD (l : List Bool) :
    l.all id = true ↔ ∀ i, i < l.length → l.getD i false = true := by
  induction l with
  | nil => simp
  | cons a tl ih =>
    simp only [List.all_cons, Bool.and_eq_true, id, List.length_cons]
    constructor
    · rintro ⟨ha, htl⟩ i hi
      cases i with
      | zero => simpa using ha
      | succ k => simpa using ih.mp htl k (by omega)
    · intro h
      refine ⟨by simpa using h 0 (by omega), ih.mpr ?_⟩
      intro i hi
      simpa using h (i + 1) (by omega)

-- ---------------------------------------------------------------------
-- Sorter lemmas
-- ---------------------------------------------------------------------

theorem sortOrGo_spec (i j : Nat) (l : List BVec) :
    ∀ ps gs, sortOrGo i j l ps gs =
      (if anyFullAt l i j then (true, [], [])
       else (false, ps ++ orPlainSpec l i j, gs ++ gapSpec l i j)) := by
  induction l with
  | nil => intro ps gs; simp [sortOrGo, anyFullAt, orPlainSpec, gapSpec]
  | cons bv rest ih =>
    intro ps gs
    cases hs : get_block_ptr bv i j with
    | null =>
      have h1 : sortOrGo i j (bv :: rest) ps gs = sortOrGo i j rest ps gs := by
        simp [sortOrGo, hs]
      rw [h1, ih]
      simp [anyFullAt, orPlainSpec, gapSpec, hs]
    | gap g =>
      have h1 : sortOrGo i j (bv :: rest) ps gs = sortOrGo i j rest ps (gs ++ [g]) := by
        simp [sortOrGo, hs]
      rw [h1, ih]
      simp [anyFullAt, orPlainSpec, gapSpec, hs]
    | full =>
      have h1 : sortOrGo i j (bv :: rest) ps gs = (true, [], []) := by
        simp [sortOrGo, hs]
      rw [h1]
      simp [anyFullAt, hs]
    | plain b =>
      have h1 : sortOrGo i j (bv :: rest) ps gs = sortOrGo i j rest (ps ++ [some b]) gs := by
        simp [sortOrGo, hs]
      rw [h1, ih]
      simp [anyFullAt, orPlainSpec, gapSpec, hs]

theorem sort_input_blocks_or_spec (srcs : List BVec) (i j : Nat) :
    sort_input_blocks_or srcs i j =
      (if anyFullAt srcs i j then (true, [], [])
       else (false, orPlainSpec srcs i j, gapSpec srcs i j)) := by
  simpa using sortOrGo_spec i j srcs [] []

theorem sortAndGo_spec (i j : Nat) (l : List BVec) :
    ∀ ps gs, sortAndGo i j l ps gs =
      (if anyNullAt l i j then (false, [], [])
       else (true, ps ++ andPlainSpec l i j, gs ++ gapSpec l i j)) := by
  induction l with
  | nil => intro ps gs; simp [sortAndGo, anyNullAt, andPlainSpec, gapSpec]
  | cons bv rest ih =>
    intro ps gs
    cases hs : get_block_ptr bv i j with
    | null =>
      have h1 : sortAndGo i j (bv :: rest) ps gs = (false, [], []) := by
        simp [sortAndGo, hs]
      rw [h1]
      simp [anyNullAt, hs]
    | gap g =>
      have h1 : sortAndGo i j (bv :: rest) ps gs = sortAndGo i j rest ps (gs ++ [g]) := by
        simp [sortAndGo, hs]
      rw [h1, ih]
      simp [anyNullAt, andPlainSpec, gapSpec, hs]
    | full =>
      have h1 : sortAndGo i j (bv :: rest) ps gs = sortAndGo i j rest (ps ++ [none]) gs := by
        simp [sortAndGo, hs]
      rw [h1, ih]
      simp [anyNullAt, andPlainSpec, gapSpec, hs]
    | plain b =>
      have h1 : sortAndGo i j (bv :: rest) ps gs = sortAndGo i j rest (ps ++ [some b]) gs := by
        simp [sortAndGo, hs]
      rw [h1, ih]
      simp [anyNullAt, andPlainSpec, gapSpec, hs]

theorem sort_input_blocks_and_spec (srcs : List BVec) (i j : Nat) :
    sort_input_blocks_and srcs i j =
      (if anyNullAt srcs i j then (false, [], [])
       else (true, andPlainSpec srcs i j, gapSpec srcs i j)) := by
  simpa using sortAndGo_spec i j srcs [] []

-- ---------------------------------------------------------------------
-- Well-formedness plumbing
-- ---------------------------------------------------------------------

theorem getD_mem_of_ne {α : Type} (l : List α) (i : Nat) (d x : α)
    (h : l.getD i d = x) (hx : x ≠ d) : x ∈ l := by
  induction l generalizing i with
  | nil =>
    rw [List.getD_nil] at h
    exact absurd h.symm hx
  | cons a tl ih =>
    cases i with
    | zero => simp at h; simp [h]
    | succ k =>
      simp only [List.getD_cons_succ] at h
      exact List.mem_cons_of_mem a (ih k h)

theorem bvWF_plain_len {W SA : Nat} {bv : BVec} (h : bvWF W SA bv = true)
    {i j : Nat} {p : List Bool} (hp : get_block_ptr bv i j = Slot.plain p) :
    p.length = W := by
  unfold get_block_ptr at hp
  cases htop : bv.top.getD i none with
  | none => rw [htop] at hp; exact absurd hp (by simp)
  | some row =>
    rw [htop] at hp
    have hmem : some row ∈ bv.top := getD_mem_of_ne _ i none _ htop (by simp)
    have hrow := (List.all_eq_true.mp ((Bool.and_eq_true _ _).mp h).2) _ hmem
    have hsmem : Slot.plain p ∈ row := getD_mem_of_ne _ j Slot.null _ hp (by simp)
    have := (List.all_eq_true.mp hrow) _ hsmem
    simpa using this

theorem bvWF_gap_len {W SA : Nat} {bv : BVec} (h : bvWF W SA bv = true)
    {i j : Nat} {g : List Bool} (hp : get_block_ptr bv i j = Slot.gap g) :
    g.length = W := by
  unfold get_block_ptr at hp
  cases htop : bv.top.getD i none with
  | none => rw [htop] at hp; exact absurd hp (by simp)
  | some row =>
    rw [htop] at hp
    have hmem : some row ∈ bv.top := getD_mem_of_ne _ i none _ htop (by simp)
    have hrow := (List.all_eq_true.mp ((Bool.and_eq_true _ _).mp h).2) _ hmem
    have hsmem : Slot.gap g ∈ row := getD_mem_of_ne _ j Slot.null _ hp (by simp)
    have := (List.all_eq_true.mp hrow) _ hsmem
    simpa using this

/-- Plain-bucket entries of well-formed sources all have width `W`. -/
theorem orPlainSpec_wf {W SA : Nat} {srcs : List BVec} (h : bvsWF W SA srcs = true)
    (i j : Nat) : ∀ b : BitBlk, some b ∈ orPlainSpec srcs i j → b.length = W := by
  intro b hb
  obtain ⟨bv, hbv, hmatch⟩ := List.mem_filterMap.mp hb
  have hwf := (List.all_eq_true.mp h) _ hbv
  cases hs : get_block_ptr bv i j with
  | plain p =>
    rw [hs] at hmatch
    simp only [Option.some.injEq] at hmatch
    subst hmatch
    exact bvWF_plain_len hwf hs
  | null => rw [hs] at hmatch; simp at hmatch
  | full => rw [hs] at hmatch; simp at hmatch
  | gap g => rw [hs] at hmatch; simp at hmatch

theorem andPlainSpec_wf {W SA : Nat} {srcs : List BVec} (h : bvsWF W SA srcs = true)
    (i j : Nat) : ∀ b : BitBlk, some b ∈ andPlainSpec srcs i j → b.length = W := by
  intro b hb
  obtain ⟨bv, hbv, hmatch⟩ := List.mem_filterMap.mp hb
  have hwf := (List.all_eq_true.mp h) _ hbv
  cases hs : get_block_ptr bv i j with
  | plain p =>
    rw [hs] at hmatch
    simp only [Option.some.injEq] at hmatch
    subst hmatch
    exact bvWF_plain_len hwf hs
  | null => rw [hs] at hmatch; simp at hmatch
  | full => rw [hs] at hmatch; simp at hmatch
  | gap g => rw [hs] at hmatch; simp at hmatch

theorem gapSpec_wf {W SA : Nat} {srcs : List BVec} (h : bvsWF W SA srcs = true)
    (i j : Nat) : ∀ g ∈ gapSpec srcs i j, g.length = W := by
  intro g hg
  obtain ⟨bv, hbv, hmatch⟩ := List.mem_filterMap.mp hg
  have hwf := (List.all_eq_true.mp h) _ hbv
  cases hs : get_block_ptr bv i j with
  | gap g2 =>
    rw [hs] at hmatch
    simp only [Option.some.injEq] at hmatch
    cases hmatch
    exact bvWF_gap_len hwf hs
  | null => rw [hs] at hmatch; simp at hmatch
  | full => rw [hs] at hmatch; simp at hmatch
  | plain p => rw [hs] at hmatch; simp at hmatch

theorem derefA_len {W : Nat} {l : List (Option BitBlk)}
    (hwf : ∀ b : BitBlk, some b ∈ l → b.length = W) {o : Option BitBlk}
    (ho : o ∈ l) : (derefA W o).length = W := by
  cases o with
  | none => simp [derefA]
  | some b => exact hwf b ho

-- ---------------------------------------------------------------------
-- OR reducer lemmas
-- ---------------------------------------------------------------------

/-- OR fold over a collected plain-pointer list, bit `b`. -/
def orFoldBit (W : Nat) (l : List (Option BitBlk)) (b : Nat) : Bool :=
  l.any (fun o => (derefA W o).getD b false)

/-- OR fold over a collected GAP list, bit `b`. -/
def gapFoldBit (l : List (List Bool)) (b : Nat) : Bool :=
  l.any (fun g => g.getD b false)

theorem bbOr_getD (a b : List Bool) (h : a.length = b.length) (n : Nat) :
    (bbOr a b).getD n false = (a.getD n false || b.getD n false) :=
  getD_zipWith_ff rfl a b h n

theorem bbOr_len (a b : List Bool) : (bbOr a b).length = min a.length b.length := by
  simp [bbOr]

theorem procOr1_spec (W : Nat) (l : List (Option BitBlk)) :
    ∀ blk : BitBlk, blk.length = W →
    (∀ b : BitBlk, some b ∈ l → b.length = W) →
    ((procOr1 W blk l).2.length = W) ∧
    ((procOr1 W blk l).1 = true →
      ∀ q, q < W → (blk.getD q false || orFoldBit W l q) = true) ∧
    ((procOr1 W blk l).1 = false →
      ∀ q, (procOr1 W blk l).2.getD q false = (blk.getD q false || orFoldBit W l q)) := by
  induction l with
  | nil =>
    intro blk hlen _
    refine ⟨by simpa [procOr1] using hlen, by simp [procOr1], ?_⟩
    intro _ q
    simp [procOr1, orFoldBit]
  | cons a rest ih =>
    intro blk hlen hwf
    have hal : (derefA W a).length = W := derefA_len hwf (by simp)
    have hrlen : (bbOr blk (derefA W a)).length = W := by
      rw [bbOr_len, hlen, hal]; omega
    have hbit : ∀ q, (bbOr blk (derefA W a)).getD q false =
        (blk.getD q false || (derefA W a).getD q false) := by
      intro q; exact bbOr_getD _ _ (by rw [hlen, hal]) q
    have hfold : ∀ q, orFoldBit W (a :: rest) q =
        ((derefA W a).getD q false || orFoldBit W rest q) := by
      intro q; simp [orFoldBit]
    by_cases hall : (bbOr blk (derefA W a)).all id = true
    · have h1 : procOr1 W blk (a :: rest) = (true, bbOr blk (derefA W a)) := by
        simp [procOr1, hall]
      refine ⟨by rw [h1]; exact hrlen, ?_, ?_⟩
      · intro _ q hq
        have h2 := (all_eq_forall_getD _).mp hall q (by rw [hrlen]; omega)
        rw [hbit q] at h2
        rw [hfold q]
        rcases (Bool.or_eq_true _ _).mp h2 with h | h
        · rw [h]; simp
        · rw [h]; simp
      · intro hfalse
        rw [h1] at hfalse
        simp at hfalse
    · have h1 : procOr1 W blk (a :: rest) = procOr1 W (bbOr blk (derefA W a)) rest := by
        simp [procOr1, hall]
      obtain ⟨ihl, iht, ihf⟩ := ih (bbOr blk (derefA W a)) hrlen
        (fun b hb => hwf b (by simp [hb]))
      refine ⟨by rw [h1]; exact ihl, ?_, ?_⟩
      · intro htrue q hq
        rw [h1] at htrue
        have h2 := iht htrue q hq
        rw [hbit q] at h2
        rw [hfold q]
        simpa [Bool.or_assoc] using h2
      · intro hfalse q
        rw [h1] at hfalse
        have h2 := ihf hfalse q
        rw [h1, h2, hbit q, hfold q, Bool.or_assoc]

theorem procOr2_spec_aux (W : Nat) (n : Nat) : ∀ (l : List (Option BitBlk)), l.length ≤ n →
    ∀ blk : BitBlk, blk.length = W →
    (∀ b : BitBlk, some b ∈ l → b.length = W) →
    ((procOr2 W blk l).2.length = W) ∧
    ((procOr2 W blk l).1 = true →
      ∀ q, q < W → (blk.getD q false || orFoldBit W l q) = true) ∧
    ((procOr2 W blk l).1 = false →
      ∀ q, (procOr2 W blk l).2.getD q false = (blk.getD q false || orFoldBit W l q)) := by
  induction n with
  | zero =>
    intro l hn blk hlen hwf
    have : l = [] := List.eq_nil_of_length_eq_zero (by omega)
    subst this
    have h2 : procOr2 W blk [] = procOr1 W blk [] := rfl
    rw [h2]
    exact procOr1_spec W [] blk hlen hwf
  | succ m ih =>
    intro l hn blk hlen hwf
    match l with
    | [] =>
      have h2 : procOr2 W blk [] = procOr1 W blk [] := rfl
      rw [h2]
      exact procOr1_spec W [] blk hlen hwf
    | [a] =>
      have h2 : procOr2 W blk [a] = procOr1 W blk [a] := rfl
      rw [h2]
      exact procOr1_spec W [a] blk hlen hwf
    | a :: b :: rest =>
      have hal : (derefA W a).length = W := derefA_len hwf (by simp)
      have hbl : (derefA W b).length = W := derefA_len hwf (by simp)
      have hl1 : (bbOr blk (derefA W a)).length = W := by rw [bbOr_len, hlen, hal]; omega
      have hrlen : (bbOr (bbOr blk (derefA W a)) (derefA W b)).length = W := by
        rw [bbOr_len, hl1, hbl]; omega
      have hbit : ∀ q, (bbOr (bbOr blk (derefA W a)) (derefA W b)).getD q false =
          (blk.getD q false || (derefA W a).getD q false || (derefA W b).getD q false) := by
        intro q
        rw [bbOr_getD _ _ (by rw [hl1, hbl]) q, bbOr_getD _ _ (by rw [hlen, hal]) q]
      have hfold : ∀ q, orFoldBit W (a :: b :: rest) q =
          ((derefA W a).getD q false || ((derefA W b).getD q false || orFoldBit W rest q)) := by
        intro q; simp [orFoldBit]
      by_cases hall : (bbOr (bbOr blk (derefA W a)) (derefA W b)).all id = true
      · have h1 : procOr2 W blk (a :: b :: rest) =
            (true, bbOr (bbOr blk (derefA W a)) (derefA W b)) := by
          simp [procOr2, hall]
        refine ⟨by rw [h1]; exact hrlen, ?_, ?_⟩
        · intro _ q hq
          have h2 := (all_eq_forall_getD _).mp hall q (by rw [hrlen]; omega)
          rw [hbit q] at h2
          rw [hfold q]
          rcases (Bool.or_eq_true _ _).mp h2 with h | h
          · rcases (Bool.or_eq_true _ _).mp h with h | h <;> (rw [h]; simp)
          · rw [h]; simp
        · intro hfalse
          rw [h1] at hfalse
          simp at hfalse
      · have h1 : procOr2 W blk (a :: b :: rest) =
            procOr2 W (bbOr (bbOr blk (derefA W a)) (derefA W b)) rest := by
          simp [procOr2, hall]
        obtain ⟨ihl, iht, ihf⟩ := ih rest (by simp at hn; omega)
          (bbOr (bbOr blk (derefA W a)) (derefA W b)) hrlen
          (fun x hx => hwf x (by simp [hx]))
        refine ⟨by rw [h1]; exact ihl, ?_, ?_⟩
        · intro htrue q hq
          rw [h1] at htrue
          have h2 := iht htrue q hq
          rw [hbit q] at h2
          rw [hfold q]
          simpa [Bool.or_assoc] using h2
        · intro hfalse q
          rw [h1] at hfalse
          have h2 := ihf hfalse q
          rw [h1, h2, hbit q, hfold q]
          simp [Bool.or_assoc]

theorem procOr4_spec_aux (W : Nat) (n : Nat) : ∀ (l : List (Option BitBlk)), l.length ≤ n →
    ∀ blk : BitBlk, blk.length = W →
    (∀ b : BitBlk, some b ∈ l → b.length = W) →
    ((procOr4 W blk l).2.length = W) ∧
    ((procOr4 W blk l).1 = true →
      ∀ q, q < W → (blk.getD q false || orFoldBit W l q) = true) ∧
    ((procOr4 W blk l).1 = false →
      ∀ q, (procOr4 W blk l).2.getD q false = (blk.getD q false || orFoldBit W l q)) := by
  induction n with
  | zero =>
    intro l hn blk hlen hwf
    have : l = [] := List.eq_nil_of_length_eq_zero (by omega)
    subst this
    have h2 : procOr4 W blk [] = procOr2 W blk [] := rfl
    rw [h2]
    exact procOr2_spec_aux W 0 [] (by simp) blk hlen hwf
  | succ m ih =>
    intro l hn blk hlen hwf
    match l with
    | [] =>
      have h2 : procOr4 W blk [] = procOr2 W blk [] := rfl
      rw [h2]
      exact procOr2_spec_aux W 0 [] (by simp) blk hlen hwf
    | [a] =>
      have h2 : procOr4 W blk [a] = procOr2 W blk [a] := rfl
      rw [h2]
      exact procOr2_spec_aux W 1 [a] (by simp) blk hlen hwf
    | [a, b] =>
      have h2 : procOr4 W blk [a, b] = procOr2 W blk [a, b] := rfl
      rw [h2]
      exact procOr2_spec_aux W 2 [a, b] (by simp) blk hlen hwf
    | [a, b, c] =>
      have h2 : procOr4 W blk [a, b, c] = procOr2 W blk [a, b, c] := rfl
      rw [h2]
      exact procOr2_spec_aux W 3 [a, b, c] (by simp) blk hlen hwf
    | a :: b :: c :: d :: rest =>
      have hal : (derefA W a).length = W := derefA_len hwf (by simp)
      have hbl : (derefA W b).length = W := derefA_len hwf (by simp)
      have hcl : (derefA W c).length = W := derefA_len hwf (by simp)
      have hdl : (derefA W d).length = W := derefA_len hwf (by simp)
      have hl1 : (bbOr blk (derefA W a)).length = W := by rw [bbOr_len, hlen, hal]; omega
      have hl2 : (bbOr (bbOr blk (derefA W a)) (derefA W b)).length = W := by
        rw [bbOr_len, hl1, hbl]; omega
      have hl3 : (bbOr (bbOr (bbOr blk (derefA W a)) (derefA W b)) (derefA W c)).length = W := by
        rw [bbOr_len, hl2, hcl]; omega
      have hrlen : (bbOr (bbOr (bbOr (bbOr blk (derefA W a)) (derefA W b)) (derefA W c))
          (derefA W d)).length = W := by
        rw [bbOr_len, hl3, hdl]; omega
      have hbit : ∀ q, (bbOr (bbOr (bbOr (bbOr blk (derefA W a)) (derefA W b)) (derefA W c))
          (derefA W d)).getD q false =
          (blk.getD q false || (derefA W a).getD q false || (derefA W b).getD q false ||
           (derefA W c).getD q false || (derefA W d).getD q false) := by
        intro q
        rw [bbOr_getD _ _ (by rw [hl3, hdl]) q, bbOr_getD _ _ (by rw [hl2, hcl]) q,
            bbOr_getD _ _ (by rw [hl1, hbl]) q, bbOr_getD _ _ (by rw [hlen, hal]) q]
      have hfold : ∀ q, orFoldBit W (a :: b :: c :: d :: rest) q =
          ((derefA W a).getD q false || ((derefA W b).getD q false ||
           ((derefA W c).getD q false || ((derefA W d).getD q false || orFoldBit W rest q)))) := by
        intro q; simp [orFoldBit]
      by_cases hall : (bbOr (bbOr (bbOr (bbOr blk (derefA W a)) (derefA W b)) (derefA W c))
          (derefA W d)).all id = true
      · have h1 : procOr4 W blk (a :: b :: c :: d :: rest) =
            (true, bbOr (bbOr (bbOr (bbOr blk (derefA W a)) (derefA W b)) (derefA W c))
              (derefA W d)) := by
          simp [procOr4, hall]
        refine ⟨by rw [h1]; exact hrlen, ?_, ?_⟩
        · intro _ q hq
          have h2 := (all_eq_forall_getD _).mp hall q (by rw [hrlen]; omega)
          rw [hbit q] at h2
          rw [hfold q]
          rcases (Bool.or_eq_true _ _).mp h2 with h | h
          · rcases (Bool.or_eq_true _ _).mp h with h | h
            · rcases (Bool.or_eq_true _ _).mp h with h | h
              · rcases (Bool.or_eq_true _ _).mp h with h | h <;> (rw [h]; simp)
              · rw [h]; simp
            · rw [h]; simp
          · rw [h]; simp
        · intro hfalse
          rw [h1] at hfalse
          simp at hfalse
      · have h1 : procOr4 W blk (a :: b :: c :: d :: rest) =
            procOr4 W (bbOr (bbOr (bbOr (bbOr blk (derefA W a)) (derefA W b)) (derefA W c))
              (derefA W d)) rest := by
          simp [procOr4, hall]
        obtain ⟨ihl, iht, ihf⟩ := ih rest (by simp at hn; omega)
          (bbOr (bbOr (bbOr (bbOr blk (derefA W a)) (derefA W b)) (derefA W c)) (derefA W d))
          hrlen (fun x hx => hwf x (by simp [hx]))
        refine ⟨by rw [h1]; exact ihl, ?_, ?_⟩
        · intro htrue q hq
          rw [h1] at htrue
          have h2 := iht htrue q hq
          rw [hbit q] at h2
          rw [hfold q]
          simpa [Bool.or_assoc] using h2
        · intro hfalse q
          rw [h1] at hfalse
          have h2 := ihf hfalse q
          rw [h1, h2, hbit q, hfold q]
          simp [Bool.or_assoc]

theorem procOr4_spec (W : Nat) (l : List (Option BitBlk)) (blk : BitBlk)
    (hlen : blk.length = W) (hwf : ∀ b : BitBlk, some b ∈ l → b.length = W) :
    ((procOr4 W blk l).2.length = W) ∧
    ((procOr4 W blk l).1 = true →
      ∀ q, q < W → (blk.getD q false || orFoldBit W l q) = true) ∧
    ((procOr4 W blk l).1 = false →
      ∀ q, (procOr4 W blk l).2.getD q false = (blk.getD q false || orFoldBit W l q)) :=
  procOr4_spec_aux W l.length l le_rfl blk hlen hwf

theorem foldl_bbOr_spec (W : Nat) (gs : List (List Bool)) :
    ∀ blk : BitBlk, blk.length = W → (∀ g ∈ gs, g.length = W) →
    ((gs.foldl bbOr blk).length = W) ∧
    (∀ q, (gs.foldl bbOr blk).getD q false = (blk.getD q false || gapFoldBit gs q)) := by
  induction gs with
  | nil =>
    intro blk hlen _
    refine ⟨by simpa using hlen, ?_⟩
    intro q
    simp [gapFoldBit]
  | cons g rest ih =>
    intro blk hlen hwf
    have hg : g.length = W := hwf g (by simp)
    have hlen2 : (bbOr blk g).length = W := by rw [bbOr_len, hlen, hg]; omega
    obtain ⟨ihl, ihq⟩ := ih (bbOr blk g) hlen2 (fun x hx => hwf x (by simp [hx]))
    refine ⟨by simpa using ihl, ?_⟩
    intro q
    have h2 : (List.foldl bbOr (bbOr blk g) rest).getD q false =
        ((bbOr blk g).getD q false || gapFoldBit rest q) := ihq q
    have h3 : (bbOr blk g).getD q false = (blk.getD q false || g.getD q false) :=
      bbOr_getD _ _ (by rw [hlen, hg]) q
    simp only [List.foldl_cons]
    rw [h2, h3]
    simp [gapFoldBit, Bool.or_assoc]

theorem orBitsAt_of_full {srcs : List BVec} {i j : Nat}
    (h : anyFullAt srcs i j = true) (q : Nat) : orBitsAt srcs i j q = true := by
  obtain ⟨bv, hbv, hfull⟩ := List.any_eq_true.mp h
  refine List.any_eq_true.mpr ⟨bv, hbv, ?_⟩
  rw [decide_eq_true_eq] at hfull
  rw [hfull]
  simp [slotBit]

theorem orBitsAt_buckets (W : Nat) {srcs : List BVec} {i j : Nat}
    (hnf : anyFullAt srcs i j = false) (q : Nat) :
    orBitsAt srcs i j q =
      (orFoldBit W (orPlainSpec srcs i j) q || gapFoldBit (gapSpec srcs i j) q) := by
  induction srcs with
  | nil => simp [orBitsAt, orFoldBit, gapFoldBit, orPlainSpec, gapSpec]
  | cons bv rest ih =>
    have hnf2 : anyFullAt rest i j = false := by
      simp only [anyFullAt, List.any_cons, Bool.or_eq_false_iff] at hnf
      exact hnf.2
    have hstep : orBitsAt (bv :: rest) i j q =
        (slotBit (get_block_ptr bv i j) q || orBitsAt rest i j q) := by
      simp [orBitsAt]
    cases hs : get_block_ptr bv i j with
    | null =>
      have e1 : orPlainSpec (bv :: rest) i j = orPlainSpec rest i j := by
        simp [orPlainSpec, hs]
      have e2 : gapSpec (bv :: rest) i j = gapSpec rest i j := by
        simp [gapSpec, hs]
      rw [hstep, hs, ih hnf2, e1, e2]
      simp [slotBit]
    | gap g =>
      have e1 : orPlainSpec (bv :: rest) i j = orPlainSpec rest i j := by
        simp [orPlainSpec, hs]
      have e2 : gapSpec (bv :: rest) i j = g :: gapSpec rest i j := by
        simp [gapSpec, hs]
      have e3 : gapFoldBit (g :: gapSpec rest i j) q =
          (g.getD q false || gapFoldBit (gapSpec rest i j) q) := by
        simp [gapFoldBit]
      rw [hstep, hs, ih hnf2, e1, e2, e3]
      have e4 : slotBit (Slot.gap g) q = g.getD q false := rfl
      rw [e4, Bool.or_left_comm]
    | full =>
      exfalso
      simp [anyFullAt, hs] at hnf
    | plain b =>
      have e1 : orPlainSpec (bv :: rest) i j = some b :: orPlainSpec rest i j := by
        simp [orPlainSpec, hs]
      have e2 : gapSpec (bv :: rest) i j = gapSpec rest i j := by
        simp [gapSpec, hs]
      have e3 : orFoldBit W (some b :: orPlainSpec rest i j) q =
          (b.getD q false || orFoldBit W (orPlainSpec rest i j) q) := by
        simp [orFoldBit, derefA]
      rw [hstep, hs, ih hnf2, e1, e2, e3]
      have e4 : slotBit (Slot.plain b) q = b.getD q false := rfl
      rw [e4, Bool.or_assoc]

/-- Per-block OR reduction computes the bitwise OR of all source blocks
at (i, j). -/
theorem combine_or_block_bit (W SA : Nat) (srcs : List BVec)
    (hwf : bvsWF W SA srcs = true) (i j q : Nat) (hq : q < W) :
    slotBit (combine_or_block W srcs i j) q = orBitsAt srcs i j q := by
  unfold combine_or_block
  rw [sort_input_blocks_or_spec]
  by_cases hfull : anyFullAt srcs i j = true
  · rw [if_pos hfull]
    simp only [if_pos rfl]
    rw [orBitsAt_of_full hfull]
    rfl
  · rw [if_neg hfull]
    have hnf : anyFullAt srcs i j = false := by
      cases h : anyFullAt srcs i j
      · rfl
      · exact absurd h hfull
    rw [if_neg Bool.false_ne_true]
    rw [orBitsAt_buckets W hnf]
    set P := orPlainSpec srcs i j with hP
    set G := gapSpec srcs i j with hG
    have hPwf : ∀ b : BitBlk, some b ∈ P → b.length = W := orPlainSpec_wf hwf i j
    have hGwf : ∀ g ∈ G, g.length = W := gapSpec_wf hwf i j
    by_cases hne : P.length ≠ 0 ∨ G.length ≠ 0
    · rw [if_pos hne]
      have hproc : (process_bit_blocks_or W P).2.length = W ∧
          ((process_bit_blocks_or W P).1 = true → ∀ r, r < W → orFoldBit W P r = true) ∧
          ((process_bit_blocks_or W P).1 = false →
            ∀ r, (process_bit_blocks_or W P).2.getD r false = orFoldBit W P r) := by
        match hPm : P with
        | [] =>
          refine ⟨by simp [process_bit_blocks_or, bit_block_set], by simp [process_bit_blocks_or], ?_⟩
          intro _ r
          simp [process_bit_blocks_or, bit_block_set, getD_replicate, orFoldBit]
        | p :: rest =>
          have hpl : (derefA W p).length = W := derefA_len hPwf (by simp)
          have e : process_bit_blocks_or W (p :: rest) = procOr4 W (derefA W p) rest := rfl
          obtain ⟨hl, ht, hf⟩ := procOr4_spec W rest (derefA W p) hpl
            (fun b hb => hPwf b (by simp [hb]))
          refine ⟨by rw [e]; exact hl, ?_, ?_⟩
          · intro htr r hr
            rw [e] at htr
            have := ht htr r hr
            simpa [orFoldBit] using this
          · intro hfa r
            rw [e] at hfa
            rw [e]
            have := hf hfa r
            rw [this]
            simp [orFoldBit]
      obtain ⟨hr1len, hr1t, hr1f⟩ := hproc
      by_cases hflag : (process_bit_blocks_or W P).1 = true
      · rw [if_pos hflag]
        rw [hr1t hflag q hq]
        rfl
      · have hflag' : (process_bit_blocks_or W P).1 = false := by
          cases h : (process_bit_blocks_or W P).1
          · rfl
          · exact absurd h hflag
        rw [if_neg hflag]
        by_cases hGne : G.length ≠ 0
        · rw [if_pos hGne]
          obtain ⟨hfl, hfq⟩ := foldl_bbOr_spec W G (process_bit_blocks_or W P).2 hr1len hGwf
          change slotBit (if (process_gap_blocks_or (process_bit_blocks_or W P).2 G).1 = true
            then Slot.full
            else Slot.plain (process_gap_blocks_or (process_bit_blocks_or W P).2 G).2) q =
            (orFoldBit W P q || gapFoldBit G q)
          split
          next hcnd =>
            have hall : (G.foldl bbOr (process_bit_blocks_or W P).2).all id = true := hcnd
            have h2 := (all_eq_forall_getD _).mp hall q (by rw [hfl]; omega)
            rw [hfq q, hr1f hflag' q] at h2
            have e5 : slotBit Slot.full q = true := rfl
            rw [e5, h2]
          next hcnd =>
            have e7 : slotBit
                (Slot.plain (process_gap_blocks_or (process_bit_blocks_or W P).2 G).2) q
                = (List.foldl bbOr (process_bit_blocks_or W P).2 G).getD q false := rfl
            rw [e7, hfq q, hr1f hflag' q]
        · rw [if_neg hGne]
          have hGnil : G = [] := List.eq_nil_of_length_eq_zero (by omega)
          have e7 : slotBit (Slot.plain (process_bit_blocks_or W P).2) q
              = (process_bit_blocks_or W P).2.getD q false := rfl
          rw [e7, hr1f hflag' q, hGnil]
          simp [gapFoldBit]
    · rw [if_neg hne]
      have hPnil : P = [] := List.eq_nil_of_length_eq_zero (by omega)
      have hGnil : G = [] := List.eq_nil_of_length_eq_zero (by omega)
      rw [hPnil, hGnil]
      simp [slotBit, orFoldBit, gapFoldBit]

-- ---------------------------------------------------------------------
-- Claims C5 and C6: the block sorters
-- ---------------------------------------------------------------------

/-- C5: the AND sorter aborts early with the null pointer (and empty
buckets) as soon as any source block at (i, j) is null - so the per-block
AND reduction commits nothing there; otherwise it scans every source,
canonicalizing uniform all-ones blocks to the dereferenceable
`FULL_BLOCK_REAL_ADDR` (`none`) in the plain list, and never
short-circuits on anything but a null block. -/
theorem C5_and_sorter (srcs : List BVec) (i j : Nat) :
    (sort_input_blocks_and srcs i j =
      (if anyNullAt srcs i j then (false, [], [])
       else (true, andPlainSpec srcs i j, gapSpec srcs i j))) ∧
    (anyNullAt srcs i j = true →
      ∀ W D : Nat, combine_and_block W D srcs i j = none) := by
  refine ⟨sort_input_blocks_and_spec srcs i j, ?_⟩
  intro hnull W D
  unfold combine_and_block
  rw [sort_input_blocks_and_spec, if_pos hnull]
  rfl

theorem C5_and_sorter_witness :
    (sort_input_blocks_and [(⟨[], 0⟩ : BVec)] 0 0 =
      (if anyNullAt [(⟨[], 0⟩ : BVec)] 0 0 then (false, [], [])
       else (true, andPlainSpec [(⟨[], 0⟩ : BVec)] 0 0, gapSpec [(⟨[], 0⟩ : BVec)] 0 0))) ∧
    (anyNullAt [(⟨[], 0⟩ : BVec)] 0 0 = true →
      ∀ W D : Nat, combine_and_block W D [(⟨[], 0⟩ : BVec)] 0 0 = none) :=
  C5_and_sorter [(⟨[], 0⟩ : BVec)] 0 0

/-- C6: the OR sorter skips null blocks, buckets GAP and plain blocks,
and aborts early with `FULL_BLOCK_FAKE_ADDR` (and empty buckets) as soon
as any source block at (i, j) is uniform all-ones; the OR reducer then
commits the full sentinel without materializing a block, and the
resulting slot is bit-for-bit the OR of all sources at (i, j). -/
theorem C6_or_sorter (srcs : List BVec) (i j : Nat) :
    (sort_input_blocks_or srcs i j =
      (if anyFullAt srcs i j then (true, [], [])
       else (false, orPlainSpec srcs i j, gapSpec srcs i j))) ∧
    (anyFullAt srcs i j = true →
      ∀ W : Nat, combine_or_block W srcs i j = Slot.full ∧
        ∀ q : Nat, slotBit (combine_or_block W srcs i j) q = orBitsAt srcs i j q) := by
  refine ⟨sort_input_blocks_or_spec srcs i j, ?_⟩
  intro hfull W
  have hblk : combine_or_block W srcs i j = Slot.full := by
    unfold combine_or_block
    rw [sort_input_blocks_or_spec, if_pos hfull]
    rfl
  refine ⟨hblk, ?_⟩
  intro q
  rw [hblk, orBitsAt_of_full hfull q]
  rfl

theorem C6_or_sorter_witness :
    (sort_input_blocks_or [(⟨[some [Slot.full]], 1⟩ : BVec)] 0 0 =
      (if anyFullAt [(⟨[some [Slot.full]], 1⟩ : BVec)] 0 0 then (true, [], [])
       else (false, orPlainSpec [(⟨[some [Slot.full]], 1⟩ : BVec)] 0 0,
             gapSpec [(⟨[some [Slot.full]], 1⟩ : BVec)] 0 0))) ∧
    (combine_or_block 4 [(⟨[some [Slot.full]], 1⟩ : BVec)] 0 0 = Slot.full ∧
      ∀ q : Nat, slotBit (combine_or_block 4 [(⟨[some [Slot.full]], 1⟩ : BVec)] 0 0) q =
        orBitsAt [(⟨[some [Slot.full]], 1⟩ : BVec)] 0 0 q) :=
  ⟨(C6_or_sorter [(⟨[some [Slot.full]], 1⟩ : BVec)] 0 0).1,
   (C6_or_sorter [(⟨[some [Slot.full]], 1⟩ : BVec)] 0 0).2 (by decide) 4⟩

-- ---------------------------------------------------------------------
-- Digest lemmas
-- ---------------------------------------------------------------------

theorem bbAnd_getD (a b : List Bool) (h : a.length = b.length) (n : Nat) :
    (bbAnd a b).getD n false = (a.getD n false && b.getD n false) :=
  getD_zipWith_ff rfl a b h n

theorem bbAnd_len (a b : List Bool) : (bbAnd a b).length = min a.length b.length := by
  simp [bbAnd]

theorem bbSub_getD (a b : List Bool) (h : a.length = b.length) (n : Nat) :
    (bbSub a b).getD n false = (a.getD n false && !(b.getD n false)) :=
  getD_zipWith_ff rfl a b h n

theorem bbSub_len (a b : List Bool) : (bbSub a b).length = min a.length b.length := by
  simp [bbSub]

theorem getD_of_le {α : Type} (l : List α) (i : Nat) (d : α) (h : l.length ≤ i) :
    l.getD i d = d := by
  induction l generalizing i with
  | nil => simp [List.getD]
  | cons a tl ih =>
    cases i with
    | zero => simp at h
    | succ k =>
      simp only [List.getD_cons_succ]
      exact ih k (by simp at h; omega)

theorem any_false_getD {l : List Bool} (h : l.any id = false) (i : Nat) :
    l.getD i false = false := by
  by_cases hi : i < l.length
  · cases hv : l.getD i false
    · rfl
    · have : l.any id = true := (any_eq_exists_getD l).mpr ⟨i, hi, hv⟩
      rw [this] at h
      simp at h
  · exact getD_of_le l i false (by omega)

theorem calc_len (D : Nat) (b : BitBlk) :
    (calc_block_digest0 D b).length = (b.length + D - 1) / D := by
  simp [calc_block_digest0]

theorem calc_getD (D : Nat) (b : BitBlk) (d : Nat) :
    (calc_block_digest0 D b).getD d false =
      (if d < (b.length + D - 1) / D then sliceAny D b d else false) := by
  unfold calc_block_digest0
  by_cases hd : d < (b.length + D - 1) / D
  · rw [if_pos hd]
    rw [List.getD_eq_getElem?_getD, List.getElem?_map, List.getElem?_range hd]
    rfl
  · rw [if_neg hd]
    exact getD_of_le _ d false (by simp; omega)

theorem div_lt_ceil {D i len : Nat} (hD : 0 < D) (h : i < len) :
    i / D < (len + D - 1) / D := by
  have h1 : i / D ≤ (len - 1) / D := Nat.div_le_div_right (by omega)
  have h2 : len + D - 1 = (len - 1) + D := by omega
  have h3 : ((len - 1) + D) / D = (len - 1) / D + 1 := Nat.add_div_right _ hD
  have h4 : (len + D - 1) / D = (len - 1) / D + 1 := by rw [h2, h3]
  omega

theorem sliceAny_true_of_bit {D : Nat} (hD : 0 < D) {b : BitBlk} {i : Nat}
    (h : b.getD i false = true) : sliceAny D b (i / D) = true := by
  unfold sliceAny
  refine List.any_eq_true.mpr ⟨i % D, List.mem_range.mpr (Nat.mod_lt _ hD), ?_⟩
  have hidm : i / D * D + i % D = i := by
    rw [Nat.mul_comm]
    exact Nat.div_add_mod i D
  rw [hidm]
  exact h

theorem bit_of_sliceAny {D : Nat} {b : BitBlk} {d : Nat}
    (h : sliceAny D b d = true) : ∃ i, b.getD i false = true := by
  obtain ⟨r, _, hr⟩ := List.any_eq_true.mp h
  exact ⟨d * D + r, hr⟩

theorem calc_any_iff {D : Nat} (hD : 0 < D) (b : BitBlk) :
    (calc_block_digest0 D b).any id = b.any id := by
  cases hb : b.any id
  · cases hc : (calc_block_digest0 D b).any id
    · rfl
    · exfalso
      obtain ⟨x, hx, hid⟩ := List.any_eq_true.mp hc
      obtain ⟨dd, hddmem, hddeq⟩ := List.mem_map.mp (by
        unfold calc_block_digest0 at hx
        exact hx)
      have hslice : sliceAny D b dd = true := by
        rw [hddeq]
        exact hid
      obtain ⟨i, hi⟩ := bit_of_sliceAny hslice
      have h0 := any_false_getD hb i
      rw [h0] at hi
      simp at hi
  · obtain ⟨i, hilen, hival⟩ := (any_eq_exists_getD b).mp hb
    refine List.any_eq_true.mpr ?_
    refine ⟨sliceAny D b (i / D), ?_, ?_⟩
    · unfold calc_block_digest0
      exact List.mem_map.mpr ⟨i / D, List.mem_range.mpr (div_lt_ceil hD hilen), rfl⟩
    · exact sliceAny_true_of_bit hD hival

theorem listAnd_self (l : List Bool) : listAnd l l = l := by
  induction l with
  | nil => rfl
  | cons a tl ih =>
    simp only [listAnd, List.zipWith_cons_cons, Bool.and_self]
    simp only [listAnd] at ih
    rw [ih]

theorem listAnd_replicate_true (c : List Bool) :
    ∀ n, c.length ≤ n → listAnd (List.replicate n true) c = c := by
  induction c with
  | nil => intro n _; simp [listAnd]
  | cons y cs ih =>
    intro n hn
    cases n with
    | zero => simp at hn
    | succ m =>
      simp only [List.replicate, listAnd, List.zipWith_cons_cons, Bool.true_and]
      have := ih m (by simp at hn; omega)
      simp only [listAnd] at this
      rw [this]

theorem listAnd_absorb : ∀ (dg c c' : List Bool),
    listAnd dg c = c → c'.length = c.length →
    (∀ d, c'.getD d false = true → c.getD d false = true) →
    listAnd dg c' = c' := by
  intro dg
  induction dg with
  | nil =>
    intro c c' habs hlen _
    have hc : c = [] := by
      have : (listAnd [] c).length = c.length := by rw [habs]
      simp [listAnd] at this
      exact List.eq_nil_of_length_eq_zero this.symm
    subst hc
    have hc' : c' = [] := List.eq_nil_of_length_eq_zero (by simpa using hlen)
    subst hc'
    rfl
  | cons x dgs ih =>
    intro c c' habs hlen hmono
    cases c with
    | nil =>
      have hc' : c' = [] := List.eq_nil_of_length_eq_zero (by simpa using hlen)
      subst hc'
      rfl
    | cons y cs =>
      cases c' with
      | nil => rfl
      | cons y' cs' =>
        simp only [listAnd, List.zipWith_cons_cons, List.cons.injEq] at habs
        simp only [listAnd, List.zipWith_cons_cons, List.cons.injEq]
        constructor
        · cases hy' : y'
          · simp
          · have hy : y = true := by
              have := hmono 0
              simp only [List.getD_cons_zero] at this
              exact this (by rw [hy'])
            rw [hy] at habs
            simp only [Bool.and_true] at habs
            rw [habs.1]
            simp
        · refine ih cs cs' habs.2 (by simpa using hlen) ?_
          intro d hd
          have := hmono (d + 1)
          simp only [List.getD_cons_succ] at this
          exact this hd

theorem calc_mono {D : Nat} {b b2 : BitBlk} (hlen : b2.length = b.length)
    (hmono : ∀ q, b2.getD q false = true → b.getD q false = true) (d : Nat) :
    (calc_block_digest0 D b2).getD d false = true →
    (calc_block_digest0 D b).getD d false = true := by
  intro h
  rw [calc_getD] at h
  rw [calc_getD]
  by_cases hd : d < (b2.length + D - 1) / D
  · rw [if_pos hd] at h
    rw [if_pos (by rw [← hlen]; exact hd)]
    obtain ⟨r, hrmem, hr⟩ := List.any_eq_true.mp h
    exact List.any_eq_true.mpr ⟨r, hrmem, hmono _ hr⟩
  · rw [if_neg hd] at h
    exact absurd h Bool.false_ne_true

theorem exact_update {D : Nat} {blk blk2 : BitBlk} {dg : Digest}
    (hx : dg = calc_block_digest0 D blk) (hlen : blk2.length = blk.length)
    (hmono : ∀ q, blk2.getD q false = true → blk.getD q false = true) :
    update_block_digest0 D blk2 dg = calc_block_digest0 D blk2 := by
  rw [hx]
  unfold update_block_digest0
  refine listAnd_absorb _ _ _ (listAnd_self _) ?_ ?_
  · rw [calc_len, calc_len, hlen]
  · exact calc_mono hlen hmono

theorem full_update {W D : Nat} {blk2 : BitBlk} (hlen : blk2.length = W)
    (hcov : (W + D - 1) / D ≤ 64) :
    update_block_digest0 D blk2 fullDigest = calc_block_digest0 D blk2 := by
  unfold update_block_digest0 fullDigest
  exact listAnd_replicate_true _ 64 (by rw [calc_len, hlen]; exact hcov)

theorem exact_dgAny {D : Nat} (hD : 0 < D) {blk : BitBlk} {dg : Digest}
    (hx : dg = calc_block_digest0 D blk) : dgAny dg = blk.any id := by
  rw [hx]
  exact calc_any_iff hD blk

theorem bbAnd_subset {blk a : BitBlk} (h : blk.length = a.length) (q : Nat) :
    (bbAnd blk a).getD q false = true → blk.getD q false = true := by
  intro hq
  rw [bbAnd_getD _ _ h] at hq
  exact ((Bool.and_eq_true _ _).mp hq).1

theorem bbSub_subset {blk a : BitBlk} (h : blk.length = a.length) (q : Nat) :
    (bbSub blk a).getD q false = true → blk.getD q false = true := by
  intro hq
  rw [bbSub_getD _ _ h] at hq
  exact ((Bool.and_eq_true _ _).mp hq).1

-- ---------------------------------------------------------------------
-- AND / SUB loop lemmas
-- ---------------------------------------------------------------------

/-- AND fold over a collected plain-pointer list, bit `q`. -/
def andFoldBit (W : Nat) (l : List (Option BitBlk)) (q : Nat) : Bool :=
  l.all (fun o => (derefA W o).getD q false)

/-- AND fold over a collected GAP list, bit `q`. -/
def gapAndFold (gs : List (List Bool)) (q : Nat) : Bool :=
  gs.all (fun g => g.getD q false)

/-- SUB fold (no entry holds the bit) over a plain-pointer list. -/
def subFoldBit (W : Nat) (l : List (Option BitBlk)) (q : Nat) : Bool :=
  l.all (fun o => !((derefA W o).getD q false))

/-- SUB fold over a GAP list. -/
def gapSubFold (gs : List (List Bool)) (q : Nat) : Bool :=
  gs.all (fun g => !(g.getD q false))

theorem procAndLoop_spec (W D : Nat) (hD : 0 < D) (l : List (Option BitBlk)) :
    ∀ (blk : BitBlk) (dg : Digest), blk.length = W →
    (∀ b : BitBlk, some b ∈ l → b.length = W) →
    dg = calc_block_digest0 D blk →
    ((procAndLoop D l blk dg).1.length = W) ∧
    ((procAndLoop D l blk dg).2 = calc_block_digest0 D (procAndLoop D l blk dg).1) ∧
    (dgAny (procAndLoop D l blk dg).2 = true →
      ∀ q, q < W →
        (procAndLoop D l blk dg).1.getD q false = (blk.getD q false && andFoldBit W l q)) ∧
    (dgAny (procAndLoop D l blk dg).2 = false →
      ∀ q, q < W → (blk.getD q false && andFoldBit W l q) = false) := by
  induction l with
  | nil =>
    intro blk dg hlen _ hx
    refine ⟨by simpa [procAndLoop] using hlen, by simpa [procAndLoop] using hx, ?_, ?_⟩
    · intro _ q _
      simp [procAndLoop, andFoldBit]
    · intro hz q _
      simp only [procAndLoop] at hz
      have hba : blk.any id = false := by rw [← exact_dgAny hD hx]; exact hz
      rw [any_false_getD hba q]
      rfl
  | cons o rest ih =>
    intro blk dg hlen hwf hx
    cases o with
    | none =>
      have he : procAndLoop D (none :: rest) blk dg = procAndLoop D rest blk dg := by
        simp [procAndLoop]
      have hfold : ∀ q, q < W →
          andFoldBit W (none :: rest) q = andFoldBit W rest q := by
        intro q hq
        simp only [andFoldBit, List.all_cons, derefA]
        rw [getD_replicate]
        rw [if_pos hq]
        simp
      obtain ⟨h1, h2, h3, h4⟩ := ih blk dg hlen (fun b hb => hwf b (by simp [hb])) hx
      refine ⟨by rw [he]; exact h1, by rw [he]; exact h2, ?_, ?_⟩
      · intro ht q hq
        rw [he] at ht ⊢
        rw [h3 ht q hq, hfold q hq]
      · intro hz q hq
        rw [he] at hz
        rw [hfold q hq]
        exact h4 hz q hq
    | some a =>
      have ha : a.length = W := hwf a (by simp)
      have hlen2 : (bbAnd blk a).length = W := by rw [bbAnd_len, hlen, ha]; omega
      have hmono : ∀ q, (bbAnd blk a).getD q false = true → blk.getD q false = true :=
        fun q => bbAnd_subset (by rw [hlen, ha]) q
      have hdg2 : update_block_digest0 D (bbAnd blk a) dg =
          calc_block_digest0 D (bbAnd blk a) :=
        exact_update hx (by rw [hlen2, hlen]) hmono
      have hbit : ∀ q, (bbAnd blk a).getD q false = (blk.getD q false && a.getD q false) :=
        fun q => bbAnd_getD _ _ (by rw [hlen, ha]) q
      have hfold : ∀ q, andFoldBit W (some a :: rest) q =
          (a.getD q false && andFoldBit W rest q) := by
        intro q
        simp [andFoldBit, derefA]
      by_cases hany : dgAny (update_block_digest0 D (bbAnd blk a) dg) = true
      · have he : procAndLoop D (some a :: rest) blk dg =
            procAndLoop D rest (bbAnd blk a) (update_block_digest0 D (bbAnd blk a) dg) := by
          simp [procAndLoop, hany]
        obtain ⟨h1, h2, h3, h4⟩ := ih (bbAnd blk a) _ hlen2
          (fun b hb => hwf b (by simp [hb])) hdg2
        refine ⟨by rw [he]; exact h1, by rw [he]; exact h2, ?_, ?_⟩
        · intro ht q hq
          rw [he] at ht ⊢
          rw [h3 ht q hq, hbit q, hfold q, Bool.and_assoc]
        · intro hz q hq
          rw [he] at hz
          have := h4 hz q hq
          rw [hbit q] at this
          rw [hfold q, ← Bool.and_assoc]
          exact this
      · have hanyf : dgAny (update_block_digest0 D (bbAnd blk a) dg) = false := by
          cases h : dgAny (update_block_digest0 D (bbAnd blk a) dg)
          · rfl
          · exact absurd h hany
        have he : procAndLoop D (some a :: rest) blk dg =
            (bbAnd blk a, update_block_digest0 D (bbAnd blk a) dg) := by
          simp [procAndLoop, hanyf]
        refine ⟨by rw [he]; exact hlen2, by rw [he]; exact hdg2, ?_, ?_⟩
        · intro ht _ _
          rw [he] at ht
          rw [hanyf] at ht
          exact absurd ht Bool.false_ne_true
        · intro _ q hq
          have hz2 : (bbAnd blk a).any id = false := by
            rw [← exact_dgAny hD hdg2]
            exact hanyf
          have := any_false_getD hz2 q
          rw [hbit q] at this
          rw [hfold q, ← Bool.and_assoc, this]
          rfl

theorem process_gap_blocks_and_spec (W D : Nat) (hD : 0 < D) (gs : List (List Bool)) :
    ∀ (blk : BitBlk) (dg : Digest), blk.length = W →
    (∀ g ∈ gs, g.length = W) →
    dg = calc_block_digest0 D blk →
    ((process_gap_blocks_and D gs blk dg).1.length = W) ∧
    ((process_gap_blocks_and D gs blk dg).2 =
      calc_block_digest0 D (process_gap_blocks_and D gs blk dg).1) ∧
    (dgAny (process_gap_blocks_and D gs blk dg).2 = true →
      ∀ q, q < W →
        (process_gap_blocks_and D gs blk dg).1.getD q false =
          (blk.getD q false && gapAndFold gs q)) ∧
    (dgAny (process_gap_blocks_and D gs blk dg).2 = false →
      ∀ q, q < W → (blk.getD q false && gapAndFold gs q) = false) := by
  induction gs with
  | nil =>
    intro blk dg hlen _ hx
    refine ⟨by simpa [process_gap_blocks_and] using hlen,
      by simpa [process_gap_blocks_and] using hx, ?_, ?_⟩
    · intro _ q _
      simp [process_gap_blocks_and, gapAndFold]
    · intro hz q _
      simp only [process_gap_blocks_and] at hz
      have hba : blk.any id = false := by rw [← exact_dgAny hD hx]; exact hz
      rw [any_false_getD hba q]
      rfl
  | cons g rest ih =>
    intro blk dg hlen hwf hx
    have hg : g.length = W := hwf g (by simp)
    have hlen2 : (bbAnd blk g).length = W := by rw [bbAnd_len, hlen, hg]; omega
    have hmono : ∀ q, (bbAnd blk g).getD q false = true → blk.getD q false = true :=
      fun q => bbAnd_subset (by rw [hlen, hg]) q
    have hdg2 : update_block_digest0 D (bbAnd blk g) dg =
        calc_block_digest0 D (bbAnd blk g) :=
      exact_update hx (by rw [hlen2, hlen]) hmono
    have hbit : ∀ q, (bbAnd blk g).getD q false = (blk.getD q false && g.getD q false) :=
      fun q => bbAnd_getD _ _ (by rw [hlen, hg]) q
    have hfold : ∀ q, gapAndFold (g :: rest) q = (g.getD q false && gapAndFold rest q) := by
      intro q
      simp [gapAndFold]
    by_cases hany : dgAny (update_block_digest0 D (bbAnd blk g) dg) = true
    · have he : process_gap_blocks_and D (g :: rest) blk dg =
          process_gap_blocks_and D rest (bbAnd blk g)
            (update_block_digest0 D (bbAnd blk g) dg) := by
        simp [process_gap_blocks_and, hany]
      obtain ⟨h1, h2, h3, h4⟩ := ih (bbAnd blk g) _ hlen2
        (fun x hxm => hwf x (by simp [hxm])) hdg2
      refine ⟨by rw [he]; exact h1, by rw [he]; exact h2, ?_, ?_⟩
      · intro ht q hq
        rw [he] at ht ⊢
        rw [h3 ht q hq, hbit q, hfold q, Bool.and_assoc]
      · intro hz q hq
        rw [he] at hz
        have := h4 hz q hq
        rw [hbit q] at this
        rw [hfold q, ← Bool.and_assoc]
        exact this
    · have hanyf : dgAny (update_block_digest0 D (bbAnd blk g) dg) = false := by
        cases h : dgAny (update_block_digest0 D (bbAnd blk g) dg)
        · rfl
        · exact absurd h hany
      have he : process_gap_blocks_and D (g :: rest) blk dg =
          (bbAnd blk g, update_block_digest0 D (bbAnd blk g) dg) := by
        simp [process_gap_blocks_and, hanyf]
      refine ⟨by rw [he]; exact hlen2, by rw [he]; exact hdg2, ?_, ?_⟩
      · intro ht _ _
        rw [he] at ht
        rw [hanyf] at ht
        exact absurd ht Bool.false_ne_true
      · intro _ q hq
        have hz2 : (bbAnd blk g).any id = false := by
          rw [← exact_dgAny hD hdg2]
          exact hanyf
        have := any_false_getD hz2 q
        rw [hbit q] at this
        rw [hfold q, ← Bool.and_assoc, this]
        rfl

theorem process_bit_blocks_sub_spec (W D : Nat) (hD : 0 < D) (l : List (Option BitBlk)) :
    ∀ (blk : BitBlk) (dg : Digest), blk.length = W →
    (∀ b : BitBlk, some b ∈ l → b.length = W) →
    (∀ o ∈ l, o ≠ (none : Option BitBlk)) →
    dg = calc_block_digest0 D blk →
    ((process_bit_blocks_sub D l blk dg).1.length = W) ∧
    ((process_bit_blocks_sub D l blk dg).2 =
      calc_block_digest0 D (process_bit_blocks_sub D l blk dg).1) ∧
    (dgAny (process_bit_blocks_sub D l blk dg).2 = true →
      ∀ q, q < W →
        (process_bit_blocks_sub D l blk dg).1.getD q false =
          (blk.getD q false && subFoldBit W l q)) ∧
    (dgAny (process_bit_blocks_sub D l blk dg).2 = false →
      ∀ q, q < W → (blk.getD q false && subFoldBit W l q) = false) := by
  induction l with
  | nil =>
    intro blk dg hlen _ _ hx
    refine ⟨by simpa [process_bit_blocks_sub] using hlen,
      by simpa [process_bit_blocks_sub] using hx, ?_, ?_⟩
    · intro _ q _
      simp [process_bit_blocks_sub, subFoldBit]
    · intro hz q _
      simp only [process_bit_blocks_sub] at hz
      have hba : blk.any id = false := by rw [← exact_dgAny hD hx]; exact hz
      rw [any_false_getD hba q]
      rfl
  | cons o rest ih =>
    intro blk dg hlen hwf hnn hx
    cases o with
    | none => exact absurd rfl (hnn none (by simp))
    | some a =>
      have ha : a.length = W := hwf a (by simp)
      have hlen2 : (bbSub blk a).length = W := by rw [bbSub_len, hlen, ha]; omega
      have hmono : ∀ q, (bbSub blk a).getD q false = true → blk.getD q false = true :=
        fun q => bbSub_subset (by rw [hlen, ha]) q
      have hdg2 : update_block_digest0 D (bbSub blk a) dg =
          calc_block_digest0 D (bbSub blk a) :=
        exact_update hx (by rw [hlen2, hlen]) hmono
      have hbit : ∀ q, (bbSub blk a).getD q false =
          (blk.getD q false && !(a.getD q false)) :=
        fun q => bbSub_getD _ _ (by rw [hlen, ha]) q
      have hfold : ∀ q, subFoldBit W (some a :: rest) q =
          (!(a.getD q false) && subFoldBit W rest q) := by
        intro q
        simp [subFoldBit, derefA]
      by_cases hany : dgAny (update_block_digest0 D (bbSub blk a) dg) = true
      · have he : process_bit_blocks_sub D (some a :: rest) blk dg =
            process_bit_blocks_sub D rest (bbSub blk a)
              (update_block_digest0 D (bbSub blk a) dg) := by
          simp [process_bit_blocks_sub, hany]
        obtain ⟨h1, h2, h3, h4⟩ := ih (bbSub blk a) _ hlen2
          (fun b hb => hwf b (by simp [hb])) (fun x hxm => hnn x (by simp [hxm])) hdg2
        refine ⟨by rw [he]; exact h1, by rw [he]; exact h2, ?_, ?_⟩
        · intro ht q hq
          rw [he] at ht ⊢
          rw [h3 ht q hq, hbit q, hfold q, Bool.and_assoc]
        · intro hz q hq
          rw [he] at hz
          have := h4 hz q hq
          rw [hbit q] at this
          rw [hfold q, ← Bool.and_assoc]
          exact this
      · have hanyf : dgAny (update_block_digest0 D (bbSub blk a) dg) = false := by
          cases h : dgAny (update_block_digest0 D (bbSub blk a) dg)
          · rfl
          · exact absurd h hany
        have he : process_bit_blocks_sub D (some a :: rest) blk dg =
            (bbSub blk a, update_block_digest0 D (bbSub blk a) dg) := by
          simp [process_bit_blocks_sub, hanyf]
        refine ⟨by rw [he]; exact hlen2, by rw [he]; exact hdg2, ?_, ?_⟩
        · intro ht _ _
          rw [he] at ht
          rw [hanyf] at ht
          exact absurd ht Bool.false_ne_true
        · intro _ q hq
          have hz2 : (bbSub blk a).any id = false := by
            rw [← exact_dgAny hD hdg2]
            exact hanyf
          have := any_false_getD hz2 q
          rw [hbit q] at this
          rw [hfold q, ← Bool.and_assoc, this]
          rfl

theorem process_gap_blocks_sub_spec (W D : Nat) (hD : 0 < D) (gs : List (List Bool)) :
    ∀ (blk : BitBlk) (dg : Digest), blk.length = W →
    (∀ g ∈ gs, g.length = W) →
    dg = calc_block_digest0 D blk →
    ((process_gap_blocks_sub D gs blk dg).1.length = W) ∧
    ((process_gap_blocks_sub D gs blk dg).2 =
      calc_block_digest0 D (process_gap_blocks_sub D gs blk dg).1) ∧
    (dgAny (process_gap_blocks_sub D gs blk dg).2 = true →
      ∀ q, q < W →
        (process_gap_blocks_sub D gs blk dg).1.getD q false =
          (blk.getD q false && gapSubFold gs q)) ∧
    (dgAny (process_gap_blocks_sub D gs blk dg).2 = false →
      ∀ q, q < W → (blk.getD q false && gapSubFold gs q) = false) := by
  induction gs with
  | nil =>
    intro blk dg hlen _ hx
    refine ⟨by simpa [process_gap_blocks_sub] using hlen,
      by simpa [process_gap_blocks_sub] using hx, ?_, ?_⟩
    · intro _ q _
      simp [process_gap_blocks_sub, gapSubFold]
    · intro hz q _
      simp only [process_gap_blocks_sub] at hz
      have hba : blk.any id = false := by rw [← exact_dgAny hD hx]; exact hz
      rw [any_false_getD hba q]
      rfl
  | cons g rest ih =>
    intro blk dg hlen hwf hx
    have hg : g.length = W := hwf g (by simp)
    have hlen2 : (bbSub blk g).length = W := by rw [bbSub_len, hlen, hg]; omega
    have hmono : ∀ q, (bbSub blk g).getD q false = true → blk.getD q false = true :=
      fun q => bbSub_subset (by rw [hlen, hg]) q
    have hdg2 : update_block_digest0 D (bbSub blk g) dg =
        calc_block_digest0 D (bbSub blk g) :=
      exact_update hx (by rw [hlen2, hlen]) hmono
    have hbit : ∀ q, (bbSub blk g).getD q false =
        (blk.getD q false && !(g.getD q false)) :=
      fun q => bbSub_getD _ _ (by rw [hlen, hg]) q
    have hfold : ∀ q, gapSubFold (g :: rest) q =
        (!(g.getD q false) && gapSubFold rest q) := by
      intro q
      simp [gapSubFold]
    by_cases hany : dgAny (update_block_digest0 D (bbSub blk g) dg) = true
    · have he : process_gap_blocks_sub D (g :: rest) blk dg =
          process_gap_blocks_sub D rest (bbSub blk g)
            (update_block_digest0 D (bbSub blk g) dg) := by
        simp [process_gap_blocks_sub, hany]
      obtain ⟨h1, h2, h3, h4⟩ := ih (bbSub blk g) _ hlen2
        (fun x hxm => hwf x (by simp [hxm])) hdg2
      refine ⟨by rw [he]; exact h1, by rw [he]; exact h2, ?_, ?_⟩
      · intro ht q hq
        rw [he] at ht ⊢
        rw [h3 ht q hq, hbit q, hfold q, Bool.and_assoc]
      · intro hz q hq
        rw [he] at hz
        have := h4 hz q hq
        rw [hbit q] at this
        rw [hfold q, ← Bool.and_assoc]
        exact this
    · have hanyf : dgAny (update_block_digest0 D (bbSub blk g) dg) = false := by
        cases h : dgAny (update_block_digest0 D (bbSub blk g) dg)
        · rfl
        · exact absurd h hany
      have he : process_gap_blocks_sub D (g :: rest) blk dg =
          (bbSub blk g, update_block_digest0 D (bbSub blk g) dg) := by
        simp [process_gap_blocks_sub, hanyf]
      refine ⟨by rw [he]; exact hlen2, by rw [he]; exact hdg2, ?_, ?_⟩
      · intro ht _ _
        rw [he] at ht
        rw [hanyf] at ht
        exact absurd ht Bool.false_ne_true
      · intro _ q hq
        have hz2 : (bbSub blk g).any id = false := by
          rw [← exact_dgAny hD hdg2]
          exact hanyf
        have := any_false_getD hz2 q
        rw [hbit q] at this
        rw [hfold q, ← Bool.and_assoc, this]
        rfl

theorem process_bit_blocks_and_spec (W D : Nat) (hD : 0 < D)
    (hcov : (W + D - 1) / D ≤ 64) (P : List (Option BitBlk))
    (hwf : ∀ b : BitBlk, some b ∈ P → b.length = W) :
    ((process_bit_blocks_and W D P).1.length = W) ∧
    (P ≠ [] → (process_bit_blocks_and W D P).2 =
      calc_block_digest0 D (process_bit_blocks_and W D P).1) ∧
    (dgAny (process_bit_blocks_and W D P).2 = true →
      ∀ q, q < W → (process_bit_blocks_and W D P).1.getD q false = andFoldBit W P q) ∧
    (dgAny (process_bit_blocks_and W D P).2 = false →
      ∀ q, q < W → andFoldBit W P q = false) := by
  match P with
  | [] =>
    refine ⟨by simp [process_bit_blocks_and, bit_block_set], by simp, ?_, ?_⟩
    · intro _ q hq
      simp only [process_bit_blocks_and, bit_block_set, andFoldBit, List.all_nil]
      rw [getD_replicate]
      rw [if_pos hq]
    · intro hz
      exfalso
      have : dgAny (process_bit_blocks_and W D []).2 = true := by
        simp [process_bit_blocks_and, fullDigest, dgAny]
      rw [hz] at this
      exact absurd this Bool.false_ne_true
  | [p] =>
    have hpl : (derefA W p).length = W := derefA_len hwf (by simp)
    have he : process_bit_blocks_and W D [p] =
        (derefA W p, calc_block_digest0 D (derefA W p)) := rfl
    refine ⟨by rw [he]; exact hpl, fun _ => by rw [he], ?_, ?_⟩
    · intro _ q _
      rw [he]
      simp [andFoldBit]
    · intro hz q hq
      rw [he] at hz
      have hba : (derefA W p).any id = false := by
        rw [← calc_any_iff hD]
        exact hz
      simp only [andFoldBit, List.all_cons, List.all_nil, Bool.and_true]
      exact any_false_getD hba q
  | p :: p2 :: rest =>
    have hpl : (derefA W p).length = W := derefA_len hwf (by simp)
    have hp2l : (derefA W p2).length = W := derefA_len hwf (by simp)
    have hb0l : (bbAnd (derefA W p) (derefA W p2)).length = W := by
      rw [bbAnd_len, hpl, hp2l]; omega
    have hb0bit : ∀ q, (bbAnd (derefA W p) (derefA W p2)).getD q false =
        ((derefA W p).getD q false && (derefA W p2).getD q false) :=
      fun q => bbAnd_getD _ _ (by rw [hpl, hp2l]) q
    have hdg0 : listAnd fullDigest
        (calc_block_digest0 D (bbAnd (derefA W p) (derefA W p2))) =
        calc_block_digest0 D (bbAnd (derefA W p) (derefA W p2)) := by
      have := full_update (W := W) (D := D) hb0l hcov
      simpa [update_block_digest0] using this
    have he : process_bit_blocks_and W D (p :: p2 :: rest) =
        procAndLoop D rest (bbAnd (derefA W p) (derefA W p2))
          (listAnd fullDigest (calc_block_digest0 D (bbAnd (derefA W p) (derefA W p2)))) := rfl
    obtain ⟨h1, h2, h3, h4⟩ := procAndLoop_spec W D hD rest
      (bbAnd (derefA W p) (derefA W p2))
      (listAnd fullDigest (calc_block_digest0 D (bbAnd (derefA W p) (derefA W p2))))
      hb0l (fun b hb => hwf b (by simp [hb])) hdg0
    have hfold : ∀ q, andFoldBit W (p :: p2 :: rest) q =
        ((derefA W p).getD q false && ((derefA W p2).getD q false && andFoldBit W rest q)) := by
      intro q
      simp [andFoldBit]
    refine ⟨by rw [he]; exact h1, fun _ => by rw [he]; exact h2, ?_, ?_⟩
    · intro ht q hq
      rw [he] at ht ⊢
      rw [h3 ht q hq, hb0bit q, hfold q, Bool.and_assoc]
    · intro hz q hq
      rw [he] at hz
      have := h4 hz q hq
      rw [hb0bit q] at this
      rw [hfold q, ← Bool.and_assoc]
      exact this

theorem process_gap_blocks_and_full_spec (W D : Nat) (hD : 0 < D)
    (hcov : (W + D - 1) / D ≤ 64) (gs : List (List Bool)) (hne : gs ≠ [])
    (hwf : ∀ g ∈ gs, g.length = W) :
    ((process_gap_blocks_and D gs (bit_block_set W true) fullDigest).1.length = W) ∧
    ((process_gap_blocks_and D gs (bit_block_set W true) fullDigest).2 =
      calc_block_digest0 D
        (process_gap_blocks_and D gs (bit_block_set W true) fullDigest).1) ∧
    (dgAny (process_gap_blocks_and D gs (bit_block_set W true) fullDigest).2 = true →
      ∀ q, q < W →
        (process_gap_blocks_and D gs (bit_block_set W true) fullDigest).1.getD q false =
          gapAndFold gs q) ∧
    (dgAny (process_gap_blocks_and D gs (bit_block_set W true) fullDigest).2 = false →
      ∀ q, q < W → gapAndFold gs q = false) := by
  match gs, hne with
  | g :: rest, _ =>
    have hg : g.length = W := hwf g (by simp)
    have honesl : (bit_block_set W true).length = W := by simp [bit_block_set]
    have hlen2 : (bbAnd (bit_block_set W true) g).length = W := by
      rw [bbAnd_len, honesl, hg]; omega
    have hdg2 : update_block_digest0 D (bbAnd (bit_block_set W true) g) fullDigest =
        calc_block_digest0 D (bbAnd (bit_block_set W true) g) :=
      full_update hlen2 hcov
    have hbit : ∀ q, q < W → (bbAnd (bit_block_set W true) g).getD q false = g.getD q false := by
      intro q hq
      rw [bbAnd_getD _ _ (by rw [honesl, hg]) q]
      unfold bit_block_set
      rw [getD_replicate, if_pos hq]
      simp
    have hfold : ∀ q, gapAndFold (g :: rest) q = (g.getD q false && gapAndFold rest q) := by
      intro q
      simp [gapAndFold]
    by_cases hany : dgAny (update_block_digest0 D (bbAnd (bit_block_set W true) g) fullDigest) = true
    · have he : process_gap_blocks_and D (g :: rest) (bit_block_set W true) fullDigest =
          process_gap_blocks_and D rest (bbAnd (bit_block_set W true) g)
            (update_block_digest0 D (bbAnd (bit_block_set W true) g) fullDigest) := by
        simp [process_gap_blocks_and, hany]
      obtain ⟨h1, h2, h3, h4⟩ := process_gap_blocks_and_spec W D hD rest
        (bbAnd (bit_block_set W true) g) _ hlen2
        (fun x hxm => hwf x (by simp [hxm])) hdg2
      refine ⟨by rw [he]; exact h1, by rw [he]; exact h2, ?_, ?_⟩
      · intro ht q hq
        rw [he] at ht ⊢
        rw [h3 ht q hq, hbit q hq, hfold q]
      · intro hz q hq
        rw [he] at hz
        have := h4 hz q hq
        rw [hbit q hq] at this
        rw [hfold q]
        exact this
    · have hanyf : dgAny (update_block_digest0 D (bbAnd (bit_block_set W true) g) fullDigest)
          = false := by
        cases h : dgAny (update_block_digest0 D (bbAnd (bit_block_set W true) g) fullDigest)
        · rfl
        · exact absurd h hany
      have he : process_gap_blocks_and D (g :: rest) (bit_block_set W true) fullDigest =
          (bbAnd (bit_block_set W true) g,
           update_block_digest0 D (bbAnd (bit_block_set W true) g) fullDigest) := by
        simp [process_gap_blocks_and, hanyf]
      refine ⟨by rw [he]; exact hlen2, by rw [he]; exact hdg2, ?_, ?_⟩
      · intro ht _ _
        rw [he] at ht
        rw [hanyf] at ht
        exact absurd ht Bool.false_ne_true
      · intro _ q hq
        have hz2 : (bbAnd (bit_block_set W true) g).any id = false := by
          rw [← exact_dgAny hD hdg2]
          exact hanyf
        have := any_false_getD hz2 q
        rw [hbit q hq] at this
        rw [hfold q, this]
        rfl

theorem andBitsAt_of_null {srcs : List BVec} {i j : Nat}
    (h : anyNullAt srcs i j = true) (q : Nat) : andBitsAt srcs i j q = false := by
  obtain ⟨bv, hbv, hnull⟩ := List.any_eq_true.mp h
  rw [decide_eq_true_eq] at hnull
  cases hall : andBitsAt srcs i j q
  · rfl
  · have := List.all_eq_true.mp hall _ hbv
    rw [hnull] at this
    simp [slotBit] at this

theorem andBitsAt_buckets (W : Nat) {srcs : List BVec} {i j : Nat}
    (hnn : anyNullAt srcs i j = false) (q : Nat) (hq : q < W) :
    andBitsAt srcs i j q =
      (andFoldBit W (andPlainSpec srcs i j) q && gapAndFold (gapSpec srcs i j) q) := by
  induction srcs with
  | nil => simp [andBitsAt, andFoldBit, gapAndFold, andPlainSpec, gapSpec]
  | cons bv rest ih =>
    have hnn2 : anyNullAt rest i j = false := by
      simp only [anyNullAt, List.any_cons, Bool.or_eq_false_iff] at hnn
      exact hnn.2
    have hstep : andBitsAt (bv :: rest) i j q =
        (slotBit (get_block_ptr bv i j) q && andBitsAt rest i j q) := by
      simp [andBitsAt]
    cases hs : get_block_ptr bv i j with
    | null =>
      exfalso
      simp [anyNullAt, hs] at hnn
    | gap g =>
      have e1 : andPlainSpec (bv :: rest) i j = andPlainSpec rest i j := by
        simp [andPlainSpec, hs]
      have e2 : gapSpec (bv :: rest) i j = g :: gapSpec rest i j := by
        simp [gapSpec, hs]
      have e3 : gapAndFold (g :: gapSpec rest i j) q =
          (g.getD q false && gapAndFold (gapSpec rest i j) q) := by
        simp [gapAndFold]
      rw [hstep, hs, ih hnn2, e1, e2, e3]
      have e4 : slotBit (Slot.gap g) q = g.getD q false := rfl
      rw [e4, Bool.and_left_comm]
    | full =>
      have e1 : andPlainSpec (bv :: rest) i j = none :: andPlainSpec rest i j := by
        simp [andPlainSpec, hs]
      have e2 : gapSpec (bv :: rest) i j = gapSpec rest i j := by
        simp [gapSpec, hs]
      have e3 : andFoldBit W (none :: andPlainSpec rest i j) q =
          andFoldBit W (andPlainSpec rest i j) q := by
        simp only [andFoldBit, List.all_cons, derefA]
        rw [getD_replicate, if_pos hq]
        simp
      rw [hstep, hs, ih hnn2, e1, e2, e3]
      have e4 : slotBit Slot.full q = true := rfl
      rw [e4, Bool.true_and]
    | plain b =>
      have e1 : andPlainSpec (bv :: rest) i j = some b :: andPlainSpec rest i j := by
        simp [andPlainSpec, hs]
      have e2 : gapSpec (bv :: rest) i j = gapSpec rest i j := by
        simp [gapSpec, hs]
      have e3 : andFoldBit W (some b :: andPlainSpec rest i j) q =
          (b.getD q false && andFoldBit W (andPlainSpec rest i j) q) := by
        simp [andFoldBit, derefA]
      rw [hstep, hs, ih hnn2, e1, e2, e3]
      have e4 : slotBit (Slot.plain b) q = b.getD q false := rfl
      rw [e4, Bool.and_assoc]

theorem and_buckets_nonempty {srcs : List BVec} {i j : Nat}
    (hnn : anyNullAt srcs i j = false) (hne : srcs ≠ []) :
    (andPlainSpec srcs i j).length ≠ 0 ∨ (gapSpec srcs i j).length ≠ 0 := by
  match srcs, hne with
  | bv :: rest, _ =>
    cases hs : get_block_ptr bv i j with
    | null =>
      exfalso
      simp [anyNullAt, hs] at hnn
    | gap g =>
      right
      simp [gapSpec, hs]
    | full =>
      left
      simp [andPlainSpec, hs]
    | plain b =>
      left
      simp [andPlainSpec, hs]

theorem and_phase_spec (W D : Nat) (hD : 0 < D) (hcov : (W + D - 1) / D ≤ 64)
    (P : List (Option BitBlk)) (G : List (List Bool))
    (hPwf : ∀ b : BitBlk, some b ∈ P → b.length = W)
    (hGwf : ∀ g ∈ G, g.length = W)
    (hne : P.length ≠ 0 ∨ G.length ≠ 0)
    (hr1 : dgAny (process_bit_blocks_and W D P).2 = true) :
    ((if G.length ≠ 0 then
        process_gap_blocks_and D G (process_bit_blocks_and W D P).1
          (process_bit_blocks_and W D P).2
      else process_bit_blocks_and W D P).1.length = W) ∧
    ((if G.length ≠ 0 then
        process_gap_blocks_and D G (process_bit_blocks_and W D P).1
          (process_bit_blocks_and W D P).2
      else process_bit_blocks_and W D P).2 =
      calc_block_digest0 D
        (if G.length ≠ 0 then
          process_gap_blocks_and D G (process_bit_blocks_and W D P).1
            (process_bit_blocks_and W D P).2
        else process_bit_blocks_and W D P).1) ∧
    (dgAny (if G.length ≠ 0 then
        process_gap_blocks_and D G (process_bit_blocks_and W D P).1
          (process_bit_blocks_and W D P).2
      else process_bit_blocks_and W D P).2 = true →
      ∀ q, q < W →
        (if G.length ≠ 0 then
          process_gap_blocks_and D G (process_bit_blocks_and W D P).1
            (process_bit_blocks_and W D P).2
        else process_bit_blocks_and W D P).1.getD q false =
          (andFoldBit W P q && gapAndFold G q)) ∧
    (dgAny (if G.length ≠ 0 then
        process_gap_blocks_and D G (process_bit_blocks_and W D P).1
          (process_bit_blocks_and W D P).2
      else process_bit_blocks_and W D P).2 = false →
      ∀ q, q < W → (andFoldBit W P q && gapAndFold G q) = false) := by
  obtain ⟨hb1, hb2, hb3, hb4⟩ := process_bit_blocks_and_spec W D hD hcov P hPwf
  by_cases hG : G.length ≠ 0
  · rw [if_pos hG]
    by_cases hPe : P = []
    · subst hPe
      have hGne : G ≠ [] := by
        intro h
        rw [h] at hG
        simp at hG
      have e1 : (process_bit_blocks_and W D []).1 = bit_block_set W true := rfl
      have e2 : (process_bit_blocks_and W D []).2 = fullDigest := rfl
      rw [e1, e2]
      obtain ⟨h1, h2, h3, h4⟩ := process_gap_blocks_and_full_spec W D hD hcov G hGne hGwf
      refine ⟨h1, h2, ?_, ?_⟩
      · intro ht q hq
        rw [h3 ht q hq]
        simp [andFoldBit]
      · intro hz q hq
        have := h4 hz q hq
        simp only [andFoldBit, List.all_nil, Bool.true_and]
        exact this
    · have hx := hb2 hPe
      obtain ⟨h1, h2, h3, h4⟩ := process_gap_blocks_and_spec W D hD G
        (process_bit_blocks_and W D P).1 (process_bit_blocks_and W D P).2 hb1 hGwf hx
      refine ⟨h1, h2, ?_, ?_⟩
      · intro ht q hq
        rw [h3 ht q hq, hb3 hr1 q hq]
      · intro hz q hq
        have := h4 hz q hq
        rw [hb3 hr1 q hq] at this
        exact this
  · rw [if_neg hG]
    have hPe : P ≠ [] := by
      intro h
      rcases hne with h0 | h0
      · rw [h] at h0; simp at h0
      · exact h0 (by
          have : G = [] := List.eq_nil_of_length_eq_zero (by omega)
          rw [this]; rfl)
    have hGnil : G = [] := List.eq_nil_of_length_eq_zero (by omega)
    refine ⟨hb1, hb2 hPe, ?_, ?_⟩
    · intro ht q hq
      rw [hb3 ht q hq, hGnil]
      simp [gapAndFold]
    · intro hz q hq
      rw [hGnil]
      simp only [gapAndFold, List.all_nil, Bool.and_true]
      exact hb4 hz q hq

/-- Per-block AND reduction computes the bitwise AND of all source
blocks at (i, j) (`none` meaning the all-zero result never written). -/
theorem combine_and_block_bit (W SA D : Nat) (hD : 0 < D)
    (hcov : (W + D - 1) / D ≤ 64) (srcs : List BVec) (hne : srcs ≠ [])
    (hwf : bvsWF W SA srcs = true) (i j q : Nat) (hq : q < W) :
    optBit (combine_and_block W D srcs i j) q = andBitsAt srcs i j q := by
  by_cases hnull : anyNullAt srcs i j = true
  · have e : combine_and_block W D srcs i j = none := by
      unfold combine_and_block
      rw [sort_input_blocks_and_spec, if_pos hnull]
      rfl
    rw [e, andBitsAt_of_null hnull q]
    rfl
  · have hnn : anyNullAt srcs i j = false := by
      cases h : anyNullAt srcs i j
      · rfl
      · exact absurd h hnull
    have hbne := and_buckets_nonempty hnn hne
    have hPwf := andPlainSpec_wf hwf i j
    have hGwf := gapSpec_wf hwf i j
    have e : combine_and_block W D srcs i j =
        (if ¬ dgAny (process_bit_blocks_and W D (andPlainSpec srcs i j)).2 = true then none
         else if dgAny (if (gapSpec srcs i j).length ≠ 0 then
             process_gap_blocks_and D (gapSpec srcs i j)
               (process_bit_blocks_and W D (andPlainSpec srcs i j)).1
               (process_bit_blocks_and W D (andPlainSpec srcs i j)).2
           else process_bit_blocks_and W D (andPlainSpec srcs i j)).2 = true then
           some (if (gapSpec srcs i j).length ≠ 0 then
             process_gap_blocks_and D (gapSpec srcs i j)
               (process_bit_blocks_and W D (andPlainSpec srcs i j)).1
               (process_bit_blocks_and W D (andPlainSpec srcs i j)).2
           else process_bit_blocks_and W D (andPlainSpec srcs i j)).1
         else none) := by
      unfold combine_and_block
      rw [sort_input_blocks_and_spec, if_neg hnull]
      rw [if_neg (by simp), if_pos hbne]
    rw [e]
    obtain ⟨hb1, hb2, hb3, hb4⟩ :=
      process_bit_blocks_and_spec W D hD hcov (andPlainSpec srcs i j) hPwf
    by_cases h1 : dgAny (process_bit_blocks_and W D (andPlainSpec srcs i j)).2 = true
    · rw [if_neg (not_not_intro h1)]
      obtain ⟨hp1, hp2, hp3, hp4⟩ := and_phase_spec W D hD hcov
        (andPlainSpec srcs i j) (gapSpec srcs i j) hPwf hGwf hbne h1
      by_cases h2 : dgAny (if (gapSpec srcs i j).length ≠ 0 then
          process_gap_blocks_and D (gapSpec srcs i j)
            (process_bit_blocks_and W D (andPlainSpec srcs i j)).1
            (process_bit_blocks_and W D (andPlainSpec srcs i j)).2
        else process_bit_blocks_and W D (andPlainSpec srcs i j)).2 = true
      · rw [if_pos h2]
        have e2 : optBit (some (if (gapSpec srcs i j).length ≠ 0 then
            process_gap_blocks_and D (gapSpec srcs i j)
              (process_bit_blocks_and W D (andPlainSpec srcs i j)).1
              (process_bit_blocks_and W D (andPlainSpec srcs i j)).2
          else process_bit_blocks_and W D (andPlainSpec srcs i j)).1) q =
            (if (gapSpec srcs i j).length ≠ 0 then
            process_gap_blocks_and D (gapSpec srcs i j)
              (process_bit_blocks_and W D (andPlainSpec srcs i j)).1
              (process_bit_blocks_and W D (andPlainSpec srcs i j)).2
          else process_bit_blocks_and W D (andPlainSpec srcs i j)).1.getD q false := rfl
        rw [e2, hp3 h2 q hq, andBitsAt_buckets W hnn q hq]
      · have h2f : dgAny (if (gapSpec srcs i j).length ≠ 0 then
            process_gap_blocks_and D (gapSpec srcs i j)
              (process_bit_blocks_and W D (andPlainSpec srcs i j)).1
              (process_bit_blocks_and W D (andPlainSpec srcs i j)).2
          else process_bit_blocks_and W D (andPlainSpec srcs i j)).2 = false := by
          cases h : dgAny (if (gapSpec srcs i j).length ≠ 0 then
              process_gap_blocks_and D (gapSpec srcs i j)
                (process_bit_blocks_and W D (andPlainSpec srcs i j)).1
                (process_bit_blocks_and W D (andPlainSpec srcs i j)).2
            else process_bit_blocks_and W D (andPlainSpec srcs i j)).2
          · rfl
          · exact absurd h h2
        rw [if_neg h2]
        rw [andBitsAt_buckets W hnn q hq, hp4 h2f q hq]
        rfl
    · have h1f : dgAny (process_bit_blocks_and W D (andPlainSpec srcs i j)).2 = false := by
        cases h : dgAny (process_bit_blocks_and W D (andPlainSpec srcs i j)).2
        · rfl
        · exact absurd h h1
      rw [if_pos h1]
      rw [andBitsAt_buckets W hnn q hq, hb4 h1f q hq]
      rfl

theorem orPlainSpec_no_none (srcs : List BVec) (i j : Nat) :
    ∀ o ∈ orPlainSpec srcs i j, o ≠ (none : Option BitBlk) := by
  intro o ho
  obtain ⟨bv, hbv, hmatch⟩ := List.mem_filterMap.mp ho
  cases hs : get_block_ptr bv i j with
  | plain p =>
    rw [hs] at hmatch
    simp only [Option.some.injEq] at hmatch
    rw [← hmatch]
    simp
  | null => rw [hs] at hmatch; simp at hmatch
  | full => rw [hs] at hmatch; simp at hmatch
  | gap g => rw [hs] at hmatch; simp at hmatch

theorem subFold_eq_not_orFold (W : Nat) (l : List (Option BitBlk)) (q : Nat) :
    subFoldBit W l q = !(orFoldBit W l q) := by
  induction l with
  | nil => simp [subFoldBit, orFoldBit]
  | cons o rest ih =>
    simp only [subFoldBit, orFoldBit, List.all_cons, List.any_cons, Bool.not_or] at ih ⊢
    rw [ih]

theorem gapSubFold_eq_not_gapFold (gs : List (List Bool)) (q : Nat) :
    gapSubFold gs q = !(gapFoldBit gs q) := by
  induction gs with
  | nil => simp [gapSubFold, gapFoldBit]
  | cons g rest ih =>
    simp only [gapSubFold, gapFoldBit, List.all_cons, List.any_cons, Bool.not_or] at ih ⊢
    rw [ih]

theorem getD_true_lt {l : List Bool} {i : Nat} (h : l.getD i false = true) :
    i < l.length := by
  by_contra hc
  rw [getD_of_le l i false (by omega)] at h
  simp at h

theorem any_of_getD_true {l : List Bool} {i : Nat} (h : l.getD i false = true) :
    l.any id = true :=
  (any_eq_exists_getD l).mpr ⟨i, getD_true_lt h, h⟩

theorem cas_sub_part_spec (W SA D : Nat) (hD : 0 < D) (g1 : List BVec)
    (hwf1 : bvsWF W SA g1 = true) (i j : Nat) (blk : BitBlk) (dg : Digest)
    (hblk : blk.length = W) (hx : dg = calc_block_digest0 D blk) :
    (∀ q, q < W →
      (dgAny (cas_sub_part W D g1 i j blk dg).1 &&
        (cas_sub_part W D g1 i j blk dg).2.getD q false) =
      (dgAny dg && blk.getD q false && !(orBitsAt g1 i j q))) ∧
    (dgAny (cas_sub_part W D g1 i j blk dg).1 = true →
      (cas_sub_part W D g1 i j blk dg).2.any id = true ∧
      (cas_sub_part W D g1 i j blk dg).2.length = W) := by
  by_cases hg1 : g1.length ≠ 0
  · by_cases hfull : anyFullAt g1 i j = true
    · have e : cas_sub_part W D g1 i j blk dg = ([], blk) := by
        unfold cas_sub_part
        rw [if_pos hg1, sort_input_blocks_or_spec, if_pos hfull]
        rfl
      rw [e]
      constructor
      · intro q hq
        rw [orBitsAt_of_full hfull q]
        simp [dgAny]
      · intro h
        simp [dgAny] at h
    · have hnf : anyFullAt g1 i j = false := by
        cases h : anyFullAt g1 i j
        · rfl
        · exact absurd h hfull
      have hP2wf : ∀ b : BitBlk, some b ∈ orPlainSpec g1 i j → b.length = W :=
        orPlainSpec_wf hwf1 i j
      have hG2wf : ∀ g ∈ gapSpec g1 i j, g.length = W := gapSpec_wf hwf1 i j
      have hor : ∀ q, orBitsAt g1 i j q =
          (orFoldBit W (orPlainSpec g1 i j) q || gapFoldBit (gapSpec g1 i j) q) :=
        fun q => orBitsAt_buckets W hnf q
      by_cases hbne : (orPlainSpec g1 i j).length ≠ 0 ∨ (gapSpec g1 i j).length ≠ 0
      · have e : cas_sub_part W D g1 i j blk dg =
            (if ¬ dgAny (process_bit_blocks_sub D (orPlainSpec g1 i j) blk dg).2 = true then
              ((process_bit_blocks_sub D (orPlainSpec g1 i j) blk dg).2,
               (process_bit_blocks_sub D (orPlainSpec g1 i j) blk dg).1)
            else
              ((if (gapSpec g1 i j).length ≠ 0 then
                  process_gap_blocks_sub D (gapSpec g1 i j)
                    (process_bit_blocks_sub D (orPlainSpec g1 i j) blk dg).1
                    (process_bit_blocks_sub D (orPlainSpec g1 i j) blk dg).2
                else process_bit_blocks_sub D (orPlainSpec g1 i j) blk dg).2,
               (if (gapSpec g1 i j).length ≠ 0 then
                  process_gap_blocks_sub D (gapSpec g1 i j)
                    (process_bit_blocks_sub D (orPlainSpec g1 i j) blk dg).1
                    (process_bit_blocks_sub D (orPlainSpec g1 i j) blk dg).2
                else process_bit_blocks_sub D (orPlainSpec g1 i j) blk dg).1)) := by
          unfold cas_sub_part
          rw [if_pos hg1, sort_input_blocks_or_spec, if_neg hfull]
          rw [if_neg (by simp), if_pos hbne]
        obtain ⟨hs1, hs2, hs3, hs4⟩ := process_bit_blocks_sub_spec W D hD
          (orPlainSpec g1 i j) blk dg hblk hP2wf (orPlainSpec_no_none g1 i j) hx
        have hdga_of_h3 :
            dgAny (process_bit_blocks_sub D (orPlainSpec g1 i j) blk dg).2 = true →
            dgAny dg = true := by
          intro h3'
          rw [exact_dgAny hD hx]
          have hr3any :
              (process_bit_blocks_sub D (orPlainSpec g1 i j) blk dg).1.any id = true := by
            rw [← exact_dgAny hD hs2]
            exact h3'
          obtain ⟨ii, hii, hvv⟩ := (any_eq_exists_getD _).mp hr3any
          have hbit := hs3 h3' ii (by rw [← hs1]; exact hii)
          rw [hbit] at hvv
          exact any_of_getD_true ((Bool.and_eq_true _ _).mp hvv).1
        rw [e]
        by_cases h3 : dgAny (process_bit_blocks_sub D (orPlainSpec g1 i j) blk dg).2 = true
        · rw [if_neg (not_not_intro h3)]
          by_cases hG2 : (gapSpec g1 i j).length ≠ 0
          · rw [if_pos hG2]
            obtain ⟨hg1l, hg2x, hg3, hg4⟩ := process_gap_blocks_sub_spec W D hD
              (gapSpec g1 i j)
              (process_bit_blocks_sub D (orPlainSpec g1 i j) blk dg).1
              (process_bit_blocks_sub D (orPlainSpec g1 i j) blk dg).2 hs1 hG2wf hs2
            constructor
            · intro q hq
              by_cases h4 : dgAny (process_gap_blocks_sub D (gapSpec g1 i j)
                  (process_bit_blocks_sub D (orPlainSpec g1 i j) blk dg).1
                  (process_bit_blocks_sub D (orPlainSpec g1 i j) blk dg).2).2 = true
              · rw [h4, hg3 h4 q hq, hs3 h3 q hq, hor q, hdga_of_h3 h3,
                    subFold_eq_not_orFold, gapSubFold_eq_not_gapFold, Bool.not_or]
                simp [Bool.and_assoc]
              · have h4f : dgAny (process_gap_blocks_sub D (gapSpec g1 i j)
                    (process_bit_blocks_sub D (orPlainSpec g1 i j) blk dg).1
                    (process_bit_blocks_sub D (orPlainSpec g1 i j) blk dg).2).2 = false := by
                  cases h : dgAny (process_gap_blocks_sub D (gapSpec g1 i j)
                      (process_bit_blocks_sub D (orPlainSpec g1 i j) blk dg).1
                      (process_bit_blocks_sub D (orPlainSpec g1 i j) blk dg).2).2
                  · rfl
                  · exact absurd h h4
                rw [h4f]
                have hz := hg4 h4f q hq
                rw [hs3 h3 q hq] at hz
                rw [subFold_eq_not_orFold, gapSubFold_eq_not_gapFold] at hz
                rw [hor q, Bool.not_or]
                simp only [Bool.false_and]
                cases hd : dgAny dg
                · simp
                · simp only [Bool.true_and]
                  rw [Bool.and_assoc] at hz
                  exact hz.symm
            · intro h4
              refine ⟨?_, hg1l⟩
              rw [← exact_dgAny hD hg2x]
              exact h4
          · rw [if_neg hG2]
            have hG2nil : gapSpec g1 i j = [] := List.eq_nil_of_length_eq_zero (by omega)
            constructor
            · intro q hq
              rw [h3, hs3 h3 q hq, hor q, hG2nil, hdga_of_h3 h3,
                  subFold_eq_not_orFold, Bool.not_or]
              simp [gapFoldBit, Bool.and_assoc]
            · intro h4
              refine ⟨?_, hs1⟩
              rw [← exact_dgAny hD hs2]
              exact h4
        · have h3f : dgAny (process_bit_blocks_sub D (orPlainSpec g1 i j) blk dg).2 = false := by
            cases h : dgAny (process_bit_blocks_sub D (orPlainSpec g1 i j) blk dg).2
            · rfl
            · exact absurd h h3
          rw [if_pos (by rw [h3f]; exact Bool.false_ne_true)]
          constructor
          · intro q hq
            rw [h3f]
            have hz := hs4 h3f q hq
            rw [subFold_eq_not_orFold] at hz
            rw [hor q, Bool.not_or]
            simp only [Bool.false_and]
            cases hd : dgAny dg
            · simp
            · simp only [Bool.true_and]
              rw [← Bool.and_assoc, hz]
              simp
          · intro h4
            rw [h3f] at h4
            exact absurd h4 Bool.false_ne_true
      · have hP2nil : orPlainSpec g1 i j = [] := by
          have h1 : (orPlainSpec g1 i j).length = 0 := by
            by_contra hc
            exact hbne (Or.inl hc)
          exact List.eq_nil_of_length_eq_zero h1
        have hG2nil : gapSpec g1 i j = [] := by
          have h1 : (gapSpec g1 i j).length = 0 := by
            by_contra hc
            exact hbne (Or.inr hc)
          exact List.eq_nil_of_length_eq_zero h1
        have e : cas_sub_part W D g1 i j blk dg = (dg, blk) := by
          unfold cas_sub_part
          rw [if_pos hg1, sort_input_blocks_or_spec, if_neg hfull]
          rw [if_neg (by simp), if_neg (by
            rw [hP2nil, hG2nil]
            simp)]
        rw [e]
        constructor
        · intro q hq
          rw [hor q, hP2nil, hG2nil]
          simp [orFoldBit, gapFoldBit]
        · intro h4
          refine ⟨?_, hblk⟩
          rw [← exact_dgAny hD hx]
          exact h4
  · have e : cas_sub_part W D g1 i j blk dg = (dg, blk) := by
      unfold cas_sub_part
      rw [if_neg hg1]
    rw [e]
    have hg1nil : g1 = [] := List.eq_nil_of_length_eq_zero (by omega)
    constructor
    · intro q hq
      rw [hg1nil]
      simp [orBitsAt]
    · intro h4
      refine ⟨?_, hblk⟩
      rw [← exact_dgAny hD hx]
      exact h4

theorem combine_and_sub_block_spec (W SA D : Nat) (hD : 0 < D)
    (hcov : (W + D - 1) / D ≤ 64) (g0 g1 : List BVec) (hne : g0 ≠ [])
    (hwf0 : bvsWF W SA g0 = true) (hwf1 : bvsWF W SA g1 = true) (i j : Nat) :
    (∀ q, q < W →
      (dgAny (combine_and_sub_block W D g0 g1 i j).1 &&
        (combine_and_sub_block W D g0 g1 i j).2.getD q false) =
      (andBitsAt g0 i j q && !(orBitsAt g1 i j q))) ∧
    (dgAny (combine_and_sub_block W D g0 g1 i j).1 = true →
      (combine_and_sub_block W D g0 g1 i j).2.any id = true ∧
      (combine_and_sub_block W D g0 g1 i j).2.length = W) := by
  by_cases hnull : anyNullAt g0 i j = true
  · have e : combine_and_sub_block W D g0 g1 i j = ([], bit_block_set W false) := by
      unfold combine_and_sub_block
      rw [sort_input_blocks_and_spec, if_pos hnull]
      rfl
    rw [e]
    constructor
    · intro q hq
      rw [andBitsAt_of_null hnull q]
      simp [dgAny]
    · intro h
      simp [dgAny] at h
  · have hnn : anyNullAt g0 i j = false := by
      cases h : anyNullAt g0 i j
      · rfl
      · exact absurd h hnull
    have hbne := and_buckets_nonempty hnn hne
    have hPwf := andPlainSpec_wf hwf0 i j
    have hGwf := gapSpec_wf hwf0 i j
    have e : combine_and_sub_block W D g0 g1 i j =
        (if ¬ dgAny (process_bit_blocks_and W D (andPlainSpec g0 i j)).2 = true then
           ((process_bit_blocks_and W D (andPlainSpec g0 i j)).2,
            (process_bit_blocks_and W D (andPlainSpec g0 i j)).1)
         else if ¬ dgAny (if (gapSpec g0 i j).length ≠ 0 then
             process_gap_blocks_and D (gapSpec g0 i j)
               (process_bit_blocks_and W D (andPlainSpec g0 i j)).1
               (process_bit_blocks_and W D (andPlainSpec g0 i j)).2
           else process_bit_blocks_and W D (andPlainSpec g0 i j)).2 = true then
           ((if (gapSpec g0 i j).length ≠ 0 then
               process_gap_blocks_and D (gapSpec g0 i j)
                 (process_bit_blocks_and W D (andPlainSpec g0 i j)).1
                 (process_bit_blocks_and W D (andPlainSpec g0 i j)).2
             else process_bit_blocks_and W D (andPlainSpec g0 i j)).2,
            (if (gapSpec g0 i j).length ≠ 0 then
               process_gap_blocks_and D (gapSpec g0 i j)
                 (process_bit_blocks_and W D (andPlainSpec g0 i j)).1
                 (process_bit_blocks_and W D (andPlainSpec g0 i j)).2
             else process_bit_blocks_and W D (andPlainSpec g0 i j)).1)
         else cas_sub_part W D g1 i j
           (if (gapSpec g0 i j).length ≠ 0 then
               process_gap_blocks_and D (gapSpec g0 i j)
                 (process_bit_blocks_and W D (andPlainSpec g0 i j)).1
                 (process_bit_blocks_and W D (andPlainSpec g0 i j)).2
             else process_bit_blocks_and W D (andPlainSpec g0 i j)).1
           (if (gapSpec g0 i j).length ≠ 0 then
               process_gap_blocks_and D (gapSpec g0 i j)
                 (process_bit_blocks_and W D (andPlainSpec g0 i j)).1
                 (process_bit_blocks_and W D (andPlainSpec g0 i j)).2
             else process_bit_blocks_and W D (andPlainSpec g0 i j)).2) := by
      unfold combine_and_sub_block
      rw [sort_input_blocks_and_spec, if_neg hnull]
      rw [if_neg (by simp), if_pos hbne]
    rw [e]
    obtain ⟨hb1, hb2, hb3, hb4⟩ :=
      process_bit_blocks_and_spec W D hD hcov (andPlainSpec g0 i j) hPwf
    by_cases h1 : dgAny (process_bit_blocks_and W D (andPlainSpec g0 i j)).2 = true
    · rw [if_neg (not_not_intro h1)]
      obtain ⟨hp1, hp2, hp3, hp4⟩ := and_phase_spec W D hD hcov
        (andPlainSpec g0 i j) (gapSpec g0 i j) hPwf hGwf hbne h1
      by_cases h2 : dgAny (if (gapSpec g0 i j).length ≠ 0 then
          process_gap_blocks_and D (gapSpec g0 i j)
            (process_bit_blocks_and W D (andPlainSpec g0 i j)).1
            (process_bit_blocks_and W D (andPlainSpec g0 i j)).2
        else process_bit_blocks_and W D (andPlainSpec g0 i j)).2 = true
      · rw [if_neg (not_not_intro h2)]
        obtain ⟨hc1, hc2⟩ := cas_sub_part_spec W SA D hD g1 hwf1 i j
          (if (gapSpec g0 i j).length ≠ 0 then
              process_gap_blocks_and D (gapSpec g0 i j)
                (process_bit_blocks_and W D (andPlainSpec g0 i j)).1
                (process_bit_blocks_and W D (andPlainSpec g0 i j)).2
            else process_bit_blocks_and W D (andPlainSpec g0 i j)).1
          (if (gapSpec g0 i j).length ≠ 0 then
              process_gap_blocks_and D (gapSpec g0 i j)
                (process_bit_blocks_and W D (andPlainSpec g0 i j)).1
                (process_bit_blocks_and W D (andPlainSpec g0 i j)).2
            else process_bit_blocks_and W D (andPlainSpec g0 i j)).2 hp1 hp2
        refine ⟨?_, hc2⟩
        intro q hq
        rw [hc1 q hq, h2, hp3 h2 q hq, andBitsAt_buckets W hnn q hq]
        simp
      · have h2f : dgAny (if (gapSpec g0 i j).length ≠ 0 then
            process_gap_blocks_and D (gapSpec g0 i j)
              (process_bit_blocks_and W D (andPlainSpec g0 i j)).1
              (process_bit_blocks_and W D (andPlainSpec g0 i j)).2
          else process_bit_blocks_and W D (andPlainSpec g0 i j)).2 = false := by
          cases h : dgAny (if (gapSpec g0 i j).length ≠ 0 then
              process_gap_blocks_and D (gapSpec g0 i j)
                (process_bit_blocks_and W D (andPlainSpec g0 i j)).1
                (process_bit_blocks_and W D (andPlainSpec g0 i j)).2
            else process_bit_blocks_and W D (andPlainSpec g0 i j)).2
          · rfl
          · exact absurd h h2
        rw [if_pos (by rw [h2f]; exact Bool.false_ne_true)]
        constructor
        · intro q hq
          rw [andBitsAt_buckets W hnn q hq, hp4 h2f q hq]
          have eL : dgAny ((if (gapSpec g0 i j).length ≠ 0 then
              process_gap_blocks_and D (gapSpec g0 i j)
                (process_bit_blocks_and W D (andPlainSpec g0 i j)).1
                (process_bit_blocks_and W D (andPlainSpec g0 i j)).2
            else process_bit_blocks_and W D (andPlainSpec g0 i j)).2,
            (if (gapSpec g0 i j).length ≠ 0 then
              process_gap_blocks_and D (gapSpec g0 i j)
                (process_bit_blocks_and W D (andPlainSpec g0 i j)).1
                (process_bit_blocks_and W D (andPlainSpec g0 i j)).2
            else process_bit_blocks_and W D (andPlainSpec g0 i j)).1).1 = false := h2f
          rw [eL]
          simp
        · intro h
          have hh : dgAny (if (gapSpec g0 i j).length ≠ 0 then
              process_gap_blocks_and D (gapSpec g0 i j)
                (process_bit_blocks_and W D (andPlainSpec g0 i j)).1
                (process_bit_blocks_and W D (andPlainSpec g0 i j)).2
            else process_bit_blocks_and W D (andPlainSpec g0 i j)).2 = true := h
          rw [h2f] at hh
          exact absurd hh Bool.false_ne_true
    · have h1f : dgAny (process_bit_blocks_and W D (andPlainSpec g0 i j)).2 = false := by
        cases h : dgAny (process_bit_blocks_and W D (andPlainSpec g0 i j)).2
        · rfl
        · exact absurd h h1
      rw [if_pos (by rw [h1f]; exact Bool.false_ne_true)]
      constructor
      · intro q hq
        rw [andBitsAt_buckets W hnn q hq, hb4 h1f q hq]
        have eL : dgAny ((process_bit_blocks_and W D (andPlainSpec g0 i j)).2,
            (process_bit_blocks_and W D (andPlainSpec g0 i j)).1).1 = false := h1f
        rw [eL]
        simp
      · intro h
        have hh : dgAny (process_bit_blocks_and W D (andPlainSpec g0 i j)).2 = true := h
        rw [h1f] at hh
        exact absurd hh Bool.false_ne_true

-- ---------------------------------------------------------------------
-- Claims C7 and C10: add and the capacity checks
-- ---------------------------------------------------------------------

/-- An aggregator state whose group 0 was legitimately filled to exactly
`max_aggregator_cap` vectors. -/
def fullState : AggState := ⟨List.replicate 256 ⟨[], 0⟩, []⟩

/-- C7 counterexample: with group 0 already at `MAX_CAP`, `add` of a
null vector is not silently ignored - the capacity check runs before the
null check, so the call fails with the range error. -/
theorem C7_null_add_counterexample :
    fullState.arg_bv0.length = max_aggregator_cap ∧
    add fullState none 0 = Except.error AggErr.errRange := by
  constructor
  · rfl
  · rfl

/-- C7 (amended): when the chosen group is below `MAX_CAP`, `add` with a
null vector leaves both groups unchanged and returns the current size,
and `add` with a non-null vector appends it to the chosen group; when
the group is already at `MAX_CAP` (or beyond), `add` fails with the
capacity error for every argument, null included. -/
theorem C7_add_amended (st : AggState) (bv : BVec) (grp : Nat) (hg : grp ≤ 1) :
    ((grp = 0 → st.arg_bv0.length < max_aggregator_cap →
        add st none grp = Except.ok (st, st.arg_bv0.length) ∧
        add st (some bv) grp =
          Except.ok ({ st with arg_bv0 := st.arg_bv0 ++ [bv] }, st.arg_bv0.length + 1)) ∧
     (grp = 1 → st.arg_bv1.length < max_aggregator_cap →
        add st none grp = Except.ok (st, st.arg_bv1.length) ∧
        add st (some bv) grp =
          Except.ok ({ st with arg_bv1 := st.arg_bv1 ++ [bv] }, st.arg_bv1.length + 1))) ∧
    ((grp = 0 → ¬ st.arg_bv0.length < max_aggregator_cap →
        ∀ b : Option BVec, add st b grp = Except.error AggErr.errRange) ∧
     (grp = 1 → ¬ st.arg_bv1.length < max_aggregator_cap →
        ∀ b : Option BVec, add st b grp = Except.error AggErr.errRange)) := by
  constructor
  · constructor
    · intro h0 hlt
      subst h0
      constructor
      · simp [add, hlt]
      · simp [add, hlt]
    · intro h1 hlt
      subst h1
      constructor
      · simp [add, hlt]
      · simp [add, hlt]
  · constructor
    · intro h0 hge b
      subst h0
      simp [add, hge]
    · intro h1 hge b
      subst h1
      simp [add, hge]

theorem C7_add_amended_witness :
    ((0 = 0 → (⟨[], []⟩ : AggState).arg_bv0.length < max_aggregator_cap →
        add ⟨[], []⟩ none 0 = Except.ok (⟨[], []⟩, ([] : List BVec).length) ∧
        add ⟨[], []⟩ (some ⟨[], 0⟩) 0 =
          Except.ok ({ (⟨[], []⟩ : AggState) with arg_bv0 := [] ++ [⟨[], 0⟩] },
            ([] : List BVec).length + 1)) ∧
     (0 = 1 → (⟨[], []⟩ : AggState).arg_bv1.length < max_aggregator_cap →
        add ⟨[], []⟩ none 0 = Except.ok (⟨[], []⟩, ([] : List BVec).length) ∧
        add ⟨[], []⟩ (some ⟨[], 0⟩) 0 =
          Except.ok ({ (⟨[], []⟩ : AggState) with arg_bv1 := [] ++ [⟨[], 0⟩] },
            ([] : List BVec).length + 1))) ∧
    ((0 = 0 → ¬ (⟨[], []⟩ : AggState).arg_bv0.length < max_aggregator_cap →
        ∀ b : Option BVec, add ⟨[], []⟩ b 0 = Except.error AggErr.errRange) ∧
     (0 = 1 → ¬ (⟨[], []⟩ : AggState).arg_bv1.length < max_aggregator_cap →
        ∀ b : Option BVec, add ⟨[], []⟩ b 0 = Except.error AggErr.errRange)) :=
  C7_add_amended ⟨[], []⟩ ⟨[], 0⟩ 0 (by decide)

/-- C10: `add` lets a group grow to exactly `MAX_CAP` (256) entries
without error, yet every combine operation requires the source array
length to be strictly below `MAX_CAP`, so a group legitimately filled to
256 vectors via `add` is rejected by `combine_or`, `combine_and`,
`combine_and_sub` and `find_first_and_sub`. -/
theorem C10_cap_mismatch (st : AggState) (bv : BVec)
    (h255 : st.arg_bv0.length = max_aggregator_cap - 1) :
    (∃ st2 : AggState, add st (some bv) 0 = Except.ok (st2, max_aggregator_cap) ∧
       st2.arg_bv0.length = max_aggregator_cap) ∧
    (∀ (W SA D : Nat) (t : BVec) (g0 g1 : List BVec), g0.length = max_aggregator_cap →
       combine_or W SA t g0 = Except.error AggErr.errRange ∧
       combine_and W SA D t g0 = Except.error AggErr.errRange ∧
       (∀ anyF : Bool, combine_and_sub W SA D t g0 g1 anyF = Except.error AggErr.errRange) ∧
       find_first_and_sub W SA D g0 g1 = Except.error AggErr.errRange) := by
  constructor
  · refine ⟨{ st with arg_bv0 := st.arg_bv0 ++ [bv] }, ?_, ?_⟩
    · have hlt : st.arg_bv0.length < max_aggregator_cap := by
        rw [h255]; decide
      simp only [add]
      rw [if_neg (by omega), if_neg (by omega), if_neg (by omega)]
      simp [h255, max_aggregator_cap]
    · simp [h255, max_aggregator_cap]
  · intro W SA D t g0 g1 h256
    have hnl : ¬ (g0.length < max_aggregator_cap) := by rw [h256]; omega
    refine ⟨?_, ?_, ?_, ?_⟩
    · simp [combine_or, hnl]
    · simp [combine_and, hnl]
    · intro anyF; simp [combine_and_sub, hnl]
    · simp [find_first_and_sub, hnl]

-- ---------------------------------------------------------------------
-- Claim C9: return value of shift_right_and
-- ---------------------------------------------------------------------

/-- Failing input for C9, target: block (0, 0) holds only the top bit,
block (0, 1) is uniform all-ones (width 4 bits, 2 sub-blocks). -/
def sraT9 : BVec := ⟨[some [Slot.plain [false, false, false, true], Slot.full]], 16⟩

/-- Failing input for C9, mask: block (0, 0) absent, block (0, 1)
uniform all-ones. -/
def sraM9 : BVec := ⟨[some [Slot.null, Slot.full]], 16⟩

/-- C9 (code bug): `shift_right_and` can return false although the
target holds set bits after the call.  On this input the carry from
block (0, 0) enters the full target block (0, 1) whose mask block is
also full; the code takes the "result is all-ones, nothing to do" early
exit without recording anything in `any`, leaves the full block in the
target, and returns false - contradicting the function's own
documentation ("return any true when result found (false if target gets
empty)"). -/
theorem C9_shift_right_and_return_bug :
    (shift_right_and 4 2 sraT9 sraM9).2 = false ∧
    bvAny (shift_right_and 4 2 sraT9 sraM9).1 = true := by
  constructor
  · rfl
  · rfl

-- ---------------------------------------------------------------------
-- Claim C8: effective sub-block size (counterexample part)
-- ---------------------------------------------------------------------

/-- C8 counterexample input: a single source whose row 0 holds one block
at column 0 only (SA = 2). -/
def c8bv : BVec := ⟨[some [Slot.plain [true], Slot.null]], 2⟩

/-- C8 counterexample: all source blocks at columns ≥ 1 of row 0 are
null, and no smaller bound works - so the smallest valid `j_max` is 1 -
yet `find_effective_sub_block_size` returns 2 (it never returns anything
below 2). -/
theorem C8_not_smallest_counterexample :
    nullFromCol 2 [c8bv] 0 1 = true ∧
    (∀ m : Nat, m < 1 → nullFromCol 2 [c8bv] 0 m = false) ∧
    find_effective_sub_block_size 2 [c8bv] 0 = 2 := by
  refine ⟨by decide, ?_, by decide⟩
  intro m hm
  have hm0 : m = 0 := by omega
  subst hm0
  decide

-- ---------------------------------------------------------------------
-- Claim C4: reductions with an empty positive group
-- ---------------------------------------------------------------------

theorem bvBit_clearBV (W SA : Nat) (t : BVec) (n : Nat) :
    bvBit W SA (clearBV t) n = false := by
  unfold bvBit get_block_ptr clearBV
  rw [getD_map_const_none]
  rfl

/-- C4: every reduction invoked with an empty positive source group
clears the target, and the boolean-returning variants return false. -/
theorem C4_empty_group_clears (W SA D : Nat) (t : BVec) (g1 : List BVec) (anyF : Bool)
    (h1 : g1.length < max_aggregator_cap) :
    combine_or W SA t [] = Except.ok (clearBV t) ∧
    combine_and W SA D t [] = Except.ok (clearBV t) ∧
    combine_and_sub W SA D t [] g1 anyF = Except.ok (clearBV t, false) ∧
    combine_shift_right_and W SA t [] anyF = Except.ok (clearBV t, false) ∧
    (∀ n : Nat, bvBit W SA (clearBV t) n = false) := by
  refine ⟨?_, ?_, ?_, ?_, fun n => bvBit_clearBV W SA t n⟩
  · simp [combine_or, max_aggregator_cap]
  · simp [combine_and, max_aggregator_cap]
  · have h1' : g1.length < 256 := h1
    simp [combine_and_sub, max_aggregator_cap, h1']
  · simp [combine_shift_right_and, max_aggregator_cap]

theorem C4_empty_group_clears_witness :
    combine_or 4 2 ⟨[some [Slot.full]], 4⟩ [] = Except.ok (clearBV ⟨[some [Slot.full]], 4⟩) ∧
    combine_and 4 2 1 ⟨[some [Slot.full]], 4⟩ [] = Except.ok (clearBV ⟨[some [Slot.full]], 4⟩) ∧
    combine_and_sub 4 2 1 ⟨[some [Slot.full]], 4⟩ [] [] false =
      Except.ok (clearBV ⟨[some [Slot.full]], 4⟩, false) ∧
    combine_shift_right_and 4 2 ⟨[some [Slot.full]], 4⟩ [] false =
      Except.ok (clearBV ⟨[some [Slot.full]], 4⟩, false) ∧
    (∀ n : Nat, bvBit 4 2 (clearBV ⟨[some [Slot.full]], 4⟩) n = false) :=
  C4_empty_group_clears 4 2 1 ⟨[some [Slot.full]], 4⟩ [] false (by decide)

theorem C10_cap_mismatch_witness :
    (∃ st2 : AggState, add ⟨List.replicate 255 ⟨[], 0⟩, []⟩ (some ⟨[], 0⟩) 0 =
        Except.ok (st2, max_aggregator_cap) ∧
       st2.arg_bv0.length = max_aggregator_cap) ∧
    (∀ (W SA D : Nat) (t : BVec) (g0 g1 : List BVec), g0.length = max_aggregator_cap →
       combine_or W SA t g0 = Except.error AggErr.errRange ∧
       combine_and W SA D t g0 = Except.error AggErr.errRange ∧
       (∀ anyF : Bool, combine_and_sub W SA D t g0 g1 anyF = Except.error AggErr.errRange) ∧
       find_first_and_sub W SA D g0 g1 = Except.error AggErr.errRange) :=
  C10_cap_mismatch ⟨List.replicate 255 ⟨[], 0⟩, []⟩ ⟨[], 0⟩ (by decide)

-- ---------------------------------------------------------------------
-- ---------------------------------------------------------------------
-- Target plumbing lemmas: setSlot / writeSlot / gridFold / resize_target
-- ---------------------------------------------------------------------

theorem getD_append {α : Type} (l l' : List α) (i : Nat) (d : α) :
    (l ++ l').getD i d =
      if i < l.length then l.getD i d else l'.getD (i - l.length) d := by
  induction l generalizing i with
  | nil => simp
  | cons a tl ih =>
    cases i with
    | zero => simp
    | succ k =>
      simp only [List.cons_append, List.getD_cons_succ, ih, List.length_cons]
      by_cases h : k < tl.length
      · rw [if_pos h, if_pos (by omega)]
      · rw [if_neg h, if_neg (by omega)]
        congr 1
        omega

/-- Every materialized sub-directory row of the target has exactly `SA`
slots. -/
def rowsSA (SA : Nat) (t : BVec) : Prop :=
  ∀ i r, t.top.getD i none = some r → r.length = SA

/-- The directory holds no sub-directories at all. -/
def allNone (t : BVec) : Prop := ∀ r ∈ t.top, r = none

theorem allNone_rowsSA {SA : Nat} {t : BVec} (h : allNone t) : rowsSA SA t := by
  intro i r hr
  have hm := getD_mem_of_ne t.top i none (some r) hr (by simp)
  exact absurd (h _ hm) (by simp)

theorem get_allNone {t : BVec} (h : allNone t) (i j : Nat) :
    get_block_ptr t i j = Slot.null := by
  unfold get_block_ptr
  cases hx : t.top.getD i none with
  | none => rfl
  | some r =>
    have hm := getD_mem_of_ne t.top i none (some r) hx (by simp)
    exact absurd (h _ hm) (by simp)

theorem get_via_top (t : BVec) (i j : Nat) :
    get_block_ptr t i j = (match t.top.getD i none with
      | none => Slot.null
      | some row => row.getD j Slot.null) := rfl

theorem ensureTop_getD (t : BVec) (i0 i : Nat) :
    (ensureTop t i0).top.getD i none = t.top.getD i none := by
  unfold ensureTop
  by_cases h : i0 < t.top.length
  · rw [if_pos h]
  · rw [if_neg h]
    show (t.top ++ List.replicate (i0 + 1 - t.top.length) none).getD i none =
      t.top.getD i none
    rw [getD_append]
    by_cases h2 : i < t.top.length
    · rw [if_pos h2]
    · rw [if_neg h2, getD_replicate, getD_of_le t.top i none (by omega)]
      split <;> rfl

theorem ensureTop_len (t : BVec) (i : Nat) : i < (ensureTop t i).top.length := by
  unfold ensureTop
  by_cases h : i < t.top.length
  · rw [if_pos h]
    exact h
  · rw [if_neg h]
    show i < (t.top ++ List.replicate (i + 1 - t.top.length) none).length
    rw [List.length_append, List.length_replicate]
    omega

/-- The sub-directory row the write path operates on: the existing row,
or a fresh all-null row of `SA` slots. -/
def rowAt (SA : Nat) (t : BVec) (i : Nat) : List Slot :=
  match t.top.getD i none with
  | none => List.replicate SA Slot.null
  | some r => r

theorem rowAt_ensureTop (SA : Nat) (t : BVec) (i0 i : Nat) :
    rowAt SA (ensureTop t i0) i = rowAt SA t i := by
  unfold rowAt
  rw [ensureTop_getD]

theorem rowAt_len {SA : Nat} {t : BVec} (hrows : rowsSA SA t) (i : Nat) :
    (rowAt SA t i).length = SA := by
  unfold rowAt
  cases hx : t.top.getD i none with
  | none => exact List.length_replicate _ _
  | some r => exact hrows i r hx

theorem rowAt_getD {SA : Nat} (t : BVec) (i j : Nat) :
    (rowAt SA t i).getD j Slot.null = get_block_ptr t i j := by
  unfold rowAt get_block_ptr
  cases hx : t.top.getD i none with
  | none =>
    rw [getD_replicate]
    split <;> rfl
  | some r => rfl

theorem setSlot_top_getD (SA : Nat) (t : BVec) (i j : Nat) (s : Slot) (i' : Nat) :
    (setSlot SA t i j s).top.getD i' none =
      if i = i' then some ((rowAt SA t i).set j s)
      else t.top.getD i' none := by
  have e : (setSlot SA t i j s).top =
      (ensureTop t i).top.set i (some ((rowAt SA (ensureTop t i) i).set j s)) := rfl
  rw [e, rowAt_ensureTop, getD_set]
  by_cases hii : i = i'
  · rw [if_pos ⟨hii, ensureTop_len t i⟩, if_pos hii]
  · rw [if_neg (by intro hc; exact hii hc.1), if_neg hii, ensureTop_getD]

theorem setSlot_get_other (SA : Nat) (t : BVec) (i j : Nat) (s : Slot)
    (i' j' : Nat) (hne : i' ≠ i ∨ j' ≠ j) :
    get_block_ptr (setSlot SA t i j s) i' j' = get_block_ptr t i' j' := by
  rw [get_via_top, setSlot_top_getD]
  by_cases hii : i = i'
  · rw [if_pos hii, ← hii]
    have hjj : j' ≠ j := by
      rcases hne with h | h
      · exact absurd hii.symm h
      · exact h
    show ((rowAt SA t i).set j s).getD j' Slot.null = get_block_ptr t i j'
    rw [getD_set, if_neg (by intro hc; exact hjj hc.1.symm), rowAt_getD]
  · rw [if_neg hii, get_via_top]

theorem setSlot_get_same (SA : Nat) (t : BVec) (i j : Nat) (s : Slot)
    (hj : j < SA) (hrows : rowsSA SA t) :
    get_block_ptr (setSlot SA t i j s) i j = s := by
  rw [get_via_top, setSlot_top_getD, if_pos rfl]
  show ((rowAt SA t i).set j s).getD j Slot.null = s
  rw [getD_set, if_pos ⟨rfl, by rw [rowAt_len hrows]; exact hj⟩]

theorem setSlot_rowsSA (SA : Nat) (t : BVec) (i j : Nat) (s : Slot)
    (hrows : rowsSA SA t) : rowsSA SA (setSlot SA t i j s) := by
  intro i' r hr
  rw [setSlot_top_getD] at hr
  by_cases hii : i = i'
  · rw [if_pos hii] at hr
    have hr2 := Option.some.inj hr
    rw [← hr2, List.length_set]
    exact rowAt_len hrows i
  · rw [if_neg hii] at hr
    exact hrows i' r hr

theorem writeSlot_get_other (SA : Nat) (t : BVec) (i j : Nat) (s : Slot)
    (i' j' : Nat) (hne : i' ≠ i ∨ j' ≠ j) :
    get_block_ptr (writeSlot SA t i j s) i' j' = get_block_ptr t i' j' := by
  unfold writeSlot
  by_cases hs : s = Slot.null
  · rw [if_pos hs]
  · rw [if_neg hs]
    exact setSlot_get_other SA t i j s i' j' hne

theorem writeSlot_get_same (SA : Nat) (t : BVec) (i j : Nat) (s : Slot)
    (hj : j < SA) (hrows : rowsSA SA t)
    (hold : get_block_ptr t i j = Slot.null) :
    get_block_ptr (writeSlot SA t i j s) i j = s := by
  unfold writeSlot
  by_cases hs : s = Slot.null
  · rw [if_pos hs, hold, hs]
  · rw [if_neg hs]
    exact setSlot_get_same SA t i j s hj hrows

theorem writeSlot_rowsSA (SA : Nat) (t : BVec) (i j : Nat) (s : Slot)
    (hrows : rowsSA SA t) : rowsSA SA (writeSlot SA t i j s) := by
  unfold writeSlot
  by_cases hs : s = Slot.null
  · rw [if_pos hs]
    exact hrows
  · rw [if_neg hs]
    exact setSlot_rowsSA SA t i j s hrows

theorem colFold_spec (SA : Nat) (f : Nat → Nat → Slot) (i : Nat) (m : Nat)
    (hm : m ≤ SA) (t : BVec) (hrows : rowsSA SA t) :
    rowsSA SA ((List.range m).foldl
      (fun tt2 j => writeSlot SA tt2 i j (f i j)) t) ∧
    (∀ i' j', i' ≠ i →
      get_block_ptr ((List.range m).foldl
        (fun tt2 j => writeSlot SA tt2 i j (f i j)) t) i' j' =
      get_block_ptr t i' j') ∧
    (∀ j', get_block_ptr t i j' = Slot.null →
      get_block_ptr ((List.range m).foldl
        (fun tt2 j => writeSlot SA tt2 i j (f i j)) t) i j' =
      if j' < m then f i j' else Slot.null) := by
  induction m with
  | zero =>
    refine ⟨hrows, fun i' j' _ => rfl, fun j' h0 => ?_⟩
    rw [if_neg (by omega)]
    exact h0
  | succ k ih =>
    have ihk := ih (by omega)
    have estep : (List.range (k + 1)).foldl
        (fun tt2 j => writeSlot SA tt2 i j (f i j)) t =
        writeSlot SA ((List.range k).foldl
          (fun tt2 j => writeSlot SA tt2 i j (f i j)) t) i k (f i k) := by
      rw [List.range_succ, List.foldl_append]
      rfl
    rw [estep]
    refine ⟨writeSlot_rowsSA SA _ i k (f i k) ihk.1, ?_, ?_⟩
    · intro i' j' hne
      rw [writeSlot_get_other SA _ i k (f i k) i' j' (Or.inl hne)]
      exact ihk.2.1 i' j' hne
    · intro j' h0
      by_cases hjk : j' = k
      · subst hjk
        rw [writeSlot_get_same SA _ i j' (f i j') (by omega) ihk.1
            (by rw [ihk.2.2 j' h0]; rw [if_neg (by omega)])]
        rw [if_pos (by omega)]
      · rw [writeSlot_get_other SA _ i k (f i k) i j' (Or.inr hjk)]
        rw [ihk.2.2 j' h0]
        by_cases h2 : j' < k
        · rw [if_pos h2, if_pos (by omega)]
        · rw [if_neg h2, if_neg (by omega)]

theorem gridFold_spec (SA : Nat) (jmax : Nat → Nat) (f : Nat → Nat → Slot)
    (hjm : ∀ i, max (jmax i) 1 ≤ SA) (top : Nat) (t : BVec) (hAll : allNone t) :
    rowsSA SA (gridFold SA top jmax f t) ∧
    (∀ i j, get_block_ptr (gridFold SA top jmax f t) i j =
      if i < top ∧ j < max (jmax i) 1 then f i j else Slot.null) := by
  induction top with
  | zero =>
    refine ⟨allNone_rowsSA hAll, fun i j => ?_⟩
    rw [if_neg (by omega)]
    exact get_allNone hAll i j
  | succ k ih =>
    have estep : gridFold SA (k + 1) jmax f t =
        (List.range (max (jmax k) 1)).foldl
          (fun tt2 j => writeSlot SA tt2 k j (f k j)) (gridFold SA k jmax f t) := by
      unfold gridFold
      rw [List.range_succ, List.foldl_append]
      rfl
    rw [estep]
    obtain ⟨hcf1, hcf2, hcf3⟩ := colFold_spec SA f k (max (jmax k) 1) (hjm k)
      (gridFold SA k jmax f t) ih.1
    refine ⟨hcf1, fun i j => ?_⟩
    by_cases hik : i = k
    · subst hik
      rw [hcf3 j (by rw [ih.2 i j]; rw [if_neg (by omega)])]
      by_cases hj : j < max (jmax i) 1
      · rw [if_pos hj, if_pos ⟨by omega, hj⟩]
      · rw [if_neg hj, if_neg (by intro hc; exact hj hc.2)]
    · rw [hcf2 i j hik, ih.2 i j]
      by_cases hi : i < k ∧ j < max (jmax i) 1
      · rw [if_pos hi, if_pos ⟨by omega, hi.2⟩]
      · rw [if_neg hi, if_neg (by intro hc; exact hi ⟨by omega, hc.2⟩)]

theorem reserveStep_top (t bv : BVec) :
    (reserveStep t bv).top =
      if bv.top.length > t.top.length then
        t.top ++ List.replicate (bv.top.length - t.top.length) none
      else t.top := by
  simp only [reserveStep]
  by_cases h1 : bv.top.length > t.top.length
  · rw [if_pos h1, if_pos h1]
    split <;> rfl
  · rw [if_neg h1, if_neg h1]
    split <;> rfl

theorem reserveStep_allNone {t : BVec} (h : allNone t) (bv : BVec) :
    allNone (reserveStep t bv) := by
  intro r hr
  rw [reserveStep_top] at hr
  by_cases h1 : bv.top.length > t.top.length
  · rw [if_pos h1] at hr
    rcases List.mem_append.mp hr with hm | hm
    · exact h r hm
    · exact List.eq_of_mem_replicate hm
  · rw [if_neg h1] at hr
    exact h r hr

theorem foldl_reserveStep_allNone {t : BVec} (h : allNone t) (srcs : List BVec) :
    allNone (srcs.foldl reserveStep t) := by
  induction srcs generalizing t with
  | nil => exact h
  | cons bv rest ih => exact ih (reserveStep_allNone h bv)

theorem reserveStep_len (t : BVec) (bv : BVec) :
    t.top.length ≤ (reserveStep t bv).top.length ∧
    bv.top.length ≤ (reserveStep t bv).top.length := by
  rw [reserveStep_top]
  by_cases h1 : bv.top.length > t.top.length
  · rw [if_pos h1, List.length_append, List.length_replicate]
    omega
  · rw [if_neg h1]
    omega

theorem foldl_reserveStep_len (srcs : List BVec) (t : BVec) :
    t.top.length ≤ (srcs.foldl reserveStep t).top.length ∧
    ∀ bv ∈ srcs, bv.top.length ≤ (srcs.foldl reserveStep t).top.length := by
  induction srcs generalizing t with
  | nil => exact ⟨Nat.le_refl _, by simp⟩
  | cons bv rest ih =>
    obtain ⟨ih1, ih2⟩ := ih (reserveStep t bv)
    refine ⟨Nat.le_trans (reserveStep_len t bv).1 ih1, ?_⟩
    intro v hv
    rcases List.mem_cons.mp hv with hv | hv
    · subst hv
      exact Nat.le_trans (reserveStep_len t v).2 ih1
    · exact ih2 v hv

theorem resize_target_allNone (SA : Nat) (t : BVec) (srcs : List BVec) :
    allNone (resize_target SA t srcs true).1 := by
  have h0 : allNone (if ¬ is_init t = true then init_tree SA t else clearBV t) := by
    split
    · intro r hr
      exact List.eq_of_mem_replicate hr
    · intro r hr
      obtain ⟨x, _, hx⟩ := List.mem_map.mp hr
      exact hx.symm
  show allNone (srcs.foldl reserveStep
    (if ¬ is_init t = true then init_tree SA t else clearBV t))
  exact foldl_reserveStep_allNone h0 srcs

theorem resize_target_allNone_keep (SA : Nat) {t : BVec} (h : allNone t)
    (srcs : List BVec) : allNone (resize_target SA t srcs false).1 := by
  show allNone (srcs.foldl reserveStep t)
  exact foldl_reserveStep_allNone h srcs

theorem resize_target_count (SA : Nat) (t : BVec) (srcs : List BVec) (ic : Bool) :
    (resize_target SA t srcs ic).2 = (resize_target SA t srcs ic).1.top.length := rfl

theorem resize_target_covers (SA : Nat) (t : BVec) (srcs : List BVec) (ic : Bool) :
    ∀ bv ∈ srcs, bv.top.length ≤ (resize_target SA t srcs ic).2 := by
  intro bv hbv
  show bv.top.length ≤ (srcs.foldl reserveStep
    (if ic = true then (if ¬ is_init t = true then init_tree SA t else clearBV t)
     else t)).top.length
  exact (foldl_reserveStep_len srcs _).2 bv hbv

theorem resize_target_keeps (SA : Nat) (t : BVec) (srcs : List BVec) :
    t.top.length ≤ (resize_target SA t srcs false).2 := by
  show t.top.length ≤ (srcs.foldl reserveStep t).top.length
  exact (foldl_reserveStep_len srcs t).1

theorem get_top_le {bv : BVec} {i : Nat} (h : bv.top.length ≤ i) (j : Nat) :
    get_block_ptr bv i j = Slot.null := by
  unfold get_block_ptr
  rw [getD_of_le bv.top i none h]

theorem orBitsAt_null_row {srcs : List BVec} {i j : Nat}
    (h : ∀ bv ∈ srcs, get_block_ptr bv i j = Slot.null) (b : Nat) :
    orBitsAt srcs i j b = false := by
  unfold orBitsAt
  rw [List.any_eq_false]
  intro bv hbv
  rw [h bv hbv]
  simp [slotBit]

theorem andBitsAt_null_row {srcs : List BVec} (hne : srcs ≠ []) {i j : Nat}
    (h : ∀ bv ∈ srcs, get_block_ptr bv i j = Slot.null) (b : Nat) :
    andBitsAt srcs i j b = false := by
  match srcs, hne with
  | bv :: rest, _ =>
    unfold andBitsAt
    rw [List.all_cons, h bv (List.mem_cons_self bv rest)]
    rfl

-- ---------------------------------------------------------------------
-- find_effective_sub_block_size lemmas
-- ---------------------------------------------------------------------

theorem scanDown_ge (r : List Slot) (m : Nat) : ∀ j, m ≤ scanDown r m j := by
  intro j
  induction j with
  | zero => exact Nat.le_refl m
  | succ k ih =>
    unfold scanDown
    by_cases h1 : k + 1 ≤ m
    · rw [if_pos h1]
    · rw [if_neg h1]
      by_cases h2 : r.getD (k + 1) Slot.null ≠ Slot.null
      · rw [if_pos h2]
        omega
      · rw [if_neg h2]
        exact ih

theorem scanDown_le (r : List Slot) (m : Nat) : ∀ j, scanDown r m j ≤ max m j := by
  intro j
  induction j with
  | zero =>
    show m ≤ max m 0
    omega
  | succ k ih =>
    unfold scanDown
    by_cases h1 : k + 1 ≤ m
    · rw [if_pos h1]
      omega
    · rw [if_neg h1]
      by_cases h2 : r.getD (k + 1) Slot.null ≠ Slot.null
      · rw [if_pos h2]
        omega
      · rw [if_neg h2]
        omega

theorem scanDown_null_above (r : List Slot) (m : Nat) :
    ∀ j k, scanDown r m j < k → k ≤ j → r.getD k Slot.null = Slot.null := by
  intro j
  induction j with
  | zero =>
    intro k h1 h2
    have h1' : m < k := h1
    exact absurd h1' (by omega)
  | succ jj ih =>
    intro k h1 h2
    by_cases hc1 : jj + 1 ≤ m
    · have e : scanDown r m (jj + 1) = m := by
        show (if jj + 1 ≤ m then m
          else if r.getD (jj + 1) Slot.null ≠ Slot.null then jj + 1
          else scanDown r m jj) = m
        rw [if_pos hc1]
      rw [e] at h1
      exact absurd h1 (by omega)
    · by_cases hc2 : r.getD (jj + 1) Slot.null ≠ Slot.null
      · have e : scanDown r m (jj + 1) = jj + 1 := by
          show (if jj + 1 ≤ m then m
            else if r.getD (jj + 1) Slot.null ≠ Slot.null then jj + 1
            else scanDown r m jj) = jj + 1
          rw [if_neg hc1, if_pos hc2]
        rw [e] at h1
        exact absurd h1 (by omega)
      · have e : scanDown r m (jj + 1) = scanDown r m jj := by
          show (if jj + 1 ≤ m then m
            else if r.getD (jj + 1) Slot.null ≠ Slot.null then jj + 1
            else scanDown r m jj) = scanDown r m jj
          rw [if_neg hc1, if_neg hc2]
        rw [e] at h1
        by_cases hk : k = jj + 1
        · rw [hk]
          rw [not_not] at hc2
          exact hc2
        · exact ih k h1 (by omega)

theorem scanDown_cases (r : List Slot) (m : Nat) : ∀ j, scanDown r m j = m ∨
    (r.getD (scanDown r m j) Slot.null ≠ Slot.null ∧ scanDown r m j ≤ j ∧
      m < scanDown r m j) := by
  intro j
  induction j with
  | zero => exact Or.inl rfl
  | succ jj ih =>
    by_cases hc1 : jj + 1 ≤ m
    · have e : scanDown r m (jj + 1) = m := by
        show (if jj + 1 ≤ m then m
          else if r.getD (jj + 1) Slot.null ≠ Slot.null then jj + 1
          else scanDown r m jj) = m
        rw [if_pos hc1]
      exact Or.inl e
    · by_cases hc2 : r.getD (jj + 1) Slot.null ≠ Slot.null
      · have e : scanDown r m (jj + 1) = jj + 1 := by
          show (if jj + 1 ≤ m then m
            else if r.getD (jj + 1) Slot.null ≠ Slot.null then jj + 1
            else scanDown r m jj) = jj + 1
          rw [if_neg hc1, if_pos hc2]
        refine Or.inr ⟨?_, ?_, ?_⟩
        · rw [e]
          exact hc2
        · rw [e]
        · rw [e]
          omega
      · have e : scanDown r m (jj + 1) = scanDown r m jj := by
          show (if jj + 1 ≤ m then m
            else if r.getD (jj + 1) Slot.null ≠ Slot.null then jj + 1
            else scanDown r m jj) = scanDown r m jj
          rw [if_neg hc1, if_neg hc2]
        rcases ih with h | h
        · rw [e]
          exact Or.inl h
        · refine Or.inr ⟨?_, ?_, ?_⟩
          · rw [e]
            exact h.1
          · rw [e]
            omega
          · rw [e]
            exact h.2.2

/-- One source's step of the `find_effective_sub_block_size` fold. -/
def effStep (SA i : Nat) (m : Nat) (bv : BVec) : Nat :=
  match bv.top.getD i none with
  | none => m
  | some row => scanDown row m (SA - 1)

theorem find_eff_eq (SA : Nat) (srcs : List BVec) (i : Nat) :
    find_effective_sub_block_size SA srcs i =
      (srcs.foldl (effStep SA i) 1) + 1 := rfl

theorem effStep_ge (SA i m : Nat) (bv : BVec) : m ≤ effStep SA i m bv := by
  unfold effStep
  cases hx : bv.top.getD i none with
  | none => exact Nat.le_refl m
  | some row => exact scanDown_ge row m (SA - 1)

theorem effStep_le (SA i m : Nat) (bv : BVec) :
    effStep SA i m bv ≤ max m (SA - 1) := by
  unfold effStep
  cases hx : bv.top.getD i none with
  | none =>
    show m ≤ max m (SA - 1)
    omega
  | some row => exact scanDown_le row m (SA - 1)

theorem effStep_null_above (SA i m : Nat) (bv : BVec) :
    ∀ k, effStep SA i m bv < k → k ≤ SA - 1 →
      get_block_ptr bv i k = Slot.null := by
  intro k h1 h2
  rw [get_via_top]
  unfold effStep at h1
  cases hx : bv.top.getD i none with
  | none => rfl
  | some row =>
    rw [hx] at h1
    exact scanDown_null_above row m (SA - 1) k h1 h2

theorem effStep_cases (SA i m : Nat) (bv : BVec) : effStep SA i m bv = m ∨
    (get_block_ptr bv i (effStep SA i m bv) ≠ Slot.null ∧
      effStep SA i m bv ≤ SA - 1 ∧ m < effStep SA i m bv) := by
  unfold effStep
  rw [get_via_top]
  cases hx : bv.top.getD i none with
  | none => exact Or.inl rfl
  | some row =>
    rcases scanDown_cases row m (SA - 1) with h | h
    · exact Or.inl h
    · exact Or.inr ⟨h.1, h.2.1, h.2.2⟩

theorem foldl_effStep_ge (SA i : Nat) (srcs : List BVec) :
    ∀ a, a ≤ srcs.foldl (effStep SA i) a := by
  induction srcs with
  | nil => intro a; exact Nat.le_refl a
  | cons v rest ih =>
    intro a
    exact Nat.le_trans (effStep_ge SA i a v) (ih (effStep SA i a v))

theorem foldl_effStep_le (SA i : Nat) (srcs : List BVec) :
    ∀ a, srcs.foldl (effStep SA i) a ≤ max a (SA - 1) := by
  induction srcs with
  | nil =>
    intro a
    show a ≤ max a (SA - 1)
    omega
  | cons v rest ih =>
    intro a
    have h1 := ih (effStep SA i a v)
    have h2 := effStep_le SA i a v
    show rest.foldl (effStep SA i) (effStep SA i a v) ≤ max a (SA - 1)
    omega

theorem foldl_effStep_null_above (SA i : Nat) (srcs : List BVec) :
    ∀ a, ∀ bv ∈ srcs, ∀ k, srcs.foldl (effStep SA i) a < k → k ≤ SA - 1 →
      get_block_ptr bv i k = Slot.null := by
  induction srcs with
  | nil =>
    intro a bv hbv
    simp at hbv
  | cons v rest ih =>
    intro a bv hbv k h1 h2
    have h1' : rest.foldl (effStep SA i) (effStep SA i a v) < k := h1
    rcases List.mem_cons.mp hbv with hv | hv
    · subst hv
      have hge := foldl_effStep_ge SA i rest (effStep SA i a bv)
      exact effStep_null_above SA i a bv k (by omega) h2
    · exact ih (effStep SA i a v) bv hv k h1' h2

theorem foldl_effStep_cases (SA i : Nat) (srcs : List BVec) :
    ∀ a, srcs.foldl (effStep SA i) a = a ∨
      (∃ bv ∈ srcs, get_block_ptr bv i (srcs.foldl (effStep SA i) a) ≠ Slot.null ∧
        srcs.foldl (effStep SA i) a ≤ SA - 1) := by
  induction srcs with
  | nil => intro a; exact Or.inl rfl
  | cons v rest ih =>
    intro a
    have hstep : (v :: rest).foldl (effStep SA i) a =
        rest.foldl (effStep SA i) (effStep SA i a v) := rfl
    rcases ih (effStep SA i a v) with h | h
    · rcases effStep_cases SA i a v with h2 | h2
      · exact Or.inl (by rw [hstep, h, h2])
      · refine Or.inr ⟨v, List.mem_cons_self v rest, ?_, ?_⟩
        · rw [hstep, h]
          exact h2.1
        · rw [hstep, h]
          exact h2.2.1
    · obtain ⟨bv, hbv, hx1, hx2⟩ := h
      refine Or.inr ⟨bv, List.mem_cons_of_mem v hbv, ?_, ?_⟩
      · rw [hstep]
        exact hx1
      · rw [hstep]
        exact hx2

theorem find_eff_ge_two (SA : Nat) (srcs : List BVec) (i : Nat) :
    2 ≤ find_effective_sub_block_size SA srcs i := by
  rw [find_eff_eq]
  have := foldl_effStep_ge SA i srcs 1
  omega

theorem find_eff_le (SA : Nat) (hSA : 2 ≤ SA) (srcs : List BVec) (i : Nat) :
    find_effective_sub_block_size SA srcs i ≤ SA := by
  rw [find_eff_eq]
  have := foldl_effStep_le SA i srcs 1
  omega

theorem find_eff_null_ge (SA : Nat) (srcs : List BVec) (i : Nat) :
    ∀ bv ∈ srcs, ∀ j, find_effective_sub_block_size SA srcs i ≤ j → j < SA →
      get_block_ptr bv i j = Slot.null := by
  intro bv hbv j hj hjSA
  rw [find_eff_eq] at hj
  exact foldl_effStep_null_above SA i srcs 1 bv hbv j (by omega) (by omega)

theorem find_eff_nullFromCol (SA : Nat) (srcs : List BVec) (i : Nat) :
    nullFromCol SA srcs i (find_effective_sub_block_size SA srcs i) = true := by
  unfold nullFromCol
  rw [List.all_eq_true]
  intro bv hbv
  rw [List.all_eq_true]
  intro j hj
  have hj' : j < SA := List.mem_range.mp hj
  by_cases hlt : j < find_effective_sub_block_size SA srcs i
  · simp [hlt]
  · have hnull := find_eff_null_ge SA srcs i bv hbv j (by omega) hj'
    simp [hnull]

theorem find_eff_min (SA : Nat) (srcs : List BVec) (i : Nat) (m : Nat)
    (hm : 2 ≤ m) (hnull : nullFromCol SA srcs i m = true) :
    find_effective_sub_block_size SA srcs i ≤ m := by
  by_contra hc
  rw [find_eff_eq] at hc
  have hmF : m ≤ srcs.foldl (effStep SA i) 1 := by omega
  rcases foldl_effStep_cases SA i srcs 1 with h | h
  · rw [h] at hmF
    omega
  · obtain ⟨bv, hbv, hne, hle⟩ := h
    have hFSA : srcs.foldl (effStep SA i) 1 < SA := by omega
    unfold nullFromCol at hnull
    rw [List.all_eq_true] at hnull
    have h2 := hnull bv hbv
    rw [List.all_eq_true] at h2
    have h3 := h2 (srcs.foldl (effStep SA i) 1) (List.mem_range.mpr hFSA)
    rw [Bool.or_eq_true] at h3
    rcases h3 with h3 | h3
    · have := of_decide_eq_true h3
      omega
    · exact hne (of_decide_eq_true h3)

/-- C8 (amended): for `2 ≤ SA`, `find_effective_sub_block_size` returns a
`j_max` with `2 ≤ j_max ≤ SA` such that all source blocks at columns
`≥ j_max` of row `i` are null, and it is the smallest such bound among
`m ≥ 2` (never among all `m`: columns 0 and 1 are not examined); the OR
driver then leaves every slot at columns `≥ j_max` of row `i` null. -/
theorem C8_eff_sub_block_amended (SA : Nat) (hSA : 2 ≤ SA) (srcs : List BVec)
    (i : Nat) :
    2 ≤ find_effective_sub_block_size SA srcs i ∧
    find_effective_sub_block_size SA srcs i ≤ SA ∧
    nullFromCol SA srcs i (find_effective_sub_block_size SA srcs i) = true ∧
    (∀ m, 2 ≤ m → nullFromCol SA srcs i m = true →
      find_effective_sub_block_size SA srcs i ≤ m) ∧
    (∀ (W : Nat) (t u : BVec), combine_or W SA t srcs = Except.ok u →
      ∀ j, find_effective_sub_block_size SA srcs i ≤ j →
        get_block_ptr u i j = Slot.null) := by
  refine ⟨find_eff_ge_two SA srcs i, find_eff_le SA hSA srcs i,
    find_eff_nullFromCol SA srcs i, find_eff_min SA srcs i, ?_⟩
  intro W t u hok j hj
  unfold combine_or at hok
  by_cases hcap : ¬ (srcs.length < max_aggregator_cap)
  · rw [if_pos hcap] at hok
    exact absurd hok (by simp)
  · rw [if_neg hcap] at hok
    by_cases hz : srcs.length = 0
    · rw [if_pos hz] at hok
      have hu := Except.ok.inj hok
      rw [← hu]
      apply get_allNone
      intro r hr
      obtain ⟨x, _, hx⟩ := List.mem_map.mp hr
      exact hx.symm
    · rw [if_neg hz] at hok
      have hok2 : Except.ok (gridFold SA (resize_target SA t srcs true).2
          (fun i2 => find_effective_sub_block_size SA srcs i2)
          (fun i2 j2 => combine_or_block W srcs i2 j2)
          (resize_target SA t srcs true).1) = Except.ok u := hok
      have hu := Except.ok.inj hok2
      rw [← hu]
      have hjm : ∀ i2, max ((fun i3 =>
          find_effective_sub_block_size SA srcs i3) i2) 1 ≤ SA := by
        intro i2
        have h1 := find_eff_le SA hSA srcs i2
        have h2 := find_eff_ge_two SA srcs i2
        simp only []
        omega
      obtain ⟨_, hg⟩ := gridFold_spec SA _ _ hjm (resize_target SA t srcs true).2
        (resize_target SA t srcs true).1 (resize_target_allNone SA t srcs)
      rw [hg i j]
      rw [if_neg (by
        intro hc
        have h2 := hc.2
        simp only [] at h2
        have h3 := find_eff_ge_two SA srcs i
        omega)]

-- ---------------------------------------------------------------------
-- Horizontal reductions as any/all folds; driver bit characterizations
-- ---------------------------------------------------------------------

theorem foldl_or_any {α : Type} (f : α → Bool) (l : List α) :
    ∀ a, l.foldl (fun acc v => acc || f v) a = (a || l.any f) := by
  induction l with
  | nil => intro a; simp
  | cons x xs ih =>
    intro a
    show xs.foldl (fun acc v => acc || f v) (a || f x) = _
    rw [ih (a || f x), List.any_cons, Bool.or_assoc]

theorem foldl_and_all {α : Type} (f : α → Bool) (l : List α) :
    ∀ a, l.foldl (fun acc v => acc && f v) a = (a && l.all f) := by
  induction l with
  | nil => intro a; simp
  | cons x xs ih =>
    intro a
    show xs.foldl (fun acc v => acc && f v) (a && f x) = _
    rw [ih (a && f x), List.all_cons, Bool.and_assoc]

theorem all_not_eq_not_any {α : Type} (f : α → Bool) (l : List α) :
    l.all (fun v => !(f v)) = !(l.any f) := by
  induction l with
  | nil => simp
  | cons x xs ih => simp [ih, Bool.not_or]

theorem combine_or_horizontal_eq (W SA : Nat) (srcs : List BVec) (n : Nat) :
    combine_or_horizontal W SA srcs n = orAnyBits W SA srcs n := by
  cases srcs with
  | nil => rfl
  | cons bv rest =>
    show rest.foldl (fun acc v => acc || bvBit W SA v n) (bvBit W SA bv n) = _
    rw [foldl_or_any (fun v => bvBit W SA v n) rest (bvBit W SA bv n)]
    unfold orAnyBits
    rw [List.any_cons]

theorem combine_and_horizontal_eq (W SA : Nat) {srcs : List BVec}
    (hne : srcs ≠ []) (n : Nat) :
    combine_and_horizontal W SA srcs n = andAllBits W SA srcs n := by
  match srcs, hne with
  | bv :: rest, _ =>
    show rest.foldl (fun acc v => acc && bvBit W SA v n) (bvBit W SA bv n) = _
    rw [foldl_and_all (fun v => bvBit W SA v n) rest (bvBit W SA bv n)]
    unfold andAllBits
    rw [List.all_cons]

theorem combine_and_sub_horizontal_eq (W SA : Nat) {g0 : List BVec}
    (hne : g0 ≠ []) (g1 : List BVec) (n : Nat) :
    combine_and_sub_horizontal W SA g0 g1 n =
      (andAllBits W SA g0 n && !(orAnyBits W SA g1 n)) := by
  unfold combine_and_sub_horizontal
  rw [foldl_and_all (fun v => !(bvBit W SA v n)) g1,
    combine_and_horizontal_eq W SA hne n,
    all_not_eq_not_any (fun v => bvBit W SA v n) g1]
  rfl

theorem orAnyBits_eq (W SA : Nat) (srcs : List BVec) (n : Nat) :
    orAnyBits W SA srcs n =
      orBitsAt srcs (n / (SA * W)) ((n / W) % SA) (n % W) := rfl

theorem andAllBits_eq (W SA : Nat) (srcs : List BVec) (n : Nat) :
    andAllBits W SA srcs n =
      andBitsAt srcs (n / (SA * W)) ((n / W) % SA) (n % W) := rfl

theorem clearBV_allNone (t : BVec) : allNone (clearBV t) := by
  intro r hr
  obtain ⟨x, _, hx⟩ := List.mem_map.mp hr
  exact hx.symm

theorem combine_or_bit (W SA : Nat) (hW : 0 < W) (hSA : 2 ≤ SA)
    (srcs : List BVec) (hwf : bvsWF W SA srcs = true) (t u : BVec)
    (hok : combine_or W SA t srcs = Except.ok u) (n : Nat) :
    bvBit W SA u n = combine_or_horizontal W SA srcs n := by
  rw [combine_or_horizontal_eq, orAnyBits_eq]
  have hb : n % W < W := Nat.mod_lt _ hW
  have hj : (n / W) % SA < SA := Nat.mod_lt _ (by omega)
  unfold combine_or at hok
  by_cases hcap : ¬ (srcs.length < max_aggregator_cap)
  · rw [if_pos hcap] at hok
    exact absurd hok (by simp)
  · rw [if_neg hcap] at hok
    by_cases hz : srcs.length = 0
    · rw [if_pos hz] at hok
      have hu := Except.ok.inj hok
      rw [← hu]
      have hnil : srcs = [] := List.eq_nil_of_length_eq_zero hz
      rw [hnil]
      unfold bvBit
      rw [get_allNone (clearBV_allNone t)]
      rfl
    · rw [if_neg hz] at hok
      have hok2 : Except.ok (gridFold SA (resize_target SA t srcs true).2
          (fun i2 => find_effective_sub_block_size SA srcs i2)
          (fun i2 j2 => combine_or_block W srcs i2 j2)
          (resize_target SA t srcs true).1) = Except.ok u := hok
      have hu := Except.ok.inj hok2
      rw [← hu]
      have hjm : ∀ i2, max ((fun i3 =>
          find_effective_sub_block_size SA srcs i3) i2) 1 ≤ SA := by
        intro i2
        have h1 := find_eff_le SA hSA srcs i2
        have h2 := find_eff_ge_two SA srcs i2
        simp only []
        omega
      obtain ⟨_, hg⟩ := gridFold_spec SA _ _ hjm (resize_target SA t srcs true).2
        (resize_target SA t srcs true).1 (resize_target_allNone SA t srcs)
      unfold bvBit
      rw [hg (n / (SA * W)) ((n / W) % SA)]
      by_cases hc : n / (SA * W) < (resize_target SA t srcs true).2 ∧
          (n / W) % SA < max ((fun i3 =>
            find_effective_sub_block_size SA srcs i3) (n / (SA * W))) 1
      · rw [if_pos hc]
        exact combine_or_block_bit W SA srcs hwf (n / (SA * W)) ((n / W) % SA)
          (n % W) hb
      · rw [if_neg hc]
        have hnull : ∀ bv ∈ srcs,
            get_block_ptr bv (n / (SA * W)) ((n / W) % SA) = Slot.null := by
          intro bv hbv
          by_cases hi : n / (SA * W) < (resize_target SA t srcs true).2
          · have hjge : max ((fun i3 =>
                find_effective_sub_block_size SA srcs i3) (n / (SA * W))) 1 ≤
                (n / W) % SA := by
              by_contra hcj
              exact hc ⟨hi, by omega⟩
            simp only [] at hjge
            have h2 := find_eff_ge_two SA srcs (n / (SA * W))
            exact find_eff_null_ge SA srcs (n / (SA * W)) bv hbv ((n / W) % SA)
              (by omega) hj
          · have hcov := resize_target_covers SA t srcs true bv hbv
            exact get_top_le (by omega) _
        rw [orBitsAt_null_row hnull]
        rfl

theorem combine_and_bit (W SA D : Nat) (hW : 0 < W) (hSA : 2 ≤ SA) (hD : 0 < D)
    (hcov : (W + D - 1) / D ≤ 64)
    (srcs : List BVec) (hwf : bvsWF W SA srcs = true) (t u : BVec)
    (hok : combine_and W SA D t srcs = Except.ok u) (n : Nat) :
    bvBit W SA u n = combine_and_horizontal W SA srcs n := by
  have hb : n % W < W := Nat.mod_lt _ hW
  have hj : (n / W) % SA < SA := Nat.mod_lt _ (by omega)
  unfold combine_and at hok
  by_cases hcap : ¬ (srcs.length < max_aggregator_cap)
  · rw [if_pos hcap] at hok
    exact absurd hok (by simp)
  · rw [if_neg hcap] at hok
    by_cases hz : srcs.length = 0
    · rw [if_pos hz] at hok
      have hu := Except.ok.inj hok
      rw [← hu]
      have hnil : srcs = [] := List.eq_nil_of_length_eq_zero hz
      rw [hnil]
      unfold bvBit
      rw [get_allNone (clearBV_allNone t)]
      rfl
    · have hne : srcs ≠ [] := by
        intro h
        rw [h] at hz
        simp at hz
      rw [if_neg hz] at hok
      rw [combine_and_horizontal_eq W SA hne, andAllBits_eq]
      have hok2 : Except.ok (gridFold SA (resize_target SA t srcs true).2
          (fun i2 => find_effective_sub_block_size SA srcs i2)
          (fun i2 j2 => match combine_and_block W D srcs i2 j2 with
            | some b => Slot.plain b
            | none => Slot.null)
          (resize_target SA t srcs true).1) = Except.ok u := hok
      have hu := Except.ok.inj hok2
      rw [← hu]
      have hjm : ∀ i2, max ((fun i3 =>
          find_effective_sub_block_size SA srcs i3) i2) 1 ≤ SA := by
        intro i2
        have h1 := find_eff_le SA hSA srcs i2
        have h2 := find_eff_ge_two SA srcs i2
        simp only []
        omega
      obtain ⟨_, hg⟩ := gridFold_spec SA _ _ hjm (resize_target SA t srcs true).2
        (resize_target SA t srcs true).1 (resize_target_allNone SA t srcs)
      unfold bvBit
      rw [hg (n / (SA * W)) ((n / W) % SA)]
      by_cases hc : n / (SA * W) < (resize_target SA t srcs true).2 ∧
          (n / W) % SA < max ((fun i3 =>
            find_effective_sub_block_size SA srcs i3) (n / (SA * W))) 1
      · rw [if_pos hc]
        have hcb := combine_and_block_bit W SA D hD hcov srcs hne hwf
          (n / (SA * W)) ((n / W) % SA) (n % W) hb
        rw [← hcb]
        cases hx : combine_and_block W D srcs (n / (SA * W)) ((n / W) % SA) with
        | none => rfl
        | some blk => rfl
      · rw [if_neg hc]
        have hnull : ∀ bv ∈ srcs,
            get_block_ptr bv (n / (SA * W)) ((n / W) % SA) = Slot.null := by
          intro bv hbv
          by_cases hi : n / (SA * W) < (resize_target SA t srcs true).2
          · have hjge : max ((fun i3 =>
                find_effective_sub_block_size SA srcs i3) (n / (SA * W))) 1 ≤
                (n / W) % SA := by
              by_contra hcj
              exact hc ⟨hi, by omega⟩
            simp only [] at hjge
            have h2 := find_eff_ge_two SA srcs (n / (SA * W))
            exact find_eff_null_ge SA srcs (n / (SA * W)) bv hbv ((n / W) % SA)
              (by omega) hj
          · have hcov2 := resize_target_covers SA t srcs true bv hbv
            exact get_top_le (by omega) _
        rw [andBitsAt_null_row hne hnull]
        rfl

-- ---------------------------------------------------------------------
-- combine_and_sub driver loops (anyF = false)
-- ---------------------------------------------------------------------

theorem casJmax_ge0 (SA : Nat) (g0 g1 : List BVec) (i : Nat) :
    find_effective_sub_block_size SA g0 i ≤ casJmax SA g0 g1 i := by
  show find_effective_sub_block_size SA g0 i ≤
    (if g1.length ≠ 0 then
      (if find_effective_sub_block_size SA g1 i >
          find_effective_sub_block_size SA g0 i then
        find_effective_sub_block_size SA g1 i
      else find_effective_sub_block_size SA g0 i)
    else find_effective_sub_block_size SA g0 i)
  split
  · split <;> omega
  · omega

theorem casJmax_le (SA : Nat) (hSA : 2 ≤ SA) (g0 g1 : List BVec) (i : Nat) :
    casJmax SA g0 g1 i ≤ SA := by
  show (if g1.length ≠ 0 then
      (if find_effective_sub_block_size SA g1 i >
          find_effective_sub_block_size SA g0 i then
        find_effective_sub_block_size SA g1 i
      else find_effective_sub_block_size SA g0 i)
    else find_effective_sub_block_size SA g0 i) ≤ SA
  have h0 := find_eff_le SA hSA g0 i
  have h1 := find_eff_le SA hSA g1 i
  split
  · split <;> omega
  · omega

theorem casJmax_ge_two (SA : Nat) (g0 g1 : List BVec) (i : Nat) :
    2 ≤ casJmax SA g0 g1 i := by
  have h0 := find_eff_ge_two SA g0 i
  have h1 := casJmax_ge0 SA g0 g1 i
  omega

theorem casCols_false_cons (W D SA : Nat) (g0 g1 : List BVec) (i j : Nat)
    (rest : List Nat) (t : BVec) (found : Bool) :
    casCols W D SA g0 g1 false i (j :: rest) t found =
      if dgAny (combine_and_sub_block W D g0 g1 i j).1 = true then
        casCols W D SA g0 g1 false i rest
          (setSlot SA t i j (Slot.plain (combine_and_sub_block W D g0 g1 i j).2))
          true
      else casCols W D SA g0 g1 false i rest t found := rfl

theorem casCols_false_no_exit (W D SA : Nat) (g0 g1 : List BVec) (i : Nat)
    (js : List Nat) : ∀ (t : BVec) (found : Bool),
    (casCols W D SA g0 g1 false i js t found).2.2 = false := by
  induction js with
  | nil => intro t found; rfl
  | cons j rest ih =>
    intro t found
    rw [casCols_false_cons]
    split
    · exact ih _ true
    · exact ih t found

theorem casCols_false_append (W D SA : Nat) (g0 g1 : List BVec) (i : Nat)
    (a b : List Nat) : ∀ (t : BVec) (found : Bool),
    casCols W D SA g0 g1 false i (a ++ b) t found =
      casCols W D SA g0 g1 false i b
        (casCols W D SA g0 g1 false i a t found).1
        (casCols W D SA g0 g1 false i a t found).2.1 := by
  induction a with
  | nil => intro t found; rfl
  | cons j rest ih =>
    intro t found
    rw [List.cons_append, casCols_false_cons, casCols_false_cons]
    split
    · exact ih _ true
    · exact ih t found

theorem casCols_false_spec (W D SA : Nat) (g0 g1 : List BVec) (i m : Nat)
    (hm : m ≤ SA) (t : BVec) (found : Bool) (hrows : rowsSA SA t) :
    rowsSA SA (casCols W D SA g0 g1 false i (List.range m) t found).1 ∧
    (∀ i' j', i' ≠ i →
      get_block_ptr (casCols W D SA g0 g1 false i (List.range m) t found).1 i' j' =
      get_block_ptr t i' j') ∧
    (∀ j', get_block_ptr t i j' = Slot.null →
      get_block_ptr (casCols W D SA g0 g1 false i (List.range m) t found).1 i j' =
        if j' < m ∧ dgAny (combine_and_sub_block W D g0 g1 i j').1 = true
        then Slot.plain (combine_and_sub_block W D g0 g1 i j').2
        else Slot.null) := by
  induction m generalizing found with
  | zero =>
    refine ⟨hrows, fun i' j' _ => rfl, fun j' h0 => ?_⟩
    rw [if_neg (by intro hc; omega)]
    exact h0
  | succ k ih =>
    have ihk := ih (by omega) found
    have estep : casCols W D SA g0 g1 false i (List.range (k + 1)) t found =
        casCols W D SA g0 g1 false i [k]
          (casCols W D SA g0 g1 false i (List.range k) t found).1
          (casCols W D SA g0 g1 false i (List.range k) t found).2.1 := by
      rw [List.range_succ, casCols_false_append]
    rw [estep]
    have e1 : ∀ (t2 : BVec) (f2 : Bool),
        (casCols W D SA g0 g1 false i [k] t2 f2).1 =
        if dgAny (combine_and_sub_block W D g0 g1 i k).1 = true then
          setSlot SA t2 i k (Slot.plain (combine_and_sub_block W D g0 g1 i k).2)
        else t2 := by
      intro t2 f2
      rw [casCols_false_cons]
      split <;> rfl
    rw [e1]
    by_cases hhit : dgAny (combine_and_sub_block W D g0 g1 i k).1 = true
    · rw [if_pos hhit]
      refine ⟨setSlot_rowsSA SA _ i k _ ihk.1, ?_, ?_⟩
      · intro i' j' hne
        rw [setSlot_get_other SA _ i k _ i' j' (Or.inl hne)]
        exact ihk.2.1 i' j' hne
      · intro j' h0
        by_cases hjk : j' = k
        · subst hjk
          rw [setSlot_get_same SA _ i j' _ (by omega) ihk.1]
          rw [if_pos ⟨by omega, hhit⟩]
        · rw [setSlot_get_other SA _ i k _ i j' (Or.inr hjk)]
          rw [ihk.2.2 j' h0]
          by_cases h2 : j' < k ∧ dgAny (combine_and_sub_block W D g0 g1 i j').1 = true
          · rw [if_pos h2, if_pos ⟨by omega, h2.2⟩]
          · rw [if_neg h2, if_neg (by intro hc; exact h2 ⟨by omega, hc.2⟩)]
    · rw [if_neg hhit]
      refine ⟨ihk.1, ihk.2.1, ?_⟩
      intro j' h0
      rw [ihk.2.2 j' h0]
      by_cases hjk : j' = k
      · subst hjk
        rw [if_neg (by omega), if_neg (by intro hc; exact hhit hc.2)]
      · by_cases h2 : j' < k ∧ dgAny (combine_and_sub_block W D g0 g1 i j').1 = true
        · rw [if_pos h2, if_pos ⟨by omega, h2.2⟩]
        · rw [if_neg h2, if_neg (by intro hc; exact h2 ⟨by omega, hc.2⟩)]

theorem casRows_false_cons (W D SA : Nat) (g0 g1 : List BVec) (i : Nat)
    (rest : List Nat) (t : BVec) (found : Bool) :
    casRows W D SA g0 g1 false (i :: rest) t found =
      casRows W D SA g0 g1 false rest
        (casCols W D SA g0 g1 false i
          (List.range (max (casJmax SA g0 g1 i) 1)) t found).1
        (casCols W D SA g0 g1 false i
          (List.range (max (casJmax SA g0 g1 i) 1)) t found).2.1 := by
  show (if (casCols W D SA g0 g1 false i
      (List.range (max (casJmax SA g0 g1 i) 1)) t found).2.2 = true then
      ((casCols W D SA g0 g1 false i
        (List.range (max (casJmax SA g0 g1 i) 1)) t found).1,
       (casCols W D SA g0 g1 false i
        (List.range (max (casJmax SA g0 g1 i) 1)) t found).2.1)
    else casRows W D SA g0 g1 false rest
      (casCols W D SA g0 g1 false i
        (List.range (max (casJmax SA g0 g1 i) 1)) t found).1
      (casCols W D SA g0 g1 false i
        (List.range (max (casJmax SA g0 g1 i) 1)) t found).2.1) = _
  rw [casCols_false_no_exit]
  rw [if_neg Bool.false_ne_true]

theorem casRows_false_append (W D SA : Nat) (g0 g1 : List BVec)
    (a b : List Nat) : ∀ (t : BVec) (found : Bool),
    casRows W D SA g0 g1 false (a ++ b) t found =
      casRows W D SA g0 g1 false b
        (casRows W D SA g0 g1 false a t found).1
        (casRows W D SA g0 g1 false a t found).2 := by
  induction a with
  | nil => intro t found; rfl
  | cons i rest ih =>
    intro t found
    rw [List.cons_append, casRows_false_cons, casRows_false_cons]
    rw [ih]

theorem casRows_false_spec (W D SA : Nat) (hSA : 2 ≤ SA) (g0 g1 : List BVec)
    (top : Nat) (t : BVec) (found : Bool) (hAll : allNone t) :
    rowsSA SA (casRows W D SA g0 g1 false (List.range top) t found).1 ∧
    (∀ i j, get_block_ptr
        (casRows W D SA g0 g1 false (List.range top) t found).1 i j =
      if i < top ∧ j < max (casJmax SA g0 g1 i) 1 ∧
          dgAny (combine_and_sub_block W D g0 g1 i j).1 = true
      then Slot.plain (combine_and_sub_block W D g0 g1 i j).2
      else Slot.null) := by
  induction top generalizing found with
  | zero =>
    refine ⟨allNone_rowsSA hAll, fun i j => ?_⟩
    rw [if_neg (by intro hc; omega)]
    exact get_allNone hAll i j
  | succ k ih =>
    have ihk := ih found
    have estep : casRows W D SA g0 g1 false (List.range (k + 1)) t found =
        casRows W D SA g0 g1 false [k]
          (casRows W D SA g0 g1 false (List.range k) t found).1
          (casRows W D SA g0 g1 false (List.range k) t found).2 := by
      rw [List.range_succ, casRows_false_append]
    rw [estep]
    have e1 : ∀ (t2 : BVec) (f2 : Bool),
        (casRows W D SA g0 g1 false [k] t2 f2).1 =
        (casCols W D SA g0 g1 false k
          (List.range (max (casJmax SA g0 g1 k) 1)) t2 f2).1 := by
      intro t2 f2
      rw [casRows_false_cons]
      rfl
    rw [e1]
    have hmle : max (casJmax SA g0 g1 k) 1 ≤ SA := by
      have h1 := casJmax_le SA hSA g0 g1 k
      have h2 := casJmax_ge_two SA g0 g1 k
      omega
    obtain ⟨hcf1, hcf2, hcf3⟩ := casCols_false_spec W D SA g0 g1 k
      (max (casJmax SA g0 g1 k) 1) hmle
      (casRows W D SA g0 g1 false (List.range k) t found).1
      (casRows W D SA g0 g1 false (List.range k) t found).2 ihk.1
    refine ⟨hcf1, fun i j => ?_⟩
    by_cases hik : i = k
    · subst hik
      rw [hcf3 j (by rw [ihk.2 i j]; rw [if_neg (by intro hc; omega)])]
      by_cases hj : j < max (casJmax SA g0 g1 i) 1 ∧
          dgAny (combine_and_sub_block W D g0 g1 i j).1 = true
      · rw [if_pos hj, if_pos ⟨by omega, hj.1, hj.2⟩]
      · rw [if_neg hj, if_neg (by intro hc; exact hj ⟨hc.2.1, hc.2.2⟩)]
    · rw [hcf2 i j hik, ihk.2 i j]
      by_cases hi : i < k ∧ j < max (casJmax SA g0 g1 i) 1 ∧
          dgAny (combine_and_sub_block W D g0 g1 i j).1 = true
      · rw [if_pos hi, if_pos ⟨by omega, hi.2⟩]
      · rw [if_neg hi, if_neg (by intro hc; exact hi ⟨by omega, hc.2⟩)]

theorem combine_and_sub_bit (W SA D : Nat) (hW : 0 < W) (hSA : 2 ≤ SA)
    (hD : 0 < D) (hcov : (W + D - 1) / D ≤ 64) (g0 g1 : List BVec)
    (hne : g0 ≠ []) (hwf0 : bvsWF W SA g0 = true) (hwf1 : bvsWF W SA g1 = true)
    (t u : BVec) (fl : Bool)
    (hok : combine_and_sub W SA D t g0 g1 false = Except.ok (u, fl)) (n : Nat) :
    bvBit W SA u n = combine_and_sub_horizontal W SA g0 g1 n := by
  rw [combine_and_sub_horizontal_eq W SA hne g1 n, andAllBits_eq, orAnyBits_eq]
  have hb : n % W < W := Nat.mod_lt _ hW
  have hj : (n / W) % SA < SA := Nat.mod_lt _ (by omega)
  unfold combine_and_sub at hok
  by_cases hcap0 : ¬ (g0.length < max_aggregator_cap)
  · rw [if_pos hcap0] at hok
    exact absurd hok (by simp)
  · rw [if_neg hcap0] at hok
    by_cases hcap1 : ¬ (g1.length < max_aggregator_cap)
    · rw [if_pos hcap1] at hok
      exact absurd hok (by simp)
    · rw [if_neg hcap1] at hok
      by_cases hz : g0.length = 0
      · exact absurd (List.eq_nil_of_length_eq_zero hz) hne
      · rw [if_neg hz] at hok
        have hok2 : Except.ok (casRows W D SA g0 g1 false
            (List.range (max (resize_target SA t g0 true).2
              (resize_target SA (resize_target SA t g0 true).1 g1 false).2))
            (resize_target SA (resize_target SA t g0 true).1 g1 false).1 false) =
            Except.ok (u, fl) := hok
        have hu : u = (casRows W D SA g0 g1 false
            (List.range (max (resize_target SA t g0 true).2
              (resize_target SA (resize_target SA t g0 true).1 g1 false).2))
            (resize_target SA (resize_target SA t g0 true).1 g1 false).1 false).1 :=
          congrArg Prod.fst (Except.ok.inj hok2).symm
        rw [hu]
        have hAll : allNone
            (resize_target SA (resize_target SA t g0 true).1 g1 false).1 :=
          resize_target_allNone_keep SA (resize_target_allNone SA t g0) g1
        obtain ⟨_, hg⟩ := casRows_false_spec W D SA hSA g0 g1
          (max (resize_target SA t g0 true).2
            (resize_target SA (resize_target SA t g0 true).1 g1 false).2)
          (resize_target SA (resize_target SA t g0 true).1 g1 false).1 false hAll
        unfold bvBit
        rw [hg (n / (SA * W)) ((n / W) % SA)]
        obtain ⟨hq, hz2⟩ := combine_and_sub_block_spec W SA D hD hcov g0 g1 hne
          hwf0 hwf1 (n / (SA * W)) ((n / W) % SA)
        by_cases hhit : dgAny (combine_and_sub_block W D g0 g1
            (n / (SA * W)) ((n / W) % SA)).1 = true
        · by_cases hc : n / (SA * W) < max (resize_target SA t g0 true).2
              (resize_target SA (resize_target SA t g0 true).1 g1 false).2 ∧
              (n / W) % SA < max (casJmax SA g0 g1 (n / (SA * W))) 1
          · rw [if_pos ⟨hc.1, hc.2, hhit⟩]
            have h2 := hq (n % W) hb
            rw [hhit, Bool.true_and] at h2
            exact h2
          · rw [if_neg (by intro h2; exact hc ⟨h2.1, h2.2.1⟩)]
            have hnull : ∀ bv ∈ g0,
                get_block_ptr bv (n / (SA * W)) ((n / W) % SA) = Slot.null := by
              intro bv hbv
              by_cases hi : n / (SA * W) < max (resize_target SA t g0 true).2
                  (resize_target SA (resize_target SA t g0 true).1 g1 false).2
              · have hjge : max (casJmax SA g0 g1 (n / (SA * W))) 1 ≤
                    (n / W) % SA := by
                  by_contra hcj
                  exact hc ⟨hi, by omega⟩
                have h2 := casJmax_ge0 SA g0 g1 (n / (SA * W))
                have h3 := casJmax_ge_two SA g0 g1 (n / (SA * W))
                exact find_eff_null_ge SA g0 (n / (SA * W)) bv hbv ((n / W) % SA)
                  (by omega) hj
              · have hcov2 := resize_target_covers SA t g0 true bv hbv
                exact get_top_le (by omega) _
            rw [andBitsAt_null_row hne hnull]
            rfl
        · rw [if_neg (by intro h2; exact hhit h2.2.2)]
          have hhf : dgAny (combine_and_sub_block W D g0 g1
              (n / (SA * W)) ((n / W) % SA)).1 = false := by
            cases h : dgAny (combine_and_sub_block W D g0 g1
                (n / (SA * W)) ((n / W) % SA)).1
            · rfl
            · exact absurd h hhit
          have h2 := hq (n % W) hb
          rw [hhf, Bool.false_and] at h2
          exact h2

theorem C8_eff_sub_block_amended_witness :
    2 ≤ 2 ∧
    (2 ≤ find_effective_sub_block_size 2 [c8bv] 0 ∧
     find_effective_sub_block_size 2 [c8bv] 0 ≤ 2 ∧
     nullFromCol 2 [c8bv] 0 (find_effective_sub_block_size 2 [c8bv] 0) = true ∧
     (∀ m, 2 ≤ m → nullFromCol 2 [c8bv] 0 m = true →
       find_effective_sub_block_size 2 [c8bv] 0 ≤ m) ∧
     (∀ (W : Nat) (t u : BVec), combine_or W 2 t [c8bv] = Except.ok u →
       ∀ j, find_effective_sub_block_size 2 [c8bv] 0 ≤ j →
         get_block_ptr u 0 j = Slot.null)) :=
  ⟨by decide, C8_eff_sub_block_amended 2 (by decide) [c8bv] 0⟩

-- ---------------------------------------------------------------------
-- find_first_and_sub machinery
-- ---------------------------------------------------------------------

theorem idx_decomp (W SA : Nat) (m : Nat) :
    m / (SA * W) * (SA * W) + (m / W) % SA * W + m % W = m := by
  have h1 : m / W * W + m % W = m := by
    rw [Nat.mul_comm]
    exact Nat.div_add_mod m W
  have h2 : m / W / SA * SA + (m / W) % SA = m / W := by
    rw [Nat.mul_comm]
    exact Nat.div_add_mod (m / W) SA
  have h3 : m / (SA * W) = m / W / SA := by
    rw [Nat.mul_comm SA W]
    exact (Nat.div_div_eq_div_mul m W SA).symm
  rw [h3]
  conv_rhs => rw [← h1, ← h2]
  ring

theorem idx_comp (W SA : Nat) (hW : 0 < W) (hSA : 0 < SA) {i j b : Nat}
    (hj : j < SA) (hb : b < W) :
    (i * (SA * W) + j * W + b) / (SA * W) = i ∧
    ((i * (SA * W) + j * W + b) / W) % SA = j ∧
    (i * (SA * W) + j * W + b) % W = b := by
  have hsub : j * W + b < SA * W := by
    have hx : j * W + b < (j + 1) * W := by
      rw [Nat.add_mul, Nat.one_mul]
      omega
    have hy : (j + 1) * W ≤ SA * W := Nat.mul_le_mul_right W (by omega)
    omega
  refine ⟨?_, ?_, ?_⟩
  · have e : i * (SA * W) + j * W + b = (j * W + b) + (SA * W) * i := by ring
    rw [e, Nat.add_mul_div_left _ _ (by positivity : 0 < SA * W)]
    rw [Nat.div_eq_of_lt hsub]
    omega
  · have e : i * (SA * W) + j * W + b = b + W * (i * SA + j) := by ring
    rw [e, Nat.add_mul_div_left _ _ hW, Nat.div_eq_of_lt hb]
    have e2 : 0 + (i * SA + j) = j + i * SA := by omega
    rw [e2, Nat.add_mul_mod_self_right]
    exact Nat.mod_eq_of_lt hj
  · have e : i * (SA * W) + j * W + b = b + (i * SA + j) * W := by ring
    rw [e, Nat.add_mul_mod_self_right]
    exact Nat.mod_eq_of_lt hb

theorem lex_lt (W SA : Nat) {i j b i' j' b' : Nat}
    (hj : j < SA) (hb : b < W) (hj' : j' < SA) (hb' : b' < W)
    (hlex : i' < i ∨ (i' = i ∧ j' < j) ∨ (i' = i ∧ j' = j ∧ b' < b)) :
    i' * (SA * W) + j' * W + b' < i * (SA * W) + j * W + b := by
  rcases hlex with h | ⟨he, h⟩ | ⟨he, he2, h⟩
  · have h1 : j' * W + b' < SA * W := by
      have hx : j' * W + b' < (j' + 1) * W := by
        rw [Nat.add_mul, Nat.one_mul]
        omega
      have hy : (j' + 1) * W ≤ SA * W := Nat.mul_le_mul_right W (by omega)
      omega
    have h3 : i' * (SA * W) + SA * W ≤ i * (SA * W) := by
      have hx : (i' + 1) * (SA * W) ≤ i * (SA * W) :=
        Nat.mul_le_mul_right _ (by omega)
      rw [Nat.add_mul, Nat.one_mul] at hx
      omega
    omega
  · subst he
    have h1 : j' * W + b' < j * W := by
      have hx : j' * W + b' < (j' + 1) * W := by
        rw [Nat.add_mul, Nat.one_mul]
        omega
      have hy : (j' + 1) * W ≤ j * W := Nat.mul_le_mul_right W (by omega)
      omega
    omega
  · subst he
    subst he2
    omega

theorem findIdx_first (l : List Bool) (h : l.any id = true) :
    l.findIdx id < l.length ∧ l.getD (l.findIdx id) false = true ∧
    ∀ q, q < l.findIdx id → l.getD q false = false := by
  induction l with
  | nil => simp at h
  | cons a tl ih =>
    cases a with
    | false =>
      have h2 : tl.any id = true := by simpa using h
      obtain ⟨ih1, ih2, ih3⟩ := ih h2
      have e : (false :: tl).findIdx id = tl.findIdx id + 1 := by
        rw [List.findIdx_cons]
        rfl
      rw [e]
      refine ⟨by simp only [List.length_cons]; omega, ?_, ?_⟩
      · rw [List.getD_cons_succ]
        exact ih2
      · intro q hq
        cases q with
        | zero => simp
        | succ k =>
          rw [List.getD_cons_succ]
          exact ih3 k (by omega)
    | true =>
      have e : (true :: tl).findIdx id = 0 := by
        rw [List.findIdx_cons]
        rfl
      rw [e]
      exact ⟨by simp, by simp, fun q hq => absurd hq (by omega)⟩

theorem ffCols_cons (W D SA : Nat) (g0 g1 : List BVec) (i j : Nat)
    (rest : List Nat) :
    ffCols W D SA g0 g1 i (j :: rest) =
      if dgAny (combine_and_sub_block W D g0 g1 i j).1 = true then
        some (i * SA * W + j * W +
          bit_find_first (combine_and_sub_block W D g0 g1 i j).2)
      else ffCols W D SA g0 g1 i rest := rfl

theorem ffCols_append (W D SA : Nat) (g0 g1 : List BVec) (i : Nat)
    (a b : List Nat) :
    ffCols W D SA g0 g1 i (a ++ b) =
      (match ffCols W D SA g0 g1 i a with
       | some x => some x
       | none => ffCols W D SA g0 g1 i b) := by
  induction a with
  | nil => rfl
  | cons j rest ih =>
    rw [List.cons_append, ffCols_cons, ffCols_cons]
    split
    · rfl
    · exact ih

theorem ffCols_range_spec (W D SA : Nat) (g0 g1 : List BVec) (i : Nat) :
    ∀ m, (ffCols W D SA g0 g1 i (List.range m) = none ∧
      ∀ j, j < m → dgAny (combine_and_sub_block W D g0 g1 i j).1 = false) ∨
    (∃ j, j < m ∧ dgAny (combine_and_sub_block W D g0 g1 i j).1 = true ∧
      (∀ j', j' < j → dgAny (combine_and_sub_block W D g0 g1 i j').1 = false) ∧
      ffCols W D SA g0 g1 i (List.range m) =
        some (i * SA * W + j * W +
          bit_find_first (combine_and_sub_block W D g0 g1 i j).2)) := by
  intro m
  induction m with
  | zero => exact Or.inl ⟨rfl, fun j hj => absurd hj (by omega)⟩
  | succ k ih =>
    have estep : ffCols W D SA g0 g1 i (List.range (k + 1)) =
        (match ffCols W D SA g0 g1 i (List.range k) with
         | some x => some x
         | none => ffCols W D SA g0 g1 i [k]) := by
      rw [List.range_succ, ffCols_append]
    rcases ih with ⟨hnone, hall⟩ | ⟨j, hj, hhit, hprev, heq⟩
    · rw [hnone] at estep
      by_cases hhitk : dgAny (combine_and_sub_block W D g0 g1 i k).1 = true
      · refine Or.inr ⟨k, by omega, hhitk, fun j' hj' => hall j' hj', ?_⟩
        rw [estep, ffCols_cons, if_pos hhitk]
      · have hf : dgAny (combine_and_sub_block W D g0 g1 i k).1 = false := by
          cases h : dgAny (combine_and_sub_block W D g0 g1 i k).1
          · rfl
          · exact absurd h hhitk
        refine Or.inl ⟨?_, ?_⟩
        · rw [estep, ffCols_cons, if_neg hhitk]
          rfl
        · intro j' hj'
          by_cases h2 : j' = k
          · rw [h2]
            exact hf
          · exact hall j' (by omega)
    · rw [heq] at estep
      exact Or.inr ⟨j, by omega, hhit, hprev, estep⟩

theorem ffRows_cons (W D SA : Nat) (g0 g1 : List BVec) (i : Nat)
    (rest : List Nat) :
    ffRows W D SA g0 g1 (i :: rest) =
      (match ffCols W D SA g0 g1 i
          (List.range (max (casJmax SA g0 g1 i) 1)) with
       | some idx => some idx
       | none => ffRows W D SA g0 g1 rest) := rfl

theorem ffRows_append (W D SA : Nat) (g0 g1 : List BVec) (a b : List Nat) :
    ffRows W D SA g0 g1 (a ++ b) =
      (match ffRows W D SA g0 g1 a with
       | some x => some x
       | none => ffRows W D SA g0 g1 b) := by
  induction a with
  | nil => rfl
  | cons i rest ih =>
    rw [List.cons_append, ffRows_cons, ffRows_cons]
    cases ffCols W D SA g0 g1 i (List.range (max (casJmax SA g0 g1 i) 1)) with
    | some x => rfl
    | none => exact ih

theorem ffRows_range_spec (W D SA : Nat) (g0 g1 : List BVec) :
    ∀ top, (ffRows W D SA g0 g1 (List.range top) = none ∧
      ∀ i, i < top → ffCols W D SA g0 g1 i
        (List.range (max (casJmax SA g0 g1 i) 1)) = none) ∨
    (∃ i, i < top ∧
      (∀ i', i' < i → ffCols W D SA g0 g1 i'
        (List.range (max (casJmax SA g0 g1 i') 1)) = none) ∧
      ∃ x, ffCols W D SA g0 g1 i
          (List.range (max (casJmax SA g0 g1 i) 1)) = some x ∧
        ffRows W D SA g0 g1 (List.range top) = some x) := by
  intro top
  induction top with
  | zero => exact Or.inl ⟨rfl, fun i hi => absurd hi (by omega)⟩
  | succ k ih =>
    have estep : ffRows W D SA g0 g1 (List.range (k + 1)) =
        (match ffRows W D SA g0 g1 (List.range k) with
         | some x => some x
         | none => ffRows W D SA g0 g1 [k]) := by
      rw [List.range_succ, ffRows_append]
    rcases ih with ⟨hnone, hall⟩ | ⟨i, hi, hprev, x, hcx, heq⟩
    · rw [hnone] at estep
      cases hck : ffCols W D SA g0 g1 k
          (List.range (max (casJmax SA g0 g1 k) 1)) with
      | some x =>
        refine Or.inr ⟨k, by omega, fun i' hi' => hall i' hi', x, hck, ?_⟩
        rw [estep, ffRows_cons, hck]
      | none =>
        refine Or.inl ⟨?_, ?_⟩
        · rw [estep, ffRows_cons, hck]
          rfl
        · intro i' hi'
          by_cases h2 : i' = k
          · rw [h2]
            exact hck
          · exact hall i' (by omega)
    · rw [heq] at estep
      exact Or.inr ⟨i, by omega, hprev, x, hcx, estep⟩

theorem andSub_true_loc (W SA D : Nat) (hW : 0 < W) (hSA : 2 ≤ SA) (hD : 0 < D)
    (hcov : (W + D - 1) / D ≤ 64) (g0 g1 : List BVec) (hne : g0 ≠ [])
    (hwf0 : bvsWF W SA g0 = true) (hwf1 : bvsWF W SA g1 = true) (top : Nat)
    (htop : ∀ bv ∈ g0, bv.top.length ≤ top) (m : Nat)
    (hP : (andAllBits W SA g0 m && !(orAnyBits W SA g1 m)) = true) :
    m / (SA * W) < top ∧
    (m / W) % SA < max (casJmax SA g0 g1 (m / (SA * W))) 1 ∧
    dgAny (combine_and_sub_block W D g0 g1 (m / (SA * W)) ((m / W) % SA)).1 = true ∧
    (combine_and_sub_block W D g0 g1 (m / (SA * W)) ((m / W) % SA)).2.getD
      (m % W) false = true := by
  have hb : m % W < W := Nat.mod_lt _ hW
  have hj : (m / W) % SA < SA := Nat.mod_lt _ (by omega)
  rw [andAllBits_eq, orAnyBits_eq] at hP
  obtain ⟨hq, hz2⟩ := combine_and_sub_block_spec W SA D hD hcov g0 g1 hne hwf0
    hwf1 (m / (SA * W)) ((m / W) % SA)
  have hqm := hq (m % W) hb
  rw [hP] at hqm
  have hand := (Bool.and_eq_true _ _).mp hqm
  have hiT : m / (SA * W) < top := by
    by_contra hcc
    have hnull : ∀ bv ∈ g0,
        get_block_ptr bv (m / (SA * W)) ((m / W) % SA) = Slot.null := by
      intro bv hbv
      exact get_top_le (by have := htop bv hbv; omega) _
    have hAnd := andBitsAt_null_row hne hnull (m % W)
    have h2 := ((Bool.and_eq_true _ _).mp hP).1
    rw [hAnd] at h2
    exact absurd h2 Bool.false_ne_true
  have hjT : (m / W) % SA < max (casJmax SA g0 g1 (m / (SA * W))) 1 := by
    by_contra hcc
    have h3 := casJmax_ge0 SA g0 g1 (m / (SA * W))
    have hnull : ∀ bv ∈ g0,
        get_block_ptr bv (m / (SA * W)) ((m / W) % SA) = Slot.null := by
      intro bv hbv
      exact find_eff_null_ge SA g0 (m / (SA * W)) bv hbv ((m / W) % SA)
        (by omega) hj
    have hAnd := andBitsAt_null_row hne hnull (m % W)
    have h2 := ((Bool.and_eq_true _ _).mp hP).1
    rw [hAnd] at h2
    exact absurd h2 Bool.false_ne_true
  exact ⟨hiT, hjT, hand.1, hand.2⟩

/-- The top block count used by `find_first_and_sub` (computed through
`resize_target` on the throwaway default target). -/
def ffTop (SA : Nat) (g0 g1 : List BVec) : Nat :=
  max (resize_target SA ⟨[], 0⟩ g0 true).2
    (resize_target SA (resize_target SA ⟨[], 0⟩ g0 true).1 g1 false).2

theorem ffTop_covers (SA : Nat) (g0 g1 : List BVec) :
    ∀ bv ∈ g0, bv.top.length ≤ ffTop SA g0 g1 := by
  intro bv hbv
  have h1 := resize_target_covers SA ⟨[], 0⟩ g0 true bv hbv
  show bv.top.length ≤ max (resize_target SA ⟨[], 0⟩ g0 true).2
    (resize_target SA (resize_target SA ⟨[], 0⟩ g0 true).1 g1 false).2
  omega

/-- C3: `find_first_and_sub` over a non-empty AND group returns the
minimum bit index at which AND(group0) ∧ ¬OR(group1) holds (composed as
i·S·2^B + j·2^B + bit from the first block with a non-zero digest), and
returns false exactly when no such bit exists. -/
theorem C3_find_first_minimal (W SA D : Nat) (hW : 0 < W) (hSA : 2 ≤ SA)
    (hD : 0 < D) (hcov : (W + D - 1) / D ≤ 64) (g0 g1 : List BVec)
    (hne : g0 ≠ []) (hwf0 : bvsWF W SA g0 = true) (hwf1 : bvsWF W SA g1 = true) :
    (∀ idx, find_first_and_sub W SA D g0 g1 = Except.ok (some idx) →
      (andAllBits W SA g0 idx && !(orAnyBits W SA g1 idx)) = true ∧
      ∀ m, m < idx → (andAllBits W SA g0 m && !(orAnyBits W SA g1 m)) = false) ∧
    (find_first_and_sub W SA D g0 g1 = Except.ok none →
      ∀ m, (andAllBits W SA g0 m && !(orAnyBits W SA g1 m)) = false) := by
  constructor
  · intro idx hok
    unfold find_first_and_sub at hok
    by_cases hcap0 : ¬ (g0.length < max_aggregator_cap)
    · rw [if_pos hcap0] at hok
      exact absurd hok (by simp)
    · rw [if_neg hcap0] at hok
      by_cases hcap1 : ¬ (g1.length < max_aggregator_cap)
      · rw [if_pos hcap1] at hok
        exact absurd hok (by simp)
      · rw [if_neg hcap1] at hok
        by_cases hz : g0.length = 0
        · exact absurd (List.eq_nil_of_length_eq_zero hz) hne
        · rw [if_neg hz] at hok
          have hok2 : Except.ok (ffRows W D SA g0 g1
              (List.range (ffTop SA g0 g1))) =
              (Except.ok (some idx) : Except AggErr (Option Nat)) := hok
          have hff := Except.ok.inj hok2
          rcases ffRows_range_spec W D SA g0 g1 (ffTop SA g0 g1) with
            ⟨hnone, _⟩ | ⟨i0, hi0, hprevrows, x, hcx, heq⟩
          · rw [hnone] at hff
            exact absurd hff (by simp)
          · rw [heq] at hff
            have hxidx := Option.some.inj hff
            rcases ffCols_range_spec W D SA g0 g1 i0
                (max (casJmax SA g0 g1 i0) 1) with
              ⟨hcnone, _⟩ | ⟨j0, hj0, hhit, hjprev, hceq⟩
            · rw [hcnone] at hcx
              exact absurd hcx (by simp)
            · rw [hceq] at hcx
              have hxval := Option.some.inj hcx
              have hidx : idx = i0 * SA * W + j0 * W +
                  bit_find_first (combine_and_sub_block W D g0 g1 i0 j0).2 :=
                (hxval.trans hxidx).symm
              obtain ⟨hq, hz2⟩ := combine_and_sub_block_spec W SA D hD hcov
                g0 g1 hne hwf0 hwf1 i0 j0
              obtain ⟨hany, hlen⟩ := hz2 hhit
              obtain ⟨hfl, hfv, hfprev⟩ := findIdx_first _ hany
              have hb0W : bit_find_first
                  (combine_and_sub_block W D g0 g1 i0 j0).2 < W := by
                have h2 := hfl
                rw [hlen] at h2
                exact h2
              have hj0SA : j0 < SA := by
                have h1 := casJmax_le SA hSA g0 g1 i0
                have h2 := casJmax_ge_two SA g0 g1 i0
                omega
              have hassoc : i0 * SA * W = i0 * (SA * W) := by ring
              obtain ⟨hc1, hc2, hc3⟩ := idx_comp W SA hW (by omega) hj0SA hb0W
                (i := i0)
              constructor
              · rw [andAllBits_eq, orAnyBits_eq, hidx, hassoc, hc1, hc2, hc3]
                have hqb := hq (bit_find_first
                  (combine_and_sub_block W D g0 g1 i0 j0).2) hb0W
                rw [hhit, Bool.true_and] at hqb
                rw [← hqb]
                exact hfv
              · intro m hm
                by_contra hPmne
                have hPm : (andAllBits W SA g0 m &&
                    !(orAnyBits W SA g1 m)) = true := by
                  cases h : (andAllBits W SA g0 m && !(orAnyBits W SA g1 m))
                  · exact absurd h hPmne
                  · rfl
                obtain ⟨hiT, hjT, hhitm, hgm⟩ := andSub_true_loc W SA D hW hSA
                  hD hcov g0 g1 hne hwf0 hwf1 (ffTop SA g0 g1)
                  (ffTop_covers SA g0 g1) m hPm
                have hdm := idx_decomp W SA m
                have hjm : (m / W) % SA < SA := Nat.mod_lt _ (by omega)
                have hbm : m % W < W := Nat.mod_lt _ hW
                rcases Nat.lt_trichotomy (m / (SA * W)) i0 with hlt | heqi | hgt
                · have hcn := hprevrows (m / (SA * W)) hlt
                  rcases ffCols_range_spec W D SA g0 g1 (m / (SA * W))
                      (max (casJmax SA g0 g1 (m / (SA * W))) 1) with
                    ⟨_, hall⟩ | ⟨j, _, _, _, he⟩
                  · have h2 := hall ((m / W) % SA) hjT
                    rw [hhitm] at h2
                    exact absurd h2 (by simp)
                  · rw [he] at hcn
                    exact absurd hcn (by simp)
                · rcases Nat.lt_trichotomy ((m / W) % SA) j0 with
                    hltj | heqj | hgtj
                  · have h2 := hjprev ((m / W) % SA) hltj
                    rw [heqi] at hhitm
                    rw [hhitm] at h2
                    exact absurd h2 (by simp)
                  · rw [heqi, heqj] at hgm
                    rcases Nat.lt_trichotomy (m % W) (bit_find_first
                        (combine_and_sub_block W D g0 g1 i0 j0).2) with
                      hltb | heqb | hgtb
                    · have h2 := hfprev (m % W) hltb
                      rw [hgm] at h2
                      exact absurd h2 (by simp)
                    · have hmeq : m = idx := by
                        rw [hidx, hassoc, ← heqb, ← heqj, ← heqi]
                        exact hdm.symm
                      omega
                    · have hlex := lex_lt W SA hjm hbm hj0SA hb0W
                        (Or.inr (Or.inr ⟨heqi.symm, heqj.symm, hgtb⟩))
                      rw [hdm] at hlex
                      have h2 : idx < m := by
                        rw [hidx, hassoc]
                        exact hlex
                      omega
                  · have hlex := lex_lt W SA hjm hbm hj0SA hb0W
                      (Or.inr (Or.inl ⟨heqi.symm, hgtj⟩))
                    rw [hdm] at hlex
                    have h2 : idx < m := by
                      rw [hidx, hassoc]
                      exact hlex
                    omega
                · have hlex := lex_lt W SA hjm hbm hj0SA hb0W (Or.inl hgt)
                  rw [hdm] at hlex
                  have h2 : idx < m := by
                    rw [hidx, hassoc]
                    exact hlex
                  omega
  · intro hok m
    unfold find_first_and_sub at hok
    by_cases hcap0 : ¬ (g0.length < max_aggregator_cap)
    · rw [if_pos hcap0] at hok
      exact absurd hok (by simp)
    · rw [if_neg hcap0] at hok
      by_cases hcap1 : ¬ (g1.length < max_aggregator_cap)
      · rw [if_pos hcap1] at hok
        exact absurd hok (by simp)
      · rw [if_neg hcap1] at hok
        by_cases hz : g0.length = 0
        · exact absurd (List.eq_nil_of_length_eq_zero hz) hne
        · rw [if_neg hz] at hok
          have hok2 : Except.ok (ffRows W D SA g0 g1
              (List.range (ffTop SA g0 g1))) =
              (Except.ok (none : Option Nat) : Except AggErr (Option Nat)) := hok
          have hff := Except.ok.inj hok2
          by_contra hPmne
          have hPm : (andAllBits W SA g0 m && !(orAnyBits W SA g1 m)) = true := by
            cases h : (andAllBits W SA g0 m && !(orAnyBits W SA g1 m))
            · exact absurd h hPmne
            · rfl
          obtain ⟨hiT, hjT, hhitm, _⟩ := andSub_true_loc W SA D hW hSA hD hcov
            g0 g1 hne hwf0 hwf1 (ffTop SA g0 g1) (ffTop_covers SA g0 g1) m hPm
          rcases ffRows_range_spec W D SA g0 g1 (ffTop SA g0 g1) with
            ⟨hn, hall⟩ | ⟨i0, hi0, hprev, x, hcx, heq⟩
          · have hcn := hall (m / (SA * W)) hiT
            rcases ffCols_range_spec W D SA g0 g1 (m / (SA * W))
                (max (casJmax SA g0 g1 (m / (SA * W))) 1) with
              ⟨_, hallj⟩ | ⟨j, _, _, _, he⟩
            · have h2 := hallj ((m / W) % SA) hjT
              rw [hhitm] at h2
              exact absurd h2 (by simp)
            · rw [he] at hcn
              exact absurd hcn (by simp)
          · rw [heq] at hff
            exact absurd hff (by simp)

theorem C3_find_first_minimal_witness :
    (0 < 4 ∧ 2 ≤ 2 ∧ 0 < 2 ∧ (4 + 2 - 1) / 2 ≤ 64 ∧
     ([(⟨[], 0⟩ : BVec)] : List BVec) ≠ [] ∧
     bvsWF 4 2 [(⟨[], 0⟩ : BVec)] = true ∧
     bvsWF 4 2 ([] : List BVec) = true) ∧
    ((∀ idx, find_first_and_sub 4 2 2 [(⟨[], 0⟩ : BVec)] [] =
        Except.ok (some idx) →
      (andAllBits 4 2 [(⟨[], 0⟩ : BVec)] idx &&
        !(orAnyBits 4 2 ([] : List BVec) idx)) = true ∧
      ∀ m, m < idx → (andAllBits 4 2 [(⟨[], 0⟩ : BVec)] m &&
        !(orAnyBits 4 2 ([] : List BVec) m)) = false) ∧
     (find_first_and_sub 4 2 2 [(⟨[], 0⟩ : BVec)] [] = Except.ok none →
      ∀ m, (andAllBits 4 2 [(⟨[], 0⟩ : BVec)] m &&
        !(orAnyBits 4 2 ([] : List BVec) m)) = false)) :=
  ⟨⟨by decide, by decide, by decide, by decide, by simp, by decide, by decide⟩,
   C3_find_first_minimal 4 2 2 (by decide) (by decide) (by decide) (by decide)
     [(⟨[], 0⟩ : BVec)] [] (by simp) (by decide) (by decide)⟩

/-- C1: for well-formed source groups, the multi-way reductions
`combine_or`, `combine_and` and `combine_and_sub` (in its non-`any`
mode) produce a target bit-for-bit equal to the horizontal pairwise-loop
reference reductions; in particular `combine_and_sub` over a non-empty
AND group equals AND(group0) ∧ ¬OR(group1) at every bit. -/
theorem C1_drivers_equal_horizontal (W SA D : Nat) (hW : 0 < W) (hSA : 2 ≤ SA)
    (hD : 0 < D) (hcov : (W + D - 1) / D ≤ 64) :
    (∀ (srcs : List BVec) (t u : BVec), bvsWF W SA srcs = true →
      combine_or W SA t srcs = Except.ok u →
      ∀ n, bvBit W SA u n = combine_or_horizontal W SA srcs n) ∧
    (∀ (srcs : List BVec) (t u : BVec), bvsWF W SA srcs = true →
      combine_and W SA D t srcs = Except.ok u →
      ∀ n, bvBit W SA u n = combine_and_horizontal W SA srcs n) ∧
    (∀ (g0 g1 : List BVec) (t u : BVec) (fl : Bool), g0 ≠ [] →
      bvsWF W SA g0 = true → bvsWF W SA g1 = true →
      combine_and_sub W SA D t g0 g1 false = Except.ok (u, fl) →
      ∀ n, bvBit W SA u n = combine_and_sub_horizontal W SA g0 g1 n ∧
        bvBit W SA u n = (andAllBits W SA g0 n && !(orAnyBits W SA g1 n))) := by
  refine ⟨?_, ?_, ?_⟩
  · intro srcs t u hwf hok n
    exact combine_or_bit W SA hW hSA srcs hwf t u hok n
  · intro srcs t u hwf hok n
    exact combine_and_bit W SA D hW hSA hD hcov srcs hwf t u hok n
  · intro g0 g1 t u fl hne hwf0 hwf1 hok n
    have h1 := combine_and_sub_bit W SA D hW hSA hD hcov g0 g1 hne hwf0 hwf1
      t u fl hok n
    refine ⟨h1, ?_⟩
    rw [h1, combine_and_sub_horizontal_eq W SA hne g1 n]

theorem C1_drivers_equal_horizontal_witness :
    (0 < 4 ∧ 2 ≤ 2 ∧ 0 < 2 ∧ (4 + 2 - 1) / 2 ≤ 64) ∧
    ((∀ (srcs : List BVec) (t u : BVec), bvsWF 4 2 srcs = true →
        combine_or 4 2 t srcs = Except.ok u →
        ∀ n, bvBit 4 2 u n = combine_or_horizontal 4 2 srcs n) ∧
     (∀ (srcs : List BVec) (t u : BVec), bvsWF 4 2 srcs = true →
        combine_and 4 2 2 t srcs = Except.ok u →
        ∀ n, bvBit 4 2 u n = combine_and_horizontal 4 2 srcs n) ∧
     (∀ (g0 g1 : List BVec) (t u : BVec) (fl : Bool), g0 ≠ [] →
        bvsWF 4 2 g0 = true → bvsWF 4 2 g1 = true →
        combine_and_sub 4 2 2 t g0 g1 false = Except.ok (u, fl) →
        ∀ n, bvBit 4 2 u n = combine_and_sub_horizontal 4 2 g0 g1 n ∧
          bvBit 4 2 u n = (andAllBits 4 2 g0 n && !(orAnyBits 4 2 g1 n)))) :=
  ⟨by decide, C1_drivers_equal_horizontal 4 2 2 (by decide) (by decide)
    (by decide) (by decide)⟩

-- ---------------------------------------------------------------------
-- Claim C2: combine_shift_right_and
-- ---------------------------------------------------------------------

/-- The claim-side formula of C2, following the spec's words: bit `b` of
the shift-AND target is the product over all sources of `v_k[b-1]`, with
`v_k[-1] = 0`. -/
def claimShiftAndBit (W SA : Nat) (srcs : List BVec) (b : Nat) : Bool :=
  srcs.all (fun v => if b = 0 then false else bvBit W SA v (b - 1))

/-- C2 counterexample input: a single source with bit 0 set. -/
def c2v : BVec := ⟨[some [Slot.plain [true, false, false, false], Slot.null]], 16⟩

/-- The source holds no GAP blocks anywhere. -/
def noGaps (bv : BVec) : Bool :=
  bv.top.all (fun r => match r with
    | none => true
    | some row => row.all (fun s => match s with
        | Slot.gap _ => false
        | _ => true))

theorem noGaps_get {v0 : BVec} (h : noGaps v0 = true) (i j : Nat)
    (g : List Bool) : get_block_ptr v0 i j ≠ Slot.gap g := by
  intro hc
  rw [get_via_top] at hc
  cases hx : v0.top.getD i none with
  | none =>
    rw [hx] at hc
    simp at hc
  | some row =>
    rw [hx] at hc
    have hmem : Slot.gap g ∈ row := getD_mem_of_ne row j Slot.null _ hc (by simp)
    have hrow : some row ∈ v0.top := getD_mem_of_ne v0.top i none _ hx (by simp)
    unfold noGaps at h
    rw [List.all_eq_true] at h
    have h3 : row.all (fun s => match s with
        | Slot.gap _ => false
        | _ => true) = true := h (some row) hrow
    rw [List.all_eq_true] at h3
    have h4 := h3 _ hmem
    simp at h4

/-- The block committed for slot (i, j) by the single-source shift-AND
sweep. -/
def csraSlotBlk (W SA : Nat) (v0 : BVec) (i j : Nat) : BitBlk :=
  let base := match get_block_ptr v0 i j with
    | Slot.plain p => p
    | Slot.full => List.replicate W true
    | Slot.gap g => bbAnd (bit_block_set W false) g
    | Slot.null => bit_block_set W false
  if i * SA + j = SA * SA - 1 then base.set (W - 1) false else base

theorem csra_block_single (W SA : Nat) (v0 : BVec) (i j : Nat) (t : BVec) :
    csra_block W SA [v0] i j t [false] =
      if get_block_ptr v0 i j = Slot.null then (t, [false], false)
      else (setSlot SA t i j (Slot.plain (csraSlotBlk W SA v0 i j)),
        [false], true) := by
  simp only [csra_block]
  unfold csraSlotBlk
  cases hs : get_block_ptr v0 i j with
  | null =>
    rw [if_pos (rfl : Slot.null = Slot.null)]
    rfl
  | plain p =>
    rw [if_neg (show ¬ Slot.plain p = Slot.null by simp)]
    rfl
  | full =>
    rw [if_neg (show ¬ Slot.full = Slot.null by simp)]
    rfl
  | gap g =>
    rw [if_neg (show ¬ Slot.gap g = Slot.null by simp)]
    rfl

theorem csraJs_false_cons (W SA : Nat) (v0 : BVec) (i j : Nat)
    (rest : List Nat) (t : BVec) (cs : List Bool) :
    csraJs W SA [v0] false i (j :: rest) t cs =
      csraJs W SA [v0] false i rest (csra_block W SA [v0] i j t cs).1
        (csra_block W SA [v0] i j t cs).2.1 := by
  show (if (csra_block W SA [v0] i j t cs).2.2 = true ∧ false = true then
      ((csra_block W SA [v0] i j t cs).1,
       (csra_block W SA [v0] i j t cs).2.1, true)
    else csraJs W SA [v0] false i rest (csra_block W SA [v0] i j t cs).1
      (csra_block W SA [v0] i j t cs).2.1) = _
  rw [if_neg (by simp)]

theorem csraJs_false_append (W SA : Nat) (v0 : BVec) (i : Nat)
    (a b : List Nat) : ∀ (t : BVec) (cs : List Bool),
    csraJs W SA [v0] false i (a ++ b) t cs =
      csraJs W SA [v0] false i b (csraJs W SA [v0] false i a t cs).1
        (csraJs W SA [v0] false i a t cs).2.1 := by
  induction a with
  | nil => intro t cs; rfl
  | cons j rest ih =>
    intro t cs
    rw [List.cons_append, csraJs_false_cons, csraJs_false_cons]
    rw [ih]

theorem csraJs_single_spec (W SA : Nat) (v0 : BVec) (i : Nat) (m : Nat)
    (hm : m ≤ SA) (t : BVec) (hrows : rowsSA SA t) :
    (csraJs W SA [v0] false i (List.range m) t [false]).2.1 = [false] ∧
    (csraJs W SA [v0] false i (List.range m) t [false]).2.2 = false ∧
    rowsSA SA (csraJs W SA [v0] false i (List.range m) t [false]).1 ∧
    (∀ i' j', i' ≠ i →
      get_block_ptr (csraJs W SA [v0] false i (List.range m) t [false]).1 i' j' =
      get_block_ptr t i' j') ∧
    (∀ j', get_block_ptr t i j' = Slot.null →
      get_block_ptr (csraJs W SA [v0] false i (List.range m) t [false]).1 i j' =
        if j' < m ∧ get_block_ptr v0 i j' ≠ Slot.null
        then Slot.plain (csraSlotBlk W SA v0 i j')
        else Slot.null) := by
  induction m with
  | zero =>
    refine ⟨rfl, rfl, hrows, fun i' j' _ => rfl, fun j' h0 => ?_⟩
    rw [if_neg (by intro hc; omega)]
    exact h0
  | succ k ih =>
    obtain ⟨ih1, ih2, ih3, ih4, ih5⟩ := ih (by omega)
    have estep : csraJs W SA [v0] false i (List.range (k + 1)) t [false] =
        csraJs W SA [v0] false i [k]
          (csraJs W SA [v0] false i (List.range k) t [false]).1
          (csraJs W SA [v0] false i (List.range k) t [false]).2.1 := by
      rw [List.range_succ, csraJs_false_append]
    rw [estep, ih1]
    have e1 : ∀ (t2 : BVec),
        csraJs W SA [v0] false i [k] t2 [false] =
        ((csra_block W SA [v0] i k t2 [false]).1,
         (csra_block W SA [v0] i k t2 [false]).2.1, false) := by
      intro t2
      rw [csraJs_false_cons]
      rfl
    rw [e1]
    rw [csra_block_single]
    by_cases hs : get_block_ptr v0 i k = Slot.null
    · rw [if_pos hs]
      refine ⟨rfl, rfl, ih3, ih4, ?_⟩
      intro j' h0
      rw [ih5 j' h0]
      by_cases hjk : j' = k
      · subst hjk
        rw [if_neg (by intro hc; omega), if_neg (by intro hc; exact hc.2 hs)]
      · by_cases h2 : j' < k ∧ get_block_ptr v0 i j' ≠ Slot.null
        · rw [if_pos h2, if_pos ⟨by omega, h2.2⟩]
        · rw [if_neg h2, if_neg (by intro hc; exact h2 ⟨by omega, hc.2⟩)]
    · rw [if_neg hs]
      refine ⟨rfl, rfl, setSlot_rowsSA SA _ i k _ ih3, ?_, ?_⟩
      · intro i' j' hne
        show get_block_ptr (setSlot SA
          (csraJs W SA [v0] false i (List.range k) t [false]).1 i k
          (Slot.plain (csraSlotBlk W SA v0 i k))) i' j' = _
        rw [setSlot_get_other SA _ i k _ i' j' (Or.inl hne)]
        exact ih4 i' j' hne
      · intro j' h0
        show get_block_ptr (setSlot SA
          (csraJs W SA [v0] false i (List.range k) t [false]).1 i k
          (Slot.plain (csraSlotBlk W SA v0 i k))) i j' = _
        by_cases hjk : j' = k
        · subst hjk
          rw [setSlot_get_same SA _ i j' _ (by omega) ih3]
          rw [if_pos ⟨by omega, hs⟩]
        · rw [setSlot_get_other SA _ i k _ i j' (Or.inr hjk)]
          rw [ih5 j' h0]
          by_cases h2 : j' < k ∧ get_block_ptr v0 i j' ≠ Slot.null
          · rw [if_pos h2, if_pos ⟨by omega, h2.2⟩]
          · rw [if_neg h2, if_neg (by intro hc; exact h2 ⟨by omega, hc.2⟩)]

theorem csraIs_single_spec (W SA : Nat) (v0 : BVec) (top : Nat)
    (htopv : v0.top.length ≤ top + 1) :
    ∀ (l : List Nat), l.Pairwise (· < ·) → ∀ (t : BVec), rowsSA SA t →
    (∀ i' ∈ l, ∀ j', get_block_ptr t i' j' = Slot.null) →
    rowsSA SA (csraIs W SA [v0] false top l t [false]).1 ∧
    (∀ i' j', get_block_ptr (csraIs W SA [v0] false top l t [false]).1 i' j' =
      if i' ∈ l ∧ j' < SA ∧ get_block_ptr v0 i' j' ≠ Slot.null
      then Slot.plain (csraSlotBlk W SA v0 i' j')
      else get_block_ptr t i' j') := by
  intro l
  induction l with
  | nil =>
    intro _ t hrows _
    refine ⟨hrows, fun i' j' => ?_⟩
    rw [if_neg (by intro hc; simp at hc)]
    rfl
  | cons i rest ih =>
    intro hpw t hrows hnulls
    have hpw1 : ∀ a ∈ rest, i < a := (List.pairwise_cons.mp hpw).1
    have hpwr : rest.Pairwise (· < ·) := (List.pairwise_cons.mp hpw).2
    by_cases hi : i > top
    · have e : csraIs W SA [v0] false top (i :: rest) t [false] = (t, false) := by
        show (if i > top ∧ ¬ ([false].any id = true) then (t, false) else _) = _
        rw [if_pos ⟨hi, by simp⟩]
      rw [e]
      refine ⟨hrows, fun i' j' => ?_⟩
      rw [if_neg ?_]
      intro hc
      obtain ⟨hmem, hjsa, hnn⟩ := hc
      have hge : top + 1 ≤ i' := by
        rcases List.mem_cons.mp hmem with h | h
        · omega
        · have := hpw1 i' h
          omega
      exact hnn (get_top_le (by omega) j')
    · obtain ⟨hcs, hexit, hrows2, hother, hrow⟩ :=
        csraJs_single_spec W SA v0 i SA (Nat.le_refl SA) t hrows
      have e : csraIs W SA [v0] false top (i :: rest) t [false] =
          csraIs W SA [v0] false top rest
            (csraJs W SA [v0] false i (List.range SA) t [false]).1
            (csraJs W SA [v0] false i (List.range SA) t [false]).2.1 := by
        show (if i > top ∧ ¬ ([false].any id = true) then (t, false)
          else if (csraJs W SA [v0] false i (List.range SA) t [false]).2.2 = true
          then ((csraJs W SA [v0] false i (List.range SA) t [false]).1, true)
          else csraIs W SA [v0] false top rest
            (csraJs W SA [v0] false i (List.range SA) t [false]).1
            (csraJs W SA [v0] false i (List.range SA) t [false]).2.1) = _
        rw [if_neg (by intro hc; exact hi hc.1), hexit,
          if_neg Bool.false_ne_true]
      rw [e, hcs]
      have hnewnulls : ∀ i2 ∈ rest, ∀ j',
          get_block_ptr (csraJs W SA [v0] false i
            (List.range SA) t [false]).1 i2 j' = Slot.null := by
        intro i2 h2 j'
        rw [hother i2 j' (by have := hpw1 i2 h2; omega)]
        exact hnulls i2 (List.mem_cons_of_mem i h2) j'
      obtain ⟨hr1, hr2⟩ := ih hpwr _ hrows2 hnewnulls
      refine ⟨hr1, fun i' j' => ?_⟩
      rw [hr2 i' j']
      by_cases hmem : i' ∈ rest
      · by_cases hc2 : j' < SA ∧ get_block_ptr v0 i' j' ≠ Slot.null
        · rw [if_pos ⟨hmem, hc2.1, hc2.2⟩,
            if_pos ⟨List.mem_cons_of_mem i hmem, hc2.1, hc2.2⟩]
        · rw [if_neg (by intro hx; exact hc2 ⟨hx.2.1, hx.2.2⟩)]
          rw [hother i' j' (by have := hpw1 i' hmem; omega)]
          rw [if_neg (by intro hx; exact hc2 ⟨hx.2.1, hx.2.2⟩)]
      · rw [if_neg (by intro hx; exact hmem hx.1)]
        by_cases hii : i' = i
        · subst hii
          rw [hrow j' (hnulls i' (List.mem_cons_self i' rest) j')]
          by_cases hc2 : j' < SA ∧ get_block_ptr v0 i' j' ≠ Slot.null
          · rw [if_pos hc2,
              if_pos ⟨List.mem_cons_self i' rest, hc2.1, hc2.2⟩]
          · rw [if_neg hc2,
              if_neg (by intro hx; exact hc2 ⟨hx.2.1, hx.2.2⟩),
              hnulls i' (List.mem_cons_self i' rest) j']
        · rw [hother i' j' hii]
          rw [if_neg (by
            intro hx
            rcases List.mem_cons.mp hx.1 with h | h
            · exact hii h
            · exact hmem h)]

/-- C2 counterexample: with a single source whose bit 0 is set, the
target's bit 0 after `combine_shift_right_and` is 1 - the first source
is copied without any shift - while the claimed formula
`∏ v_k[bit-1]` (with `v_k[-1] = 0`) says bit 0 is always 0. -/
theorem C2_shift_and_counterexample :
    combine_shift_right_and 4 2 ⟨[], 0⟩ [c2v] false =
      Except.ok (⟨[some [Slot.plain [true, false, false, false], Slot.null],
        none], 16⟩, true) ∧
    bvBit 4 2 (⟨[some [Slot.plain [true, false, false, false], Slot.null],
        none], 16⟩ : BVec) 0 = true ∧
    claimShiftAndBit 4 2 [c2v] 0 = false := by
  refine ⟨rfl, by decide, by decide⟩

/-- C2 (amended): the per-source shift is not applied to the first
source.  For a single well-formed GAP-free source, the target produced
by `combine_shift_right_and` (non-`any` mode) is bit-for-bit the source
itself, except that the highest addressable bit is cleared; in
particular bit `b` is `v0[b]`, not `v0[b-1]` as the claim states. -/
theorem C2_shift_and_amended (W SA : Nat) (hW : 0 < W) (hSA : 2 ≤ SA)
    (v0 : BVec) (hwf : bvWF W SA v0 = true) (hng : noGaps v0 = true)
    (t u : BVec) (fl : Bool)
    (hok : combine_shift_right_and W SA t [v0] false = Except.ok (u, fl)) :
    ∀ n, bvBit W SA u n =
      (bvBit W SA v0 n && !(decide (n = SA * SA * W - 1))) := by
  intro n
  have hb : n % W < W := Nat.mod_lt _ hW
  have hj : (n / W) % SA < SA := Nat.mod_lt _ (by omega)
  unfold combine_shift_right_and at hok
  rw [if_neg (show ¬ ¬ ((List.length [v0]) < max_aggregator_cap) by
    simp [max_aggregator_cap])] at hok
  rw [if_neg (show ¬ (List.length [v0]) = 0 by simp)] at hok
  have hok2 : (if (csraIs W SA [v0] false (resize_target SA t [v0] true).2
        (List.range SA) (resize_target SA t [v0] true).1 [false]).2 = true then
      Except.ok ((csraIs W SA [v0] false (resize_target SA t [v0] true).2
        (List.range SA) (resize_target SA t [v0] true).1 [false]).1, true)
    else Except.ok ((csraIs W SA [v0] false (resize_target SA t [v0] true).2
        (List.range SA) (resize_target SA t [v0] true).1 [false]).1,
      bvAny (csraIs W SA [v0] false (resize_target SA t [v0] true).2
        (List.range SA) (resize_target SA t [v0] true).1 [false]).1)) =
      Except.ok (u, fl) := hok
  have hu : u = (csraIs W SA [v0] false (resize_target SA t [v0] true).2
      (List.range SA) (resize_target SA t [v0] true).1 [false]).1 := by
    by_cases h2 : (csraIs W SA [v0] false (resize_target SA t [v0] true).2
        (List.range SA) (resize_target SA t [v0] true).1 [false]).2 = true
    · rw [if_pos h2] at hok2
      exact (congrArg Prod.fst (Except.ok.inj hok2)).symm
    · rw [if_neg h2] at hok2
      exact (congrArg Prod.fst (Except.ok.inj hok2)).symm
  rw [hu]
  have hAll : allNone (resize_target SA t [v0] true).1 :=
    resize_target_allNone SA t [v0]
  have htopv : v0.top.length ≤ (resize_target SA t [v0] true).2 + 1 := by
    have := resize_target_covers SA t [v0] true v0 (by simp)
    omega
  have hpw : (List.range SA).Pairwise (· < ·) := List.pairwise_lt_range SA
  have hnulls : ∀ i' ∈ List.range SA, ∀ j',
      get_block_ptr (resize_target SA t [v0] true).1 i' j' = Slot.null :=
    fun i' _ j' => get_allNone hAll i' j'
  obtain ⟨_, hg⟩ := csraIs_single_spec W SA v0 (resize_target SA t [v0] true).2
    htopv (List.range SA) hpw _ (allNone_rowsSA hAll) hnulls
  unfold bvBit
  rw [hg (n / (SA * W)) ((n / W) % SA)]
  have hnW : n / (SA * W) * SA + (n / W) % SA = n / W := by
    have h3 : n / (SA * W) = n / W / SA := by
      rw [Nat.mul_comm SA W]
      exact (Nat.div_div_eq_div_mul n W SA).symm
    rw [h3, Nat.mul_comm]
    exact Nat.div_add_mod (n / W) SA
  have hsplit : n / W * W + n % W = n := by
    rw [Nat.mul_comm]
    exact Nat.div_add_mod n W
  have hKW : SA * SA * W - 1 = (SA * SA - 1) * W + (W - 1) := by
    have h1 : (SA * SA - 1) * W = SA * SA * W - W := by
      rw [Nat.sub_mul, Nat.one_mul]
    have h2 : W ≤ SA * SA * W := Nat.le_mul_of_pos_left W (by positivity)
    omega
  have hmodL : (SA * SA * W - 1) % W = W - 1 := by
    rw [hKW]
    have e2 : (SA * SA - 1) * W + (W - 1) = (W - 1) + W * (SA * SA - 1) := by
      ring
    rw [e2, Nat.add_mul_mod_self_left]
    exact Nat.mod_eq_of_lt (by omega)
  have hdivL : (SA * SA * W - 1) / W = SA * SA - 1 := by
    rw [hKW]
    have e2 : (SA * SA - 1) * W + (W - 1) = (W - 1) + W * (SA * SA - 1) := by
      ring
    rw [e2, Nat.add_mul_div_left _ _ hW, Nat.div_eq_of_lt (by omega)]
    omega
  by_cases hiSA : n / (SA * W) < SA
  · by_cases hnn : get_block_ptr v0 (n / (SA * W)) ((n / W) % SA) = Slot.null
    · rw [if_neg (by intro hc; exact hc.2.2 hnn)]
      rw [get_allNone hAll, hnn]
      rfl
    · rw [if_pos ⟨List.mem_range.mpr hiSA, hj, hnn⟩]
      cases hs : get_block_ptr v0 (n / (SA * W)) ((n / W) % SA) with
      | null => exact absurd hs hnn
      | gap g => exact absurd hs (noGaps_get hng _ _ g)
      | plain p =>
        have hplen : p.length = W := bvWF_plain_len hwf hs
        have hcb : csraSlotBlk W SA v0 (n / (SA * W)) ((n / W) % SA) =
            (if (n / (SA * W)) * SA + (n / W) % SA = SA * SA - 1
             then p.set (W - 1) false else p) := by
          unfold csraSlotBlk
          rw [hs]
        rw [hcb]
        by_cases hnb : (n / (SA * W)) * SA + (n / W) % SA = SA * SA - 1
        · rw [if_pos hnb]
          have hnWeq : n / W = SA * SA - 1 := by
            rw [← hnW]
            exact hnb
          show (p.set (W - 1) false).getD (n % W) false =
            (p.getD (n % W) false && !(decide (n = SA * SA * W - 1)))
          rw [getD_set]
          by_cases hbw : n % W = W - 1
          · rw [if_pos ⟨hbw.symm, by rw [hplen]; omega⟩]
            have hlast : n = SA * SA * W - 1 := by
              rw [hKW, ← hnWeq, ← hbw]
              exact hsplit.symm
            rw [decide_eq_true hlast]
            simp
          · rw [if_neg (by intro hc; exact hbw hc.1.symm)]
            have hnlast : ¬ (n = SA * SA * W - 1) := by
              intro heq
              exact hbw (by rw [heq, hmodL])
            rw [decide_eq_false hnlast]
            simp
        · rw [if_neg hnb]
          have hnlast : ¬ (n = SA * SA * W - 1) := by
            intro heq
            apply hnb
            rw [hnW, heq, hdivL]
          show p.getD (n % W) false =
            (p.getD (n % W) false && !(decide (n = SA * SA * W - 1)))
          rw [decide_eq_false hnlast]
          simp
      | full =>
        have hcb : csraSlotBlk W SA v0 (n / (SA * W)) ((n / W) % SA) =
            (if (n / (SA * W)) * SA + (n / W) % SA = SA * SA - 1
             then (List.replicate W true).set (W - 1) false
             else List.replicate W true) := by
          unfold csraSlotBlk
          rw [hs]
        rw [hcb]
        by_cases hnb : (n / (SA * W)) * SA + (n / W) % SA = SA * SA - 1
        · rw [if_pos hnb]
          have hnWeq : n / W = SA * SA - 1 := by
            rw [← hnW]
            exact hnb
          show ((List.replicate W true).set (W - 1) false).getD (n % W) false =
            (slotBit Slot.full (n % W) && !(decide (n = SA * SA * W - 1)))
          rw [getD_set]
          by_cases hbw : n % W = W - 1
          · rw [if_pos ⟨hbw.symm, by rw [List.length_replicate]; omega⟩]
            have hlast : n = SA * SA * W - 1 := by
              rw [hKW, ← hnWeq, ← hbw]
              exact hsplit.symm
            rw [decide_eq_true hlast]
            simp
          · rw [if_neg (by intro hc; exact hbw hc.1.symm)]
            have hnlast : ¬ (n = SA * SA * W - 1) := by
              intro heq
              exact hbw (by rw [heq, hmodL])
            rw [decide_eq_false hnlast, getD_replicate, if_pos hb]
            simp [slotBit]
        · rw [if_neg hnb]
          have hnlast : ¬ (n = SA * SA * W - 1) := by
            intro heq
            apply hnb
            rw [hnW, heq, hdivL]
          show (List.replicate W true).getD (n % W) false =
            (slotBit Slot.full (n % W) && !(decide (n = SA * SA * W - 1)))
          rw [decide_eq_false hnlast, getD_replicate, if_pos hb]
          simp [slotBit]
  · rw [if_neg (by intro hc; exact absurd (List.mem_range.mp hc.1) (by omega))]
    rw [get_allNone hAll]
    have hv0len : v0.top.length ≤ SA := by
      unfold bvWF at hwf
      exact of_decide_eq_true ((Bool.and_eq_true _ _).mp hwf).1
    rw [get_top_le (show v0.top.length ≤ n / (SA * W) by omega) ((n / W) % SA)]
    rfl

theorem C2_shift_and_amended_witness :
    (0 < 4 ∧ 2 ≤ 2 ∧ bvWF 4 2 (⟨[], 0⟩ : BVec) = true ∧
     noGaps (⟨[], 0⟩ : BVec) = true ∧
     combine_shift_right_and 4 2 ⟨[], 0⟩ [(⟨[], 0⟩ : BVec)] false =
       Except.ok ((⟨[none, none], 0⟩ : BVec), false)) ∧
    (∀ n, bvBit 4 2 (⟨[none, none], 0⟩ : BVec) n =
      (bvBit 4 2 (⟨[], 0⟩ : BVec) n && !(decide (n = 2 * 2 * 4 - 1)))) :=
  ⟨⟨by decide, by decide, by decide, by decide, rfl⟩,
   C2_shift_and_amended 4 2 (by decide) (by decide) ⟨[], 0⟩ (by decide)
     (by decide) ⟨[], 0⟩ ⟨[none, none], 0⟩ false rfl⟩

end bm
